import Mathlib

/-!
# MPIPrime: the distribute-and-merge prime finder of `mpi_prime.c`

A shallow embedding of `src/mpi_prime.c` and the properties its specification states.

Conventions of the embedding.

* C `int` counters, ranks and indices are natural numbers, array elements are integers;
  arithmetic is unbounded (signed overflow is undefined in C and not modelled).
* An array is modelled by its logical contents, a list; a read past the end of the
  list, a loop that runs out of fuel, a receive that finds no message or a message of
  the wrong size all yield `none`.  A store `a[k] = v` with `k` the number of elements
  stored so far appends `v`.
* The block of `local_primes` has `local_primes_bytes` bytes: a store into it at an index
  that does not fit yields `none`.  So does a line that does not fit the
  `char buffer[10000]` of `Print_vector`.  The blocks of `sum_count` ints
  (`all_primes`, `received_primes`, `temp`) are kept as lists with no bound of their
  own: in every reachable configuration of the reduction the list of a rank has at most
  `sum_count` elements (`held_length_le_sum_count`).
* `sqrt` of `math.h` followed by the conversion to `int` is `Nat.sqrt` (exact for
  every 32-bit `int`).
* The MPI world is a list of in-flight messages plus the log of all sends.  Every
  `MPI_Recv` of the program names its source, so which message a receive gets does not
  depend on the interleaving of the ranks.
-/

namespace MPIPrime

/-! ## Helper functions of the source -/

/-- The loop of `Is_prime`: `for (j = 2; j <= sqrt_i; j++) if (i % j == 0) return 0;`
followed by `return 1`. -/
def Is_prime_loop (i sqrt_i : Nat) : Nat → Nat → Option Nat
  | 0, _ => none
  | fuel + 1, j =>
    if j ≤ sqrt_i then
      if i % j = 0 then some 0
      else Is_prime_loop i sqrt_i fuel (j + 1)
    else some 1

/-- `int Is_prime(int i)`: `sqrt_i = sqrt(i)`, then the trial-division loop. -/
def Is_prime (i : Nat) : Option Nat :=
  let sqrt_i := Nat.sqrt i
  Is_prime_loop i sqrt_i (sqrt_i + 1) 2

/-- The loop of `Smallest_power_two`: `while (power_two < n) power_two *= 2;`. -/
def Smallest_power_two_loop (n : Nat) : Nat → Nat → Option Nat
  | 0, _ => none
  | fuel + 1, power_two =>
    if power_two < n then Smallest_power_two_loop n fuel (power_two * 2)
    else some power_two

/-- `int Smallest_power_two(int n)`: starts from `power_two = 1`. -/
def Smallest_power_two (n : Nat) : Option Nat :=
  Smallest_power_two_loop n (n + 1) 1

/-- The loop of `Sum`: `for (i = 0, sum = 0; i < n; i++) sum += A[i];`. -/
def Sum_loop (A : List Nat) (n : Nat) : Nat → Nat → Nat → Option Nat
  | 0, _, _ => none
  | fuel + 1, i, sum =>
    if i < n then
      match A[i]? with
      | some a => Sum_loop A n fuel (i + 1) (sum + a)
      | none => none
    else some sum

/-- `int Sum(int A[], int n)`. -/
def Sum (A : List Nat) (n : Nat) : Option Nat :=
  Sum_loop A n (n + 1) 0 0

/-! ## Merge -/

/-- The state of `Merge` between its loops: the three indices and the part of `temp_p`
written so far. -/
structure MergeState where
  all_i : Nat
  received_i : Nat
  temp_i : Nat
  temp_p : List Int
deriving DecidableEq

/-- The main loop of `Merge`:
`while (all_i < all_count_t && received_i < received_count)`, taking the element of
`all_p` when `all_p[all_i] <= received_primes[received_i]`. -/
def Merge_loop (all_p : List Int) (all_count_t : Nat) (received_primes : List Int)
    (received_count : Nat) : Nat → MergeState → Option MergeState
  | 0, _ => none
  | fuel + 1, st =>
    if st.all_i < all_count_t ∧ st.received_i < received_count then
      match all_p[st.all_i]?, received_primes[st.received_i]? with
      | some a, some r =>
        if a ≤ r then
          Merge_loop all_p all_count_t received_primes received_count fuel
            ⟨st.all_i + 1, st.received_i, st.temp_i + 1, st.temp_p ++ [a]⟩
        else
          Merge_loop all_p all_count_t received_primes received_count fuel
            ⟨st.all_i, st.received_i + 1, st.temp_i + 1, st.temp_p ++ [r]⟩
      | _, _ => none
    else some st

/-- The first tail loop of `Merge`:
`for (; temp_i < *all_count; temp_i++, received_i++) temp_p[temp_i] = received_primes[received_i];`. -/
def Merge_tail_received (received_primes : List Int) (all_count : Nat) :
    Nat → MergeState → Option MergeState
  | 0, _ => none
  | fuel + 1, st =>
    if st.temp_i < all_count then
      match received_primes[st.received_i]? with
      | some r =>
        Merge_tail_received received_primes all_count fuel
          ⟨st.all_i, st.received_i + 1, st.temp_i + 1, st.temp_p ++ [r]⟩
      | none => none
    else some st

/-- The second tail loop of `Merge`:
`for (; temp_i < *all_count; temp_i++, all_i++) temp_p[temp_i] = all_p[all_i];`. -/
def Merge_tail_all (all_p : List Int) (all_count : Nat) :
    Nat → MergeState → Option MergeState
  | 0, _ => none
  | fuel + 1, st =>
    if st.temp_i < all_count then
      match all_p[st.all_i]? with
      | some a =>
        Merge_tail_all all_p all_count fuel
          ⟨st.all_i + 1, st.received_i, st.temp_i + 1, st.temp_p ++ [a]⟩
      | none => none
    else some st

/-- What `Merge` leaves behind: the new `*all_primes`, the new `*all_count` and the new
`*temp`. -/
structure MergeResult where
  all_primes : List Int
  all_count : Nat
  temp : List Int
deriving DecidableEq

/-- `void Merge(int** all_primes, int* all_count, int* received_primes,
int received_count, int** temp)`.  The old contents of `*temp` are overwritten from
index 0, so the writes start from the empty list. -/
def Merge (all_primes : List Int) (all_count : Nat) (received_primes : List Int)
    (received_count : Nat) (_temp : List Int) : Option MergeResult :=
  let all_p := all_primes
  let all_count_t := all_count
  let new_count := all_count_t + received_count
  match Merge_loop all_p all_count_t received_primes received_count (new_count + 1)
      ⟨0, 0, 0, []⟩ with
  | none => none
  | some st =>
    let tail :=
      if st.all_i ≥ all_count_t then
        Merge_tail_received received_primes new_count (new_count + 1) st
      else
        Merge_tail_all all_p new_count (new_count + 1) st
    match tail with
    | none => none
    | some st2 => some ⟨st2.temp_p, new_count, all_p⟩

/-- The functional counterpart of `Merge`: the two-pointer merge of two lists, ties
taken from the first list. -/
abbrev merge_lists (A B : List Int) : List Int :=
  List.merge A B (fun a b => decide (a ≤ b))

/-- `Interleaving R A B ia ib`: the positions of `R` split into the increasing index
lists `ia` and `ib`, disjoint and jointly covering every position; reading `R` along
`ia` gives `A`, along `ib` gives `B`. -/
def Interleaving (R A B : List Int) (ia ib : List Nat) : Prop :=
  ia.Sorted (· < ·) ∧ ib.Sorted (· < ·) ∧ List.Disjoint ia ib ∧
  (ia ++ ib).Perm (List.range R.length) ∧
  ia.map (fun k => R[k]?) = A.map some ∧ ib.map (fun k => R[k]?) = B.map some

/-! ## The partition loop of `main` -/

/-- `sizeof(int)`. -/
def sizeof_int : Nat := 4

/-- The argument of `local_primes = malloc(n / (2 * p) + 2 * sizeof(int))`, in bytes. -/
def local_primes_bytes (n p : Nat) : Nat := n / (2 * p) + 2 * sizeof_int

/-- The header of the partition loop alone,
`for (i = 2 * my_rank + 3; i < n; i += 2 * p)`: the values of `i` for which the body
runs, in order. -/
def candidates_loop (n p : Nat) : Nat → Nat → Option (List Nat)
  | 0, _ => none
  | fuel + 1, i =>
    if i < n then
      match candidates_loop n p fuel (i + 2 * p) with
      | some rest => some (i :: rest)
      | none => none
    else some []

/-- The candidates of rank `my_rank`. -/
def candidates (n p my_rank : Nat) : Option (List Nat) :=
  candidates_loop n p (n + 1) (2 * my_rank + 3)

/-- The variables of the partition loop. -/
structure LocalState where
  i : Nat
  local_primes : List Int
  local_count : Nat
deriving DecidableEq

/-- The partition loop:
`for (...; i < n; i += 2 * p) if (Is_prime(i)) { local_primes[local_count] = i; local_count++; }`,
storing into a block with room for `cap` ints: the store `local_primes[local_count] = i`
with `local_count ≥ cap` is outside the block and yields `none`. -/
def local_loop (n p cap : Nat) : Nat → LocalState → Option LocalState
  | 0, _ => none
  | fuel + 1, st =>
    if st.i < n then
      match Is_prime st.i with
      | none => none
      | some v =>
        if v ≠ 0 then
          if st.local_count < cap then
            local_loop n p cap fuel
              ⟨st.i + 2 * p, st.local_primes ++ [(st.i : Int)], st.local_count + 1⟩
          else none
        else
          local_loop n p cap fuel ⟨st.i + 2 * p, st.local_primes, st.local_count⟩
    else some st

/-- Lines 61-69 of `main` on rank `my_rank`: the block of
`malloc(n / (2 * p) + 2 * sizeof(int))` bytes has room for
`local_primes_bytes n p / sizeof_int` ints; the loop starts from
`i = 2 * my_rank + 3, local_count = 0`. -/
def local_phase (n p my_rank : Nat) : Option LocalState :=
  local_loop n p (local_primes_bytes n p / sizeof_int) (n + 1) ⟨2 * my_rank + 3, [], 0⟩

/-- The partition loop on every rank `0 .. k-1`. -/
def gather_locals (n p : Nat) : Nat → Option (List LocalState)
  | 0 => some []
  | k + 1 =>
    match gather_locals n p k, local_phase n p k with
    | some ls, some l => some (ls ++ [l])
    | _, _ => none

/-! ## Messages and the reduction loop of `main` -/

/-- A message handed to `MPI_Send`: sending rank, destination rank, and the `count`
integers of the buffer. -/
structure Msg where
  source : Nat
  dest : Nat
  data : List Int
deriving DecidableEq

/-- The MPI world: the messages sent and not yet received, and the log of every send. -/
structure Net where
  pending : List Msg
  sent : List Msg
deriving DecidableEq

/-- `MPI_Send(buf, count, MPI_INT, dest, 0, comm)` called by rank `source`.
A destination outside `[0, p)` or a count beyond the buffer is a fault. -/
def MPI_Send (net : Net) (buf : List Int) (count dest source p : Nat) : Option Net :=
  if dest < p ∧ count ≤ buf.length then
    some ⟨net.pending ++ [⟨source, dest, buf.take count⟩],
          net.sent ++ [⟨source, dest, buf.take count⟩]⟩
  else none

/-- `MPI_Recv(buf, count, MPI_INT, source, 0, comm, MPI_STATUS_IGNORE)` called by rank
`dest`: the first pending message from `source` to `dest`.  `none` when there is no such
message (the call blocks) or when its size is not `count` (a longer message is a
truncation error, a shorter one leaves the tail of the buffer undefined). -/
def MPI_Recv (net : Net) (count source dest : Nat) : Option (List Int × Net) :=
  match net.pending.find? (fun m => decide (m.source = source ∧ m.dest = dest)) with
  | none => none
  | some m =>
    if m.data.length = count then
      some (m.data,
        ⟨net.pending.eraseP (fun m => decide (m.source = source ∧ m.dest = dest)), net.sent⟩)
    else none

/-- The variables of one rank during the reduction. -/
structure Proc where
  all_primes : List Int
  received_primes : List Int
  temp : List Int
  my_count : Nat
  divisor : Nat
  proc_diff : Nat
  done : Nat
deriving DecidableEq

/-- The copy loop `for (i = 0; i < local_count; i++) all_primes[i] = local_primes[i];`. -/
def copy_loop (local_primes : List Int) (local_count : Nat) :
    Nat → Nat → List Int → Option (List Int)
  | 0, _, _ => none
  | fuel + 1, i, all_primes =>
    if i < local_count then
      match local_primes[i]? with
      | some v => copy_loop local_primes local_count fuel (i + 1) (all_primes ++ [v])
      | none => none
    else some all_primes

/-- Lines 83-96 of `main`: the copy into `all_primes`, then
`divisor = 2; proc_diff = 1; done = 0; my_count = local_count;`. -/
def init_proc (l : LocalState) : Option Proc :=
  match copy_loop l.local_primes l.local_count (l.local_count + 1) 0 [] with
  | none => none
  | some all_primes => some ⟨all_primes, [], [], l.local_count, 2, 1, 0⟩

/-- `init_proc` on every rank. -/
def init_procs : List LocalState → Option (List Proc)
  | [] => some []
  | l :: ls =>
    match init_proc l, init_procs ls with
    | some s, some ss => some (s :: ss)
    | _, _ => none

/-- The guard of the reduction loop: `!done && divisor <= Smallest_power_two(p)`. -/
def loop_guard (p : Nat) (s : Proc) : Option Bool :=
  match Smallest_power_two p with
  | none => none
  | some spt => some (decide (s.done = 0 ∧ s.divisor ≤ spt))

/-- The body of the reduction loop (lines 99-136 of `main`) on rank `my_rank`.
A sender whose `my_rank - proc_diff` would be negative is a fault. -/
def loop_body (p my_rank : Nat) (all_counts : List Nat) (s : Proc) (net : Net) :
    Option (Proc × Net) :=
  let i_send := my_rank % s.divisor
  if i_send ≠ 0 then
    if s.proc_diff ≤ my_rank then
      let partner := my_rank - s.proc_diff
      match MPI_Send net s.all_primes s.my_count partner my_rank p with
      | none => none
      | some net2 => some ({ s with done := 1 }, net2)
    else none
  else
    let partner := my_rank + s.proc_diff
    if partner < p then
      match Sum (all_counts.drop partner)
          (if partner + s.proc_diff < p then s.proc_diff else p - partner) with
      | none => none
      | some received_count =>
        match MPI_Recv net received_count partner my_rank with
        | none => none
        | some (received_primes, net2) =>
          match Merge s.all_primes s.my_count received_primes received_count s.temp with
          | none => none
          | some r =>
            some ({ s with
                    all_primes := r.all_primes, my_count := r.all_count, temp := r.temp,
                    received_primes := received_primes,
                    divisor := s.divisor * 2, proc_diff := s.proc_diff * 2 }, net2)
    else some ({ s with divisor := s.divisor * 2, proc_diff := s.proc_diff * 2 }, net)

/-- The state of all ranks and of the MPI world. -/
structure Config where
  procs : List Proc
  net : Net
deriving DecidableEq

/-- Rank `my_rank` makes one pass through its reduction loop; `none` when its loop has
ended, when it is blocked in `MPI_Recv`, or on a fault. -/
def step (p : Nat) (all_counts : List Nat) (my_rank : Nat) (c : Config) : Option Config :=
  match c.procs[my_rank]? with
  | none => none
  | some s =>
    match loop_guard p s with
    | some true =>
      match loop_body p my_rank all_counts s c.net with
      | some (s2, net2) => some ⟨c.procs.set my_rank s2, net2⟩
      | none => none
    | _ => none

/-- Whether the reduction loop of rank `my_rank` has ended (its guard is false). -/
def loop_ended (p : Nat) (c : Config) (my_rank : Nat) : Prop :=
  ∃ s, c.procs[my_rank]? = some s ∧ loop_guard p s = some false

/-- The reduction loop `while (!done && divisor <= Smallest_power_two(p)) { ... }` of
rank `my_rank`, run to its end. -/
def reduce_loop (p : Nat) (all_counts : List Nat) (my_rank : Nat) : Nat → Config → Option Config
  | 0, _ => none
  | fuel + 1, c =>
    match c.procs[my_rank]? with
    | none => none
    | some s =>
      match loop_guard p s with
      | none => none
      | some false => some c
      | some true =>
        match loop_body p my_rank all_counts s c.net with
        | none => none
        | some (s2, net2) =>
          reduce_loop p all_counts my_rank fuel ⟨c.procs.set my_rank s2, net2⟩

/-- The ranks `k-1, k-2, ..., 0` run their reduction loops one after the other.  A rank
only receives from higher ranks, so in this order no receive has to wait. -/
def run_below (p : Nat) (all_counts : List Nat) : Nat → Config → Option Config
  | 0, c => some c
  | k + 1, c =>
    match reduce_loop p all_counts k (p + 2) c with
    | none => none
    | some c2 => run_below p all_counts k c2

/-- The ranks make passes through their loops in the order given by `sched`; a rank
that cannot move (loop ended, or blocked in `MPI_Recv`) is skipped. -/
def run_sched (p : Nat) (all_counts : List Nat) : List Nat → Config → Config
  | [], c => c
  | r :: sched, c =>
    match step p all_counts r c with
    | some c2 => run_sched p all_counts sched c2
    | none => run_sched p all_counts sched c

/-- What the reduction phase leaves: the gathered counts, `sum_count`, and the final
configuration. -/
structure Reduced where
  all_counts : List Nat
  sum_count : Nat
  final : Config
deriving DecidableEq

/-- The configuration when every rank has passed line 96: `MPI_Allgather` of the
`local_count`s, `sum_count = Sum(all_counts, p)`, the copies, and no message sent. -/
def start_config (p : Nat) (locals : List LocalState) : Option (List Nat × Nat × Config) :=
  let all_counts := locals.map (fun l => l.local_count)
  match Sum all_counts p, init_procs locals with
  | some sum_count, some procs => some (all_counts, sum_count, ⟨procs, ⟨[], []⟩⟩)
  | _, _ => none

/-- Lines 71-137 of `main` on all ranks, from the ranks' local lists. -/
def reduction (p : Nat) (locals : List LocalState) : Option Reduced :=
  match start_config p locals with
  | none => none
  | some (all_counts, sum_count, c0) =>
    match run_below p all_counts p c0 with
    | none => none
    | some c => some ⟨all_counts, sum_count, c⟩

/-- What a run of the program does. -/
inductive Outcome where
  /-- `n <= 1`: rank 0 prints the usage message. -/
  | usage : Outcome
  /-- `n == 2`: rank 0 prints `The primes < 2 are: 2`. -/
  | two : Outcome
  /-- Otherwise: the reduction, and the numbers rank 0 prints (the `2` of the title,
  then `Print_vector` of `all_primes` with `my_count`). -/
  | reduced (r : Reduced) (line : List Int) : Outcome
deriving DecidableEq

/-- The number of characters `%d` prints for `a`. -/
def decimal_length (a : Int) : Nat :=
  (if a < 0 then 1 else 0) + (Nat.toDigits 10 a.natAbs).length

/-- The bytes `Print_vector(title, A, m, my_rank)` writes into its `buffer` when the title
is `"The primes < %d are: 2"` for `n`: `"%d> %s "` with the rank and the title
(13 + 7 characters around `n`), then `" %d "` for every element, then `" \n"`, and the
terminating zero byte. -/
def line_bytes (n : Int) (my_rank : Nat) (A : List Int) : Nat :=
  decimal_length (my_rank : Int) + 2 + (13 + decimal_length n + 7) + 1
    + (A.map (fun a => decimal_length a + 2)).sum + 2 + 1

/-- The numbers `Print_vector(title, all_primes, my_count, my_rank)` prints on rank 0
after the `2` of the title; `none` when the line does not fit `char buffer[10000]`. -/
def print_line (n : Int) (c : Config) : Option (List Int) :=
  match c.procs[0]? with
  | none => none
  | some s =>
    if s.my_count ≤ s.all_primes.length ∧
        line_bytes n 0 (s.all_primes.take s.my_count) ≤ 10000 then
      some (2 :: s.all_primes.take s.my_count)
    else none

/-- `main` on `p` ranks with input `n`. -/
def main (n : Int) (p : Nat) : Option Outcome :=
  if n ≤ 1 then some Outcome.usage
  else if n = 2 then some Outcome.two
  else
    match gather_locals n.toNat p p with
    | none => none
    | some locals =>
      match reduction p locals with
      | none => none
      | some r =>
        match print_line n r.final with
        | none => none
        | some line => some (Outcome.reduced r line)

/-- The list of numbers on the output line of a run, if it prints one. -/
def Outcome.printed : Outcome → Option (List Int)
  | Outcome.usage => none
  | Outcome.two => some [2]
  | Outcome.reduced _ line => some line

/-- The variables of rank `my_rank` at the end of its partition loop when no store is
outside the block: the loop run with room for `n` ints, which is always enough. -/
def local_of (n p my_rank : Nat) : LocalState :=
  (local_loop n p n (n + 1) ⟨2 * my_rank + 3, [], 0⟩).getD ⟨0, [], 0⟩

/-- The local states of the ranks `0 .. p-1` at the end of their partition loops when no
store is outside its block. -/
def locals_of (n p : Nat) : List LocalState :=
  (List.range p).map (local_of n p)

/-- The configurations the reduction can be in: those the ranks reach from the
configuration at line 96 by the passes of some schedule. -/
def reachable (p : Nat) (ls : List LocalState) (c : Config) : Prop :=
  ∃ all_counts sum_count c0 sched,
    start_config p ls = some (all_counts, sum_count, c0) ∧ c = run_sched p all_counts sched c0

/-- Sample local lists for three ranks, with their counts. -/
def sample_locals : List LocalState := [⟨9, [3, 7], 2⟩, ⟨11, [5], 1⟩, ⟨13, [], 0⟩]

/-- The configuration at line 96 for `sample_locals`. -/
def sample_start : Config :=
  ⟨[⟨[3, 7], [], [], 2, 2, 1, 0⟩, ⟨[5], [], [], 1, 2, 1, 0⟩, ⟨[], [], [], 0, 2, 1, 0⟩],
    ⟨[], []⟩⟩

/-- The configuration after rank 1 has made its pass from `sample_start`: it has sent its
list to rank 0, which has not received it yet. -/
def sample_config : Config := run_sched 3 [2, 1, 0] [1] sample_start

/-! ## The invariant of the reduction -/

/-- The list rank `r` holds once it has made `k` receiving passes through its reduction
loop: the merge of the local lists of the ranks `r, ..., r + 2^k - 1` below `p`, built in
the order the reduction merges them.  `Ls` are the local lists of the ranks. -/
def expected (p : Nat) (Ls : List (List Int)) : Nat → Nat → List Int
  | 0, r => Ls.getD r []
  | k + 1, r =>
    if r + 2 ^ k < p then merge_lists (expected p Ls k r) (expected p Ls k (r + 2 ^ k))
    else expected p Ls k r

/-- The variables of rank `r` in a configuration. -/
def proc_at (c : Config) (r : Nat) : Proc := c.procs.getD r ⟨[], [], [], 0, 0, 0, 0⟩

/-- The message rank `r` sends when it leaves the reduction in state `s`. -/
def msg_of (r : Nat) (s : Proc) : Msg := ⟨r, r - s.proc_diff, s.all_primes.take s.my_count⟩

/-- The state of one rank `r` at level `k` (`k` doublings of `proc_diff` so far); `m` is the
exponent of `Smallest_power_two p`. -/
structure ProcInv (p m : Nat) (Ls : List (List Int)) (r : Nat) (s : Proc) (k : Nat) : Prop where
  proc_diff_eq : s.proc_diff = 2 ^ k
  divisor_eq : s.divisor = 2 ^ (k + 1)
  dvd : 2 ^ k ∣ r
  level_le : k ≤ m
  data_eq : s.all_primes = expected p Ls k r
  count_eq : s.my_count = (expected p Ls k r).length
  done_cases : s.done = 0 ∨ (s.done = 1 ∧ ¬ 2 ^ (k + 1) ∣ r)

/-- The invariant of the reduction, kept by every pass of every rank through its loop. -/
structure Inv (p m : Nat) (Ls : List (List Int)) (c : Config) : Prop where
  /-- one state for each rank -/
  length_eq : c.procs.length = p
  /-- every rank is at some level, with the list expected at that level -/
  procs : ∀ r, r < p → ∃ k, ProcInv p m Ls r (proc_at c r) k
  /-- a pending message is the list of a rank that has left, addressed to a receiver
  that has not passed the sender's level -/
  pending_ok : ∀ x, x ∈ c.net.pending →
    x.source < p ∧ (proc_at c x.source).done = 1 ∧
    x.dest + (proc_at c x.source).proc_diff = x.source ∧
    x.data = (proc_at c x.source).all_primes ∧
    (proc_at c x.dest).proc_diff ≤ (proc_at c x.source).proc_diff
  /-- the message of a rank that has left is pending until its receiver passes that level -/
  pending_has : ∀ r, r < p → (proc_at c r).done = 1 →
    (proc_at c (r - (proc_at c r).proc_diff)).proc_diff ≤ (proc_at c r).proc_diff →
    ∃ x, x ∈ c.net.pending ∧ x.source = r
  /-- at most one pending message for each sender -/
  pending_nodup : (c.net.pending.map (fun x => x.source)).Nodup
  /-- the ranks a receiver has absorbed have all left -/
  absorbed : ∀ d t, d < t → t < p → t < d + (proc_at c d).proc_diff → (proc_at c t).done = 1
  /-- the log of sends: one message for each rank that has left, none for the others -/
  sent_ok : ∀ r, r < p →
    c.net.sent.filter (fun x => decide (x.source = r))
      = if (proc_at c r).done = 1 then [msg_of r (proc_at c r)] else []
  /-- the log only has messages of ranks below `p` -/
  sent_lt : ∀ x, x ∈ c.net.sent → x.source < p

/-! ## Theorems: the helper functions -/

theorem drop_eq_cons_of_getElem? {α : Type} (l : List α) (i : Nat) (a : α)
    (h : l[i]? = some a) : l.drop i = a :: l.drop (i + 1) := by
  obtain ⟨hi, rfl⟩ := List.getElem?_eq_some.mp h
  exact List.drop_eq_getElem_cons hi

theorem take_drop_cons {α : Type} (l : List α) (c i : Nat) (hi : i < c) (hc : c ≤ l.length) :
    ∃ a, l[i]? = some a ∧ (l.take c).drop i = a :: (l.take c).drop (i + 1) := by
  have hil : i < l.length := by omega
  refine ⟨l[i], List.getElem?_eq_getElem hil, ?_⟩
  apply drop_eq_cons_of_getElem?
  rw [List.getElem?_take_of_lt hi]
  exact List.getElem?_eq_getElem hil

theorem Merge_loop_refines (A B : List Int) (ac rc : Nat) (hac : ac ≤ A.length)
    (hrc : rc ≤ B.length) :
    ∀ (fuel : Nat) (st : MergeState),
      st.all_i ≤ ac → st.received_i ≤ rc →
      (ac - st.all_i) + (rc - st.received_i) + 1 ≤ fuel →
      ∃ st2, Merge_loop A ac B rc fuel st = some st2 ∧
        st2.all_i ≤ ac ∧ st2.received_i ≤ rc ∧
        (ac ≤ st2.all_i ∨ rc ≤ st2.received_i) ∧
        st2.temp_i + (ac - st2.all_i) + (rc - st2.received_i)
          = st.temp_i + (ac - st.all_i) + (rc - st.received_i) ∧
        st2.temp_p ++ merge_lists ((A.take ac).drop st2.all_i) ((B.take rc).drop st2.received_i)
          = st.temp_p ++ merge_lists ((A.take ac).drop st.all_i) ((B.take rc).drop st.received_i) := by
  intro fuel
  induction fuel with
  | zero => intro st _ _ h; omega
  | succ fuel ih =>
    intro st hi hj hf
    unfold Merge_loop
    by_cases hc : st.all_i < ac ∧ st.received_i < rc
    · rw [if_pos hc]
      obtain ⟨a, ha, dA⟩ := take_drop_cons A ac st.all_i hc.1 hac
      obtain ⟨b, hb, dB⟩ := take_drop_cons B rc st.received_i hc.2 hrc
      rw [ha, hb]
      simp only
      by_cases hle : a ≤ b
      · rw [if_pos hle]
        obtain ⟨st2, h1, h2, h3, h4, h5, h6⟩ :=
          ih ⟨st.all_i + 1, st.received_i, st.temp_i + 1, st.temp_p ++ [a]⟩
            (by simp; omega) (by simpa using hj) (by simp; omega)
        refine ⟨st2, h1, h2, h3, h4, ?_, ?_⟩
        · simp at h5; omega
        · rw [h6]
          simp only [merge_lists]
          conv_rhs => rw [dA, dB, List.cons_merge_cons_pos _ _ _ (by simpa using hle)]
          rw [← dB]
          simp
      · rw [if_neg hle]
        obtain ⟨st2, h1, h2, h3, h4, h5, h6⟩ :=
          ih ⟨st.all_i, st.received_i + 1, st.temp_i + 1, st.temp_p ++ [b]⟩
            (by simpa using hi) (by simp; omega) (by simp; omega)
        refine ⟨st2, h1, h2, h3, h4, ?_, ?_⟩
        · simp at h5; omega
        · rw [h6]
          simp only [merge_lists]
          conv_rhs => rw [dA, dB, List.cons_merge_cons_neg _ _ _ (by simpa using hle)]
          rw [← dA]
          simp
    · rw [if_neg hc]
      refine ⟨st, rfl, hi, hj, ?_, rfl, rfl⟩
      omega

theorem Merge_tail_received_spec (B : List Int) (rc cnt : Nat) (hrc : rc ≤ B.length) :
    ∀ (fuel : Nat) (st : MergeState),
      st.received_i ≤ rc → st.temp_i + (rc - st.received_i) = cnt →
      (rc - st.received_i) + 1 ≤ fuel →
      ∃ st2, Merge_tail_received B cnt fuel st = some st2 ∧
        st2.temp_p = st.temp_p ++ (B.take rc).drop st.received_i := by
  intro fuel
  induction fuel with
  | zero => intro st _ _ h; omega
  | succ fuel ih =>
    intro st hj hc hf
    unfold Merge_tail_received
    by_cases hlt : st.temp_i < cnt
    · rw [if_pos hlt]
      obtain ⟨b, hb, dB⟩ := take_drop_cons B rc st.received_i (by omega) hrc
      rw [hb]
      simp only
      obtain ⟨st2, h1, h2⟩ :=
        ih ⟨st.all_i, st.received_i + 1, st.temp_i + 1, st.temp_p ++ [b]⟩
          (by simp; omega) (by simp; omega) (by simp; omega)
      refine ⟨st2, h1, ?_⟩
      rw [h2, dB]
      simp
    · rw [if_neg hlt]
      refine ⟨st, rfl, ?_⟩
      have : (B.take rc).length ≤ st.received_i := by rw [List.length_take]; omega
      simp [List.drop_eq_nil_of_le this]

theorem Merge_tail_all_spec (A : List Int) (ac cnt : Nat) (hac : ac ≤ A.length) :
    ∀ (fuel : Nat) (st : MergeState),
      st.all_i ≤ ac → st.temp_i + (ac - st.all_i) = cnt →
      (ac - st.all_i) + 1 ≤ fuel →
      ∃ st2, Merge_tail_all A cnt fuel st = some st2 ∧
        st2.temp_p = st.temp_p ++ (A.take ac).drop st.all_i := by
  intro fuel
  induction fuel with
  | zero => intro st _ _ h; omega
  | succ fuel ih =>
    intro st hj hc hf
    unfold Merge_tail_all
    by_cases hlt : st.temp_i < cnt
    · rw [if_pos hlt]
      obtain ⟨a, ha, dA⟩ := take_drop_cons A ac st.all_i (by omega) hac
      rw [ha]
      simp only
      obtain ⟨st2, h1, h2⟩ :=
        ih ⟨st.all_i + 1, st.received_i, st.temp_i + 1, st.temp_p ++ [a]⟩
          (by simp; omega) (by simp; omega) (by simp; omega)
      refine ⟨st2, h1, ?_⟩
      rw [h2, dA]
      simp
    · rw [if_neg hlt]
      refine ⟨st, rfl, ?_⟩
      have : (A.take ac).length ≤ st.all_i := by rw [List.length_take]; omega
      simp [List.drop_eq_nil_of_le this]

/-- `Merge` computes the list merge of the first `all_count` elements of `all_primes`
and the first `received_count` elements of `received_primes`. -/
theorem Merge_eq_merge_lists (A B temp : List Int) (ac rc : Nat) (hac : ac ≤ A.length)
    (hrc : rc ≤ B.length) :
    Merge A ac B rc temp = some ⟨merge_lists (A.take ac) (B.take rc), ac + rc, A⟩ := by
  unfold Merge
  obtain ⟨st, h1, h2, h3, h4, h5, h6⟩ :=
    Merge_loop_refines A B ac rc hac hrc (ac + rc + 1) ⟨0, 0, 0, []⟩
      (by simp) (by simp) (by simp)
  simp only [h1]
  simp only [List.drop_zero, List.nil_append, Nat.sub_zero, Nat.zero_add] at h5 h6
  by_cases hA : st.all_i ≥ ac
  · rw [if_pos hA]
    obtain ⟨st2, e1, e2⟩ := Merge_tail_received_spec B rc (ac + rc) hrc
      (ac + rc + 1) st h3 (by omega) (by omega)
    simp only [e1, e2]
    have hl : (A.take ac).length ≤ st.all_i := by rw [List.length_take]; omega
    rw [← h6, List.drop_eq_nil_of_le hl]
    simp
  · rw [if_neg hA]
    have hB : rc ≤ st.received_i := by omega
    obtain ⟨st2, e1, e2⟩ := Merge_tail_all_spec A ac (ac + rc) hac
      (ac + rc + 1) st h2 (by omega) (by omega)
    simp only [e1, e2]
    have hl : (B.take rc).length ≤ st.received_i := by rw [List.length_take]; omega
    rw [← h6, List.drop_eq_nil_of_le hl]
    simp

theorem merge_lists_sorted (A B : List Int) (hA : A.Sorted (· ≤ ·)) (hB : B.Sorted (· ≤ ·)) :
    (merge_lists A B).Sorted (· ≤ ·) := by
  have h := @List.sorted_merge Int (fun a b : Int => decide (a ≤ b))
    (fun a b c hab hbc => by simp at *; omega)
    (fun a b => by simp; omega) A B
    (by simpa [List.Sorted] using hA) (by simpa [List.Sorted] using hB)
  simpa [List.Sorted] using h

theorem Is_prime_loop_spec (i s : Nat) :
    ∀ (fuel j : Nat), 0 < j → j ≤ s + 1 → s + 2 ≤ fuel + j →
      ∃ v, Is_prime_loop i s fuel j = some v ∧ (v = 0 ∨ v = 1) ∧
        (v ≠ 0 ↔ ∀ d, j ≤ d → d ≤ s → ¬ d ∣ i) := by
  intro fuel
  induction fuel with
  | zero => intro j _ h1 h2; omega
  | succ fuel ih =>
    intro j hj0 hj hf
    unfold Is_prime_loop
    by_cases hle : j ≤ s
    · rw [if_pos hle]
      by_cases hd : i % j = 0
      · rw [if_pos hd]
        refine ⟨0, rfl, Or.inl rfl, ?_⟩
        simp only [ne_eq, not_true_eq_false, false_iff, not_forall]
        exact ⟨j, le_refl _, hle, by simpa using Nat.dvd_of_mod_eq_zero hd⟩
      · rw [if_neg hd]
        obtain ⟨v, h1, h2, h3⟩ := ih (j + 1) (by omega) (by omega) (by omega)
        refine ⟨v, h1, h2, ?_⟩
        rw [h3]
        constructor
        · intro h d hjd hds
          rcases Nat.eq_or_lt_of_le hjd with rfl | hlt
          · intro hdvd; exact hd (Nat.mod_eq_zero_of_dvd hdvd)
          · exact h d hlt hds
        · intro h d hjd hds
          exact h d (by omega) hds
    · rw [if_neg hle]
      refine ⟨1, rfl, Or.inr rfl, ?_⟩
      simp only [ne_eq, one_ne_zero, not_false_eq_true, true_iff]
      intro d h1 h2; omega

theorem Is_prime_spec (i : Nat) :
    ∃ v, Is_prime i = some v ∧ (v = 0 ∨ v = 1) ∧
      (v ≠ 0 ↔ ∀ d, 2 ≤ d → d ≤ Nat.sqrt i → ¬ d ∣ i) := by
  unfold Is_prime
  by_cases h : 1 ≤ Nat.sqrt i
  · exact Is_prime_loop_spec i (Nat.sqrt i) (Nat.sqrt i + 1) 2 (by omega) (by omega) (by omega)
  · have h0 : Nat.sqrt i = 0 := by omega
    refine ⟨1, ?_, Or.inr rfl, ?_⟩
    · simp [h0, Is_prime_loop]
    · simp only [ne_eq, one_ne_zero, not_false_eq_true, true_iff]
      intro d h1 h2; omega

theorem Is_prime_iff_prime (i : Nat) (hi : 2 ≤ i) :
    ∃ v, Is_prime i = some v ∧ (v = 0 ∨ v = 1) ∧ (v ≠ 0 ↔ Nat.Prime i) := by
  obtain ⟨v, h1, h2, h3⟩ := Is_prime_spec i
  refine ⟨v, h1, h2, ?_⟩
  rw [h3, Nat.prime_def_le_sqrt]
  constructor
  · intro h; exact ⟨hi, h⟩
  · intro h; exact h.2

theorem Smallest_power_two_loop_spec (n : Nat) :
    ∀ (fuel k : Nat), k ≤ n → n + 1 ≤ fuel + k →
      ∃ m, k ≤ m ∧ Smallest_power_two_loop n fuel (2 ^ k) = some (2 ^ m) ∧ n ≤ 2 ^ m ∧
        (m = k ∨ 2 ^ (m - 1) < n) := by
  intro fuel
  induction fuel with
  | zero => intro k h1 h2; omega
  | succ fuel ih =>
    intro k hk hf
    unfold Smallest_power_two_loop
    by_cases hlt : 2 ^ k < n
    · rw [if_pos hlt]
      have hk2 : k < 2 ^ k := Nat.lt_two_pow k
      obtain ⟨m, h1, h2, h3, h4⟩ := ih (k + 1) (by omega) (by omega)
      refine ⟨m, by omega, ?_, h3, ?_⟩
      · rw [← h2, pow_succ]
      · rcases h4 with h4 | h4
        · right; subst h4; simpa using hlt
        · right; exact h4
    · rw [if_neg hlt]
      exact ⟨k, le_refl _, rfl, by omega, Or.inl rfl⟩

theorem Smallest_power_two_spec (n : Nat) :
    ∃ m, Smallest_power_two n = some (2 ^ m) ∧ n ≤ 2 ^ m ∧ (m = 0 ∨ 2 ^ (m - 1) < n) := by
  obtain ⟨m, _, h2, h3, h4⟩ := Smallest_power_two_loop_spec n (n + 1) 0 (by omega) (by omega)
  exact ⟨m, by simpa [Smallest_power_two] using h2, h3, h4⟩

theorem Sum_loop_spec (A : List Nat) (n : Nat) (hn : n ≤ A.length) :
    ∀ (fuel i sum : Nat), i ≤ n → n + 1 ≤ fuel + i →
      Sum_loop A n fuel i sum = some (sum + ((A.take n).drop i).sum) := by
  intro fuel
  induction fuel with
  | zero => intro i _ h1 h2; omega
  | succ fuel ih =>
    intro i sum hi hf
    unfold Sum_loop
    by_cases hlt : i < n
    · rw [if_pos hlt]
      obtain ⟨a, ha, hd⟩ := take_drop_cons A n i hlt hn
      rw [ha]
      simp only
      rw [ih (i + 1) (sum + a) (by omega) (by omega), hd]
      simp [Nat.add_assoc]
    · rw [if_neg hlt]
      have : (A.take n).length ≤ i := by rw [List.length_take]; omega
      simp [List.drop_eq_nil_of_le this]

theorem Sum_spec (A : List Nat) (n : Nat) (hn : n ≤ A.length) :
    Sum A n = some (A.take n).sum := by
  unfold Sum
  rw [Sum_loop_spec A n hn (n + 1) 0 0 (by omega) (by omega)]
  simp

/-! ## Theorems: the merge of two lists -/

theorem map_getElem?_range (R : List Int) :
    (List.range R.length).map (fun k => R[k]?) = R.map some := by
  apply List.ext_getElem?
  intro i
  by_cases h : i < R.length
  · simp [h, List.getElem?_eq_getElem]
  · have h1 : (List.range R.length)[i]? = none := by
      apply List.getElem?_eq_none; simpa using h
    have h2 : R[i]? = none := List.getElem?_eq_none (by omega)
    simp [h1, h2]

theorem Interleaving_left_only (A : List Int) : Interleaving A A [] (List.range A.length) [] := by
  refine ⟨List.sorted_lt_range _, List.sorted_nil, by simp, by simp, map_getElem?_range A, rfl⟩

theorem Interleaving_right_only (B : List Int) : Interleaving B [] B [] (List.range B.length) := by
  refine ⟨List.sorted_nil, List.sorted_lt_range _, by simp, by simp, rfl, map_getElem?_range B⟩

theorem sorted_map_succ (l : List Nat) (h : l.Sorted (· < ·)) :
    (l.map (· + 1)).Sorted (· < ·) := by
  unfold List.Sorted at *
  rw [List.pairwise_map]
  exact h.imp (by intro a b hab; omega)

theorem Interleaving_cons_left (x : Int) (R A B : List Int) (ia ib : List Nat)
    (h : Interleaving R A B ia ib) :
    Interleaving (x :: R) (x :: A) B (0 :: ia.map (· + 1)) (ib.map (· + 1)) := by
  obtain ⟨h1, h2, h3, h4, h5, h6⟩ := h
  refine ⟨?_, sorted_map_succ _ h2, ?_, ?_, ?_, ?_⟩
  · rw [List.sorted_cons]
    refine ⟨?_, sorted_map_succ _ h1⟩
    intro b hb
    simp at hb
    obtain ⟨a, _, rfl⟩ := hb
    omega
  · intro a ha hb
    simp at ha hb
    obtain ⟨b, hb, rfl⟩ := hb
    rcases ha with ha | ⟨c, hc, hce⟩
    · omega
    · have : c = b := by omega
      subst this
      exact h3 hc hb
  · simp only [List.cons_append, List.length_cons, List.range_succ_eq_map, ← List.map_append]
    exact List.Perm.cons _ (h4.map _)
  · simp [List.map_map, Function.comp_def, ← h5]
  · simp [List.map_map, Function.comp_def, ← h6]

theorem Interleaving_cons_right (x : Int) (R A B : List Int) (ia ib : List Nat)
    (h : Interleaving R A B ia ib) :
    Interleaving (x :: R) A (x :: B) (ia.map (· + 1)) (0 :: ib.map (· + 1)) := by
  obtain ⟨h1, h2, h3, h4, h5, h6⟩ := h
  refine ⟨sorted_map_succ _ h1, ?_, ?_, ?_, ?_, ?_⟩
  · rw [List.sorted_cons]
    refine ⟨?_, sorted_map_succ _ h2⟩
    intro b hb
    simp at hb
    obtain ⟨a, _, rfl⟩ := hb
    omega
  · intro a ha hb
    simp at ha hb
    obtain ⟨b, hb', rfl⟩ := ha
    rcases hb with hb | ⟨c, hc, hce⟩
    · omega
    · have : c = b := by omega
      subst this
      exact h3 hb' hc
  · refine List.perm_middle.trans ?_
    simp only [List.length_cons, List.range_succ_eq_map, ← List.map_append]
    exact List.Perm.cons _ (h4.map _)
  · simp [List.map_map, Function.comp_def, ← h5]
  · simp [List.map_map, Function.comp_def, ← h6]

theorem merge_lists_interleaving (A B : List Int) :
    ∃ ia ib : List Nat, Interleaving (merge_lists A B) A B ia ib := by
  induction A generalizing B with
  | nil => exact ⟨[], _, by simpa [merge_lists] using Interleaving_right_only B⟩
  | cons a A ihA =>
    induction B with
    | nil => exact ⟨_, [], by simpa [merge_lists] using Interleaving_left_only (a :: A)⟩
    | cons b B ihB =>
      by_cases hle : a ≤ b
      · obtain ⟨ia, ib, h⟩ := ihA (b :: B)
        refine ⟨0 :: ia.map (· + 1), ib.map (· + 1), ?_⟩
        simp only [merge_lists]
        rw [List.cons_merge_cons_pos _ _ _ (by simpa using hle)]
        exact Interleaving_cons_left a _ _ _ _ _ h
      · obtain ⟨ia, ib, h⟩ := ihB
        refine ⟨ia.map (· + 1), 0 :: ib.map (· + 1), ?_⟩
        simp only [merge_lists]
        rw [List.cons_merge_cons_neg _ _ _ (by simpa using hle)]
        exact Interleaving_cons_right b _ _ _ _ _ h

theorem sublist_merge_lists (A B : List Int) :
    A.Sublist (merge_lists A B) ∧ B.Sublist (merge_lists A B) := by
  induction A generalizing B with
  | nil => simp [merge_lists]
  | cons a A ihA =>
    induction B with
    | nil => simp [merge_lists]
    | cons b B ihB =>
      by_cases hle : a ≤ b
      · simp only [merge_lists]
        rw [List.cons_merge_cons_pos _ _ _ (by simpa using hle)]
        exact ⟨(ihA (b :: B)).1.cons₂ a, (ihA (b :: B)).2.cons a⟩
      · simp only [merge_lists]
        rw [List.cons_merge_cons_neg _ _ _ (by simpa using hle)]
        exact ⟨ihB.1.cons b, ihB.2.cons₂ b⟩

/-! ## Theorems: the partition loop -/

theorem candidates_loop_spec (n p : Nat) (hp : 1 ≤ p) :
    ∀ (fuel i0 : Nat), 1 ≤ fuel → n + 1 ≤ fuel + i0 →
      ∃ cs, candidates_loop n p fuel i0 = some cs ∧
        (∀ i, i ∈ cs ↔ (i < n ∧ ∃ k, i = i0 + 2 * p * k)) ∧ cs.Sorted (· < ·) := by
  intro fuel
  induction fuel with
  | zero => intro i0 h; omega
  | succ fuel ih =>
    intro i0 _ hf
    unfold candidates_loop
    by_cases hlt : i0 < n
    · rw [if_pos hlt]
      obtain ⟨rest, h1, h2, h3⟩ := ih (i0 + 2 * p) (by omega) (by omega)
      refine ⟨i0 :: rest, by simp [h1], ?_, ?_⟩
      · intro i
        rw [List.mem_cons, h2]
        constructor
        · rintro (rfl | ⟨hi, k, rfl⟩)
          · exact ⟨hlt, 0, by simp⟩
          · exact ⟨hi, k + 1, by ring⟩
        · rintro ⟨hi, k, rfl⟩
          cases k with
          | zero => left; simp
          | succ k => right; exact ⟨hi, k, by ring⟩
      · rw [List.sorted_cons]
        refine ⟨?_, h3⟩
        intro b hb
        obtain ⟨_, k, rfl⟩ := (h2 b).mp hb
        have : 0 ≤ 2 * p * k := Nat.zero_le _
        omega
    · rw [if_neg hlt]
      refine ⟨[], rfl, ?_, List.sorted_nil⟩
      intro i
      simp only [List.not_mem_nil, false_iff, not_and, not_exists]
      intro hi k hk
      have : 0 ≤ 2 * p * k := Nat.zero_le _
      omega

theorem candidates_spec (n p my_rank : Nat) (hp : 1 ≤ p) :
    ∃ cs, candidates n p my_rank = some cs ∧
      (∀ i, i ∈ cs ↔ (i < n ∧ ∃ k, i = 2 * my_rank + 3 + 2 * p * k)) ∧ cs.Sorted (· < ·) :=
  candidates_loop_spec n p hp (n + 1) (2 * my_rank + 3) (by omega) (by omega)

/-- The odd primes among a list of candidates, as stored in `local_primes`: the loop
returns when they all fit the block, and faults when they do not. -/
theorem local_loop_spec (n p : Nat) (hp : 1 ≤ p) :
    ∀ (fuel : Nat) (st : LocalState), 2 ≤ st.i → 1 ≤ fuel → n + 1 ≤ fuel + st.i →
      ∃ cs, candidates_loop n p fuel st.i = some cs ∧
        ∃ i2, ∀ cap, local_loop n p cap fuel st
          = if cs.filter (fun i => decide (Nat.Prime i)) = [] ∨
                st.local_count + (cs.filter (fun i => decide (Nat.Prime i))).length ≤ cap then
              some ⟨i2,
                st.local_primes ++ (cs.filter (fun i => decide (Nat.Prime i))).map Int.ofNat,
                st.local_count + (cs.filter (fun i => decide (Nat.Prime i))).length⟩
            else none := by
  intro fuel
  induction fuel with
  | zero => intro st _ h; omega
  | succ fuel ih =>
    intro st h2 _ hf
    unfold candidates_loop
    by_cases hlt : st.i < n
    · rw [if_pos hlt]
      obtain ⟨v, hv1, _, hv3⟩ := Is_prime_iff_prime st.i h2
      by_cases hv : v ≠ 0
      · obtain ⟨cs, h1, i2, h3⟩ := ih
          ⟨st.i + 2 * p, st.local_primes ++ [(st.i : Int)], st.local_count + 1⟩
          (by simp; omega) (by omega) (by simp; omega)
        simp only at h1 h3
        refine ⟨st.i :: cs, by simp [h1], i2, ?_⟩
        intro cap
        have hpr : Nat.Prime st.i := hv3.mp hv
        have hfl : ((st.i :: cs).filter (fun i => decide (Nat.Prime i)))
            = st.i :: cs.filter (fun i => decide (Nat.Prime i)) := by
          simp [List.filter_cons, hpr]
        unfold local_loop
        rw [if_pos hlt, hv1]
        simp only
        rw [if_pos hv, hfl]
        by_cases hc : st.local_count < cap
        · rw [if_pos hc, h3 cap]
          by_cases hfit : st.local_count + 1
              + (cs.filter (fun i => decide (Nat.Prime i))).length ≤ cap
          · rw [if_pos (Or.inr hfit),
              if_pos (Or.inr (by simp only [List.length_cons]; omega))]
            simp [Nat.add_assoc, Nat.add_comm]
          · have hne : cs.filter (fun i => decide (Nat.Prime i)) ≠ [] := by
              intro e
              rw [e] at hfit
              simp only [List.length_nil] at hfit
              omega
            rw [if_neg (by rintro (h | h); exact hne h; exact hfit h),
              if_neg (by
                rintro (h | h)
                · exact List.cons_ne_nil _ _ h
                · simp only [List.length_cons] at h; omega)]
        · rw [if_neg hc, if_neg (by
            rintro (h | h)
            · exact List.cons_ne_nil _ _ h
            · simp only [List.length_cons] at h; omega)]
      · obtain ⟨cs, h1, i2, h3⟩ := ih
          ⟨st.i + 2 * p, st.local_primes, st.local_count⟩
          (by simp; omega) (by omega) (by simp; omega)
        simp only at h1 h3
        refine ⟨st.i :: cs, by simp [h1], i2, ?_⟩
        intro cap
        have hpr : ¬ Nat.Prime st.i := fun h => hv (hv3.mpr h)
        have hfl : ((st.i :: cs).filter (fun i => decide (Nat.Prime i)))
            = cs.filter (fun i => decide (Nat.Prime i)) := by
          simp [List.filter_cons, hpr]
        unfold local_loop
        rw [if_pos hlt, hv1]
        simp only
        rw [if_neg hv, hfl, h3 cap]
    · rw [if_neg hlt]
      refine ⟨[], rfl, st.i, ?_⟩
      intro cap
      unfold local_loop
      rw [if_neg hlt]
      simp

/-- The partition loop of rank `my_rank` from its start values, for every size of the
block. -/
theorem local_phase_spec (n p my_rank : Nat) (hp : 1 ≤ p) :
    ∃ cs, candidates n p my_rank = some cs ∧
      ∃ i2, ∀ cap, local_loop n p cap (n + 1) ⟨2 * my_rank + 3, [], 0⟩
        = if (cs.filter (fun i => decide (Nat.Prime i))).length ≤ cap then
            some ⟨i2, (cs.filter (fun i => decide (Nat.Prime i))).map Int.ofNat,
              (cs.filter (fun i => decide (Nat.Prime i))).length⟩
          else none := by
  obtain ⟨cs, h1, i2, h2⟩ := local_loop_spec n p hp (n + 1) ⟨2 * my_rank + 3, [], 0⟩
    (by simp) (by omega) (by simp)
  refine ⟨cs, h1, i2, fun cap => ?_⟩
  rw [h2 cap]
  simp only [List.nil_append, Nat.zero_add]
  by_cases h : (cs.filter (fun i => decide (Nat.Prime i))).length ≤ cap
  · rw [if_pos (Or.inr h), if_pos h]
  · rw [if_neg h, if_neg]
    rintro (e | e)
    · rw [e] at h; simp at h
    · exact h e

/-- A strictly ascending list of numbers below `n` has at most `n` elements. -/
theorem length_le_of_sorted_lt (n : Nat) (cs : List Nat) (hs : cs.Sorted (· < ·))
    (hlt : ∀ i, i ∈ cs → i < n) : cs.length ≤ n := by
  have h : cs.Subperm (List.range n) :=
    List.subperm_of_subset hs.nodup (fun i hi => List.mem_range.mpr (hlt i hi))
  simpa using h.length_le

/-! ## Theorems: the reduction -/

/-! ### Powers of two and ranks -/

theorem level_unique (r k j : Nat) (hk : 2 ^ k ∣ r) (hk2 : ¬ 2 ^ (k + 1) ∣ r)
    (hj : 2 ^ j ∣ r) (hj2 : ¬ 2 ^ (j + 1) ∣ r) : k = j := by
  rcases Nat.lt_trichotomy k j with h | h | h
  · exact absurd (Nat.dvd_trans (Nat.pow_dvd_pow 2 h) hj) hk2
  · exact h
  · exact absurd (Nat.dvd_trans (Nat.pow_dvd_pow 2 h) hk) hj2

theorem partner_level (r k : Nat) (h : 2 ^ (k + 1) ∣ r) :
    2 ^ k ∣ r + 2 ^ k ∧ ¬ 2 ^ (k + 1) ∣ r + 2 ^ k := by
  obtain ⟨q, rfl⟩ := h
  have hpos : 0 < 2 ^ k := Nat.two_pow_pos k
  constructor
  · exact ⟨2 * q + 1, by ring⟩
  · rintro ⟨q2, h2⟩
    rw [pow_succ] at h2
    have h3 : 2 ^ k * (2 * q + 1) = 2 ^ k * (2 * q2) := by
      calc 2 ^ k * (2 * q + 1) = 2 ^ k * 2 * q + 2 ^ k := by ring
        _ = 2 ^ k * 2 * q2 := h2
        _ = 2 ^ k * (2 * q2) := by ring
    have h4 := Nat.eq_of_mul_eq_mul_left hpos h3
    omega

theorem sender_target (r k : Nat) (hk : 2 ^ k ∣ r) (hk2 : ¬ 2 ^ (k + 1) ∣ r) :
    2 ^ k ≤ r ∧ 2 ^ (k + 1) ∣ r - 2 ^ k := by
  obtain ⟨q, rfl⟩ := hk
  have hpos : 0 < 2 ^ k := Nat.two_pow_pos k
  have hq : q % 2 = 1 := by
    by_contra hq
    apply hk2
    have : q = 2 * (q / 2) := by omega
    rw [this, pow_succ]
    exact ⟨q / 2, by ring⟩
  have hq1 : q = 2 * (q / 2) + 1 := by omega
  constructor
  · calc 2 ^ k = 2 ^ k * 1 := by ring
      _ ≤ 2 ^ k * q := Nat.mul_le_mul_left _ (by omega)
  · refine ⟨q / 2, ?_⟩
    have : 2 ^ k * q = 2 ^ (k + 1) * (q / 2) + 2 ^ k := by
      conv_lhs => rw [hq1]
      rw [pow_succ]; ring
    omega

theorem level_lt_of_pos (r k m p : Nat) (hk : 2 ^ k ∣ r) (h0 : 0 < r) (hr : r < p)
    (hp : p ≤ 2 ^ m) : k < m := by
  have h1 : 2 ^ k ≤ r := Nat.le_of_dvd h0 hk
  have h2 : 2 ^ k < 2 ^ m := by omega
  exact (Nat.pow_lt_pow_iff_right (by decide)).mp h2

theorem pow_two_le_iff (a b : Nat) : 2 ^ a ≤ 2 ^ b ↔ a ≤ b :=
  Nat.pow_le_pow_iff_right (by decide)

theorem pow_two_inj (a b : Nat) (h : 2 ^ a = 2 ^ b) : a = b :=
  Nat.pow_right_injective (le_refl 2) h

/-! ### The expected lists -/

theorem expected_perm (p : Nat) (Ls : List (List Int)) (hL : Ls.length = p) :
    ∀ (k r : Nat), (expected p Ls k r).Perm ((Ls.drop r).take (2 ^ k)).flatten := by
  intro k
  induction k with
  | zero =>
    intro r
    simp only [expected, pow_zero]
    by_cases hr : r < Ls.length
    · rw [List.getD_eq_getElem _ _ hr]
      have e : (Ls.drop r).take 1 = [Ls[r]] := by
        rw [List.drop_eq_getElem_cons hr]; rfl
      rw [e]
      simp
    · rw [List.drop_eq_nil_of_le (by omega), List.getD_eq_default _ _ (by omega : Ls.length ≤ r)]
      simp
  | succ k ih =>
    intro r
    simp only [expected]
    by_cases h : r + 2 ^ k < p
    · rw [if_pos h]
      refine (List.merge_perm_append _).trans ?_
      have e : 2 ^ (k + 1) = 2 ^ k + 2 ^ k := by rw [pow_succ]; ring
      rw [e, List.take_add, List.flatten_append, List.drop_drop]
      exact (ih r).append (ih (r + 2 ^ k))
    · rw [if_neg h]
      have hpos : 0 < 2 ^ k := Nat.two_pow_pos k
      have hle : (Ls.drop r).length ≤ 2 ^ k := by rw [List.length_drop]; omega
      have hle2 : (Ls.drop r).length ≤ 2 ^ (k + 1) := by
        rw [pow_succ]; omega
      rw [List.take_of_length_le hle2, ← List.take_of_length_le hle]
      exact ih r

theorem expected_length (p : Nat) (Ls : List (List Int)) (hL : Ls.length = p) (k r : Nat) :
    (expected p Ls k r).length = (((Ls.map List.length).drop r).take (2 ^ k)).sum := by
  rw [(expected_perm p Ls hL k r).length_eq, List.length_flatten, ← List.map_drop, ← List.map_take]

theorem expected_sorted (p : Nat) (Ls : List (List Int))
    (hs : ∀ l, l ∈ Ls → l.Sorted (· ≤ ·)) :
    ∀ (k r : Nat), (expected p Ls k r).Sorted (· ≤ ·) := by
  intro k
  induction k with
  | zero =>
    intro r
    simp only [expected]
    by_cases hr : r < Ls.length
    · rw [List.getD_eq_getElem _ _ hr]
      exact hs _ (List.getElem_mem _)
    · rw [List.getD_eq_default _ _ (by omega : Ls.length ≤ r)]
      exact List.sorted_nil
  | succ k ih =>
    intro r
    simp only [expected]
    split
    · exact merge_lists_sorted _ _ (ih r) (ih _)
    · exact ih r

/-- The count a receiver computes for its partner `t` at level `k` is the length of the
list the partner holds at that level. -/
theorem received_count_eq (p : Nat) (Ls : List (List Int)) (hL : Ls.length = p)
    (k t : Nat) (ht : t < p) :
    Sum ((Ls.map List.length).drop t) (if t + 2 ^ k < p then 2 ^ k else p - t)
      = some (expected p Ls k t).length := by
  have hlen : ((Ls.map List.length).drop t).length = p - t := by simp [hL]
  rw [Sum_spec _ _ (by rw [hlen]; split <;> omega), expected_length p Ls hL]
  congr 2
  split
  · rfl
  · rw [List.take_of_length_le (by omega), List.take_of_length_le (by omega)]

/-! ### Reading and writing the state of a rank -/

theorem getElem?_eq_proc_at (c : Config) (r : Nat) (hr : r < c.procs.length) :
    c.procs[r]? = some (proc_at c r) := by
  simp [proc_at, List.getD_eq_getElem _ _ hr, List.getElem?_eq_getElem hr]

theorem getElem?_eq_some_proc_at (c : Config) (r : Nat) (s : Proc) (h : c.procs[r]? = some s) :
    r < c.procs.length ∧ s = proc_at c r := by
  obtain ⟨hr, _⟩ := List.getElem?_eq_some.mp h
  refine ⟨hr, ?_⟩
  simp [proc_at, h]

theorem proc_at_set (c : Config) (r : Nat) (s2 : Proc) (net2 : Net) (hr : r < c.procs.length)
    (r2 : Nat) :
    proc_at ⟨c.procs.set r s2, net2⟩ r2 = if r2 = r then s2 else proc_at c r2 := by
  unfold proc_at
  simp only [List.getD_eq_getElem?_getD, List.getElem?_set]
  by_cases h : r2 = r
  · subst h; simp [hr]
  · have h2 : ¬ r = r2 := fun e => h e.symm
    simp [h, h2]

theorem mem_eraseP_of_nodup_source (q : Msg → Bool) (x : Msg) :
    ∀ (l : List Msg), (l.map (fun y => y.source)).Nodup → l.find? q = some x →
      ∀ y, y ∈ l.eraseP q ↔ (y ∈ l ∧ y.source ≠ x.source) := by
  intro l
  induction l with
  | nil => intro _ h; simp at h
  | cons a l ih =>
    intro hn hf y
    rw [List.map_cons, List.nodup_cons] at hn
    by_cases hq : q a = true
    · rw [List.find?_cons_of_pos _ hq] at hf
      cases hf
      rw [List.eraseP_cons_of_pos hq]
      constructor
      · intro hy
        refine ⟨List.mem_cons_of_mem _ hy, ?_⟩
        intro e
        exact hn.1 (e ▸ List.mem_map_of_mem (fun y => y.source) hy)
      · rintro ⟨hy, hne⟩
        rcases List.mem_cons.mp hy with rfl | hy
        · exact absurd rfl hne
        · exact hy
    · rw [List.find?_cons_of_neg _ hq] at hf
      rw [List.eraseP_cons_of_neg hq, List.mem_cons, ih hn.2 hf y, List.mem_cons]
      have hx : x ∈ l := List.mem_of_find?_eq_some hf
      constructor
      · rintro (rfl | ⟨hy, hne⟩)
        · refine ⟨Or.inl rfl, ?_⟩
          intro e
          exact hn.1 (e ▸ List.mem_map_of_mem (fun y => y.source) hx)
        · exact ⟨Or.inr hy, hne⟩
      · rintro ⟨rfl | hy, hne⟩
        · exact Or.inl rfl
        · exact Or.inr ⟨hy, hne⟩

theorem ProcInv.take_eq {p m : Nat} {Ls : List (List Int)} {r k : Nat} {s : Proc}
    (h : ProcInv p m Ls r s k) : s.all_primes.take s.my_count = s.all_primes := by
  rw [h.count_eq, ← h.data_eq]
  exact List.take_length _

theorem ProcInv.proc_diff_pos {p m : Nat} {Ls : List (List Int)} {r k : Nat} {s : Proc}
    (h : ProcInv p m Ls r s k) : 0 < s.proc_diff := by
  rw [h.proc_diff_eq]; exact Nat.two_pow_pos k

/-- A sending pass keeps the invariant: rank `r` at level `k`, not yet done and with
`2^(k+1)` not dividing `r`, sets `done` and adds its message. -/
theorem Inv_send {p m : Nat} {Ls : List (List Int)} {c c2 : Config} (hI : Inv p m Ls c)
    (r : Nat) (hr : r < p) (hd : (proc_at c r).done = 0) (k : Nat)
    (hk : ProcInv p m Ls r (proc_at c r) k) (hnd : ¬ 2 ^ (k + 1) ∣ r)
    (s2 : Proc) (hs_pd : s2.proc_diff = (proc_at c r).proc_diff)
    (hs_dv : s2.divisor = (proc_at c r).divisor)
    (hs_ap : s2.all_primes = (proc_at c r).all_primes)
    (hs_mc : s2.my_count = (proc_at c r).my_count) (hs_dn : s2.done = 1)
    (hlen2 : c2.procs.length = p)
    (hat : ∀ r2, proc_at c2 r2 = if r2 = r then s2 else proc_at c r2)
    (hpend : c2.net.pending = c.net.pending ++ [msg_of r (proc_at c r)])
    (hsent : c2.net.sent = c.net.sent ++ [msg_of r (proc_at c r)]) :
    Inv p m Ls c2 := by
  have hpd : ∀ r2, (proc_at c2 r2).proc_diff = (proc_at c r2).proc_diff := by
    intro r2; rw [hat]; split
    · subst_vars; exact hs_pd
    · rfl
  have hap : ∀ r2, (proc_at c2 r2).all_primes = (proc_at c r2).all_primes := by
    intro r2; rw [hat]; split
    · subst_vars; exact hs_ap
    · rfl
  have hdn : ∀ r2, (proc_at c r2).done = 1 → (proc_at c2 r2).done = 1 := by
    intro r2 h; rw [hat]; split
    · exact hs_dn
    · exact h
  have hpos := hk.proc_diff_pos
  have htgt := sender_target r k hk.dvd hnd
  have hpdk := hk.proc_diff_eq
  refine ⟨hlen2, ?_, ?_, ?_, ?_, ?_, ?_, ?_⟩
  · intro r2 hr2
    rw [hat]
    by_cases e : r2 = r
    · subst e
      rw [if_pos rfl]
      exact ⟨k, ⟨hs_pd ▸ hk.proc_diff_eq, hs_dv ▸ hk.divisor_eq, hk.dvd, hk.level_le,
        hs_ap ▸ hk.data_eq, hs_mc ▸ hk.count_eq, Or.inr ⟨hs_dn, hnd⟩⟩⟩
    · rw [if_neg e]
      exact hI.procs r2 hr2
  · intro x hx
    rw [hpend] at hx
    simp only [List.mem_append, List.mem_singleton] at hx
    rw [hpd, hpd, hap]
    rcases hx with hx | rfl
    · obtain ⟨h1, h2, h3, h4, h5⟩ := hI.pending_ok x hx
      exact ⟨h1, hdn _ h2, h3, h4, h5⟩
    · have e1 : (msg_of r (proc_at c r)).source = r := rfl
      have e2 : (msg_of r (proc_at c r)).dest = r - (proc_at c r).proc_diff := rfl
      have e3 : (msg_of r (proc_at c r)).data
          = (proc_at c r).all_primes.take (proc_at c r).my_count := rfl
      rw [e1, e2, e3]
      refine ⟨hr, ?_, by omega, hk.take_eq, ?_⟩
      · rw [hat, if_pos rfl]; exact hs_dn
      · by_contra hcon
        have := hI.absorbed (r - (proc_at c r).proc_diff) r (by omega) hr (by omega)
        omega
  · intro r2 hr2 hd2 hle
    rw [hpd, hpd] at hle
    rw [hpend]
    by_cases e : r2 = r
    · subst e
      exact ⟨msg_of r2 (proc_at c r2), by simp, rfl⟩
    · rw [hat, if_neg e] at hd2
      obtain ⟨x, hx, hxs⟩ := hI.pending_has r2 hr2 hd2 hle
      exact ⟨x, by simp [hx], hxs⟩
  · rw [hpend]
    simp only [List.map_append, List.map_cons, List.map_nil]
    rw [List.nodup_append]
    refine ⟨hI.pending_nodup, by simp, ?_⟩
    intro a ha hb
    simp only [List.mem_singleton] at hb
    rw [hb] at ha
    obtain ⟨x, hx, hxs⟩ := List.mem_map.mp ha
    have := (hI.pending_ok x hx).2.1
    have e1 : (msg_of r (proc_at c r)).source = r := rfl
    rw [e1] at hxs
    rw [hxs] at this
    omega
  · intro d t hdt ht hlt
    rw [hpd] at hlt
    exact hdn _ (hI.absorbed d t hdt ht hlt)
  · intro r2 hr2
    rw [hsent]
    simp only [List.filter_append]
    rw [hI.sent_ok r2 hr2, hat]
    by_cases e : r2 = r
    · subst e
      have e1 : (msg_of r2 (proc_at c r2)).source = r2 := rfl
      have e4 : msg_of r2 s2 = msg_of r2 (proc_at c r2) := by
        simp only [msg_of, hs_pd, hs_ap, hs_mc]
      simp [hd, hs_dn, e1, e4]
    · have e1 : (msg_of r (proc_at c r)).source = r := rfl
      have e2 : ¬ r = r2 := fun h => e h.symm
      simp [e, e1, e2]
  · intro x hx
    rw [hsent] at hx
    simp only [List.mem_append, List.mem_singleton] at hx
    rcases hx with hx | rfl
    · exact hI.sent_lt x hx
    · exact hr

/-- A receiving pass keeps the invariant: rank `r` at level `k`, not done, with
`2^(k+1)` dividing `r`, moves to level `k + 1`; the message of its partner `r + 2^k`,
if that rank exists, leaves the pending messages. -/
theorem Inv_advance {p m : Nat} {Ls : List (List Int)} {c c2 : Config} (hI : Inv p m Ls c)
    (r : Nat) (hr : r < p) (hd : (proc_at c r).done = 0) (k : Nat)
    (hk : ProcInv p m Ls r (proc_at c r) k) (hg : k < m) (hdv : 2 ^ (k + 1) ∣ r)
    (hpart : r + 2 ^ k < p →
      (proc_at c (r + 2 ^ k)).done = 1 ∧ (proc_at c (r + 2 ^ k)).proc_diff = 2 ^ k)
    (s2 : Proc) (hs_pd : s2.proc_diff = (proc_at c r).proc_diff * 2)
    (hs_dv : s2.divisor = (proc_at c r).divisor * 2)
    (hs_ap : s2.all_primes = expected p Ls (k + 1) r)
    (hs_mc : s2.my_count = (expected p Ls (k + 1) r).length) (hs_dn : s2.done = 0)
    (hlen2 : c2.procs.length = p)
    (hat : ∀ r2, proc_at c2 r2 = if r2 = r then s2 else proc_at c r2)
    (hpend : ∀ y, y ∈ c2.net.pending ↔ (y ∈ c.net.pending ∧ y.source ≠ r + 2 ^ k))
    (hnodup : (c2.net.pending.map (fun x => x.source)).Nodup)
    (hsent : c2.net.sent = c.net.sent) :
    Inv p m Ls c2 := by
  have hpdk := hk.proc_diff_eq
  have hpos : 0 < 2 ^ k := Nat.two_pow_pos k
  have hpd_r : (proc_at c2 r).proc_diff = 2 ^ (k + 1) := by
    rw [hat, if_pos rfl, hs_pd, hpdk, pow_succ]
  have hsame : ∀ r2, r2 ≠ r → proc_at c2 r2 = proc_at c r2 := by
    intro r2 h; rw [hat, if_neg h]
  have hdone_ne : ∀ r2, (proc_at c r2).done = 1 → r2 ≠ r := by
    intro r2 h e; subst e; omega
  have hdone2_ne : ∀ r2, (proc_at c2 r2).done = 1 → r2 ≠ r := by
    intro r2 h e; subst e; rw [hat, if_pos rfl] at h; omega
  have e2 : 2 ^ (k + 1) = 2 ^ k + 2 ^ k := by rw [pow_succ]; ring
  refine ⟨hlen2, ?_, ?_, ?_, hnodup, ?_, ?_, ?_⟩
  · intro r2 hr2
    by_cases e : r2 = r
    · subst e
      rw [hat, if_pos rfl]
      refine ⟨k + 1, ⟨?_, ?_, hdv, hg, hs_ap, hs_mc, Or.inl hs_dn⟩⟩
      · rw [hs_pd, hpdk, pow_succ]
      · rw [hs_dv, hk.divisor_eq]; ring
    · rw [hsame r2 e]
      exact hI.procs r2 hr2
  · intro x hx
    obtain ⟨hx1, hx2⟩ := (hpend x).mp hx
    obtain ⟨h1, h2, h3, h4, h5⟩ := hI.pending_ok x hx1
    have hsr := hdone_ne _ h2
    rw [hsame _ hsr]
    refine ⟨h1, h2, h3, h4, ?_⟩
    by_cases e : x.dest = r
    · rw [e, hpd_r]
      rw [e, hpdk] at h5
      obtain ⟨ks, hks⟩ := hI.procs x.source h1
      rw [hks.proc_diff_eq] at h5 h3 ⊢
      have hle : k ≤ ks := (pow_two_le_iff k ks).mp h5
      have hne : ks ≠ k := by
        intro e3; subst e3; omega
      exact (pow_two_le_iff (k + 1) ks).mpr (by omega)
    · rw [hsame _ e]
      exact h5
  · intro r2 hr2 hd2 hle
    have hne := hdone2_ne r2 hd2
    rw [hsame r2 hne] at hd2 hle
    have hle2 : (proc_at c (r2 - (proc_at c r2).proc_diff)).proc_diff
        ≤ (proc_at c r2).proc_diff := by
      by_cases e : r2 - (proc_at c r2).proc_diff = r
      · rw [e] at hle ⊢
        rw [hpd_r] at hle
        rw [hpdk]; omega
      · rw [hsame _ e] at hle
        exact hle
    obtain ⟨x, hx, hxs⟩ := hI.pending_has r2 hr2 hd2 hle2
    refine ⟨x, (hpend x).mpr ⟨hx, ?_⟩, hxs⟩
    rw [hxs]
    intro e
    subst e
    obtain ⟨_, hp2⟩ := hpart hr2
    rw [hp2] at hle
    have e3 : r + 2 ^ k - 2 ^ k = r := by omega
    rw [e3, hpd_r] at hle
    omega
  · intro d t hdt ht hlt
    have key : (proc_at c t).done = 1 := by
      by_cases e : d = r
      · subst e
        rw [hpd_r] at hlt
        rcases Nat.lt_trichotomy t (d + 2 ^ k) with h | h | h
        · exact hI.absorbed d t hdt ht (by rw [hpdk]; exact h)
        · subst h
          exact (hpart ht).1
        · have hp2 := hpart (by omega)
          exact hI.absorbed (d + 2 ^ k) t h ht (by rw [hp2.2]; omega)
      · rw [hsame d e] at hlt
        exact hI.absorbed d t hdt ht hlt
    rw [hsame t (hdone_ne t key)]
    exact key
  · intro r2 hr2
    rw [hsent, hI.sent_ok r2 hr2]
    by_cases e : r2 = r
    · subst e
      rw [hat, if_pos rfl]
      simp [hd, hs_dn]
    · rw [hsame r2 e]
  · intro x hx
    rw [hsent] at hx
    exact hI.sent_lt x hx

theorem loop_guard_eq {p m : Nat} (hm : Smallest_power_two p = some (2 ^ m)) (s : Proc) :
    loop_guard p s = some (decide (s.done = 0 ∧ s.divisor ≤ 2 ^ m)) := by
  simp [loop_guard, hm]

/-- The three ways the loop body can complete. -/
theorem loop_body_cases (p my_rank : Nat) (all_counts : List Nat) (s s2 : Proc)
    (net net2 : Net) (h : loop_body p my_rank all_counts s net = some (s2, net2)) :
    (my_rank % s.divisor ≠ 0 ∧ s.proc_diff ≤ my_rank ∧ my_rank - s.proc_diff < p ∧
      s.my_count ≤ s.all_primes.length ∧ s2 = { s with done := 1 } ∧
      net2 = ⟨net.pending ++ [msg_of my_rank s], net.sent ++ [msg_of my_rank s]⟩) ∨
    (my_rank % s.divisor = 0 ∧ my_rank + s.proc_diff < p ∧
      ∃ x res,
        net.pending.find? (fun y => decide (y.source = my_rank + s.proc_diff ∧ y.dest = my_rank))
          = some x ∧
        Sum (all_counts.drop (my_rank + s.proc_diff))
          (if my_rank + s.proc_diff + s.proc_diff < p then s.proc_diff
            else p - (my_rank + s.proc_diff)) = some x.data.length ∧
        Merge s.all_primes s.my_count x.data x.data.length s.temp = some res ∧
        s2 = { s with all_primes := res.all_primes, my_count := res.all_count,
                      temp := res.temp, received_primes := x.data,
                      divisor := s.divisor * 2, proc_diff := s.proc_diff * 2 } ∧
        net2 = ⟨net.pending.eraseP
          (fun y => decide (y.source = my_rank + s.proc_diff ∧ y.dest = my_rank)), net.sent⟩) ∨
    (my_rank % s.divisor = 0 ∧ ¬ my_rank + s.proc_diff < p ∧
      s2 = { s with divisor := s.divisor * 2, proc_diff := s.proc_diff * 2 } ∧ net2 = net) := by
  unfold loop_body at h
  simp only at h
  by_cases h1 : my_rank % s.divisor ≠ 0
  · rw [if_pos h1] at h
    left
    by_cases h2 : s.proc_diff ≤ my_rank
    · rw [if_pos h2] at h
      unfold MPI_Send at h
      by_cases h3 : my_rank - s.proc_diff < p ∧ s.my_count ≤ s.all_primes.length
      · rw [if_pos h3] at h
        simp only [Option.some.injEq, Prod.mk.injEq] at h
        exact ⟨h1, h2, h3.1, h3.2, h.1.symm, h.2.symm⟩
      · rw [if_neg h3] at h
        simp at h
    · rw [if_neg h2] at h
      simp at h
  · rw [if_neg h1] at h
    right
    have h1' : my_rank % s.divisor = 0 := by omega
    by_cases h2 : my_rank + s.proc_diff < p
    · rw [if_pos h2] at h
      left
      refine ⟨h1', h2, ?_⟩
      cases hS : Sum (all_counts.drop (my_rank + s.proc_diff))
          (if my_rank + s.proc_diff + s.proc_diff < p then s.proc_diff
            else p - (my_rank + s.proc_diff)) with
      | none => rw [hS] at h; simp at h
      | some rc =>
        rw [hS] at h
        simp only at h
        unfold MPI_Recv at h
        cases hF : net.pending.find?
            (fun y => decide (y.source = my_rank + s.proc_diff ∧ y.dest = my_rank)) with
        | none => rw [hF] at h; simp at h
        | some x =>
          rw [hF] at h
          simp only at h
          by_cases hlen : x.data.length = rc
          · rw [if_pos hlen] at h
            simp only at h
            subst hlen
            cases hM : Merge s.all_primes s.my_count x.data x.data.length s.temp with
            | none => rw [hM] at h; simp at h
            | some res =>
              rw [hM] at h
              simp only [Option.some.injEq, Prod.mk.injEq] at h
              exact ⟨x, res, rfl, rfl, hM, h.1.symm, h.2.symm⟩
          · rw [if_neg hlen] at h
            simp at h
    · rw [if_neg h2] at h
      right
      simp only [Option.some.injEq, Prod.mk.injEq] at h
      exact ⟨h1', h2, h.1.symm, h.2.symm⟩

theorem mod_divisor_ne_zero_iff {p m : Nat} {Ls : List (List Int)} {r k : Nat} {s : Proc}
    (hk : ProcInv p m Ls r s k) : r % s.divisor ≠ 0 ↔ ¬ 2 ^ (k + 1) ∣ r := by
  rw [hk.divisor_eq, Nat.dvd_iff_mod_eq_zero]

/-- What a pending message from `r + 2^k` to `r` carries when `r` is at level `k`. -/
theorem pending_from_partner {p m : Nat} {Ls : List (List Int)} {c : Config}
    (hI : Inv p m Ls c) (r k : Nat) (hk : ProcInv p m Ls r (proc_at c r) k)
    (x : Msg) (hx : x ∈ c.net.pending) (hsrc : x.source = r + 2 ^ k) (hdst : x.dest = r) :
    r + 2 ^ k < p ∧ (proc_at c (r + 2 ^ k)).done = 1 ∧
      (proc_at c (r + 2 ^ k)).proc_diff = 2 ^ k ∧ x.data = expected p Ls k (r + 2 ^ k) := by
  obtain ⟨h1, h2, h3, h4, _⟩ := hI.pending_ok x hx
  rw [hsrc] at h1 h2 h3 h4
  rw [hdst] at h3
  have hpd : (proc_at c (r + 2 ^ k)).proc_diff = 2 ^ k := by omega
  obtain ⟨ks, hks⟩ := hI.procs _ h1
  have e : ks = k := pow_two_inj _ _ (hks.proc_diff_eq.symm.trans hpd)
  subst e
  exact ⟨h1, h2, hpd, h4.trans hks.data_eq⟩

/-- A completed pass of rank `r` through the body of its loop keeps the invariant. -/
theorem Inv_loop_body {p m : Nat} {Ls : List (List Int)} {c : Config} (hI : Inv p m Ls c)
    (r : Nat) (hr : r < p) (hd : (proc_at c r).done = 0) (k : Nat)
    (hk : ProcInv p m Ls r (proc_at c r) k) (hg : k < m) (s2 : Proc) (net2 : Net)
    (hb : loop_body p r (Ls.map List.length) (proc_at c r) c.net = some (s2, net2)) :
    Inv p m Ls ⟨c.procs.set r s2, net2⟩ ∧
      ((s2.done = 1 ∧ ¬ 2 ^ (k + 1) ∣ r) ∨
        (s2.done = 0 ∧ 2 ^ (k + 1) ∣ r ∧ ProcInv p m Ls r s2 (k + 1))) := by
  have hlen := hI.length_eq
  have hat := proc_at_set c r s2 net2 (by omega)
  have hlen2 : (⟨c.procs.set r s2, net2⟩ : Config).procs.length = p := by simpa using hlen
  have hpdk := hk.proc_diff_eq
  rcases loop_body_cases _ _ _ _ _ _ _ hb with
    ⟨h1, _, _, _, hs2, hn2⟩ | ⟨h1, h2, x, res, hF, _, hM, hs2, hn2⟩ | ⟨h1, h2, hs2, hn2⟩
  · have hnd : ¬ 2 ^ (k + 1) ∣ r := (mod_divisor_ne_zero_iff hk).mp h1
    exact ⟨Inv_send hI r hr hd k hk hnd s2 (by rw [hs2]) (by rw [hs2]) (by rw [hs2])
      (by rw [hs2]) (by rw [hs2]) hlen2 hat (by rw [hn2]) (by rw [hn2]),
      Or.inl ⟨by rw [hs2], hnd⟩⟩
  · have hdv : 2 ^ (k + 1) ∣ r := by
      by_contra hcon
      exact (mod_divisor_ne_zero_iff hk).mpr hcon h1
    rw [hpdk] at h2 hF
    have hxm : x ∈ c.net.pending := List.mem_of_find?_eq_some hF
    have hxp := List.find?_some hF
    simp only [decide_eq_true_eq] at hxp
    obtain ⟨_, hp2, hp3, hp4⟩ := pending_from_partner hI r k hk x hxm hxp.1 hxp.2
    have hres := Merge_eq_merge_lists (proc_at c r).all_primes x.data (proc_at c r).temp
      (proc_at c r).my_count x.data.length (by rw [hk.count_eq, ← hk.data_eq]) (le_refl _)
    rw [hM, hk.take_eq, List.take_length, hk.data_eq, hp4] at hres
    simp only [Option.some.injEq] at hres
    have hexp : expected p Ls (k + 1) r
        = merge_lists (expected p Ls k r) (expected p Ls k (r + 2 ^ k)) := by
      simp only [expected]; rw [if_pos h2]
    have hs_ap : s2.all_primes = expected p Ls (k + 1) r := by
      rw [hs2, hres, hexp]
    have hs_mc : s2.my_count = (expected p Ls (k + 1) r).length := by
      rw [hs2, hres, hexp]
      simp only [List.length_merge]
      rw [hk.count_eq]
    have hs_pd : s2.proc_diff = (proc_at c r).proc_diff * 2 := by rw [hs2]
    have hs_dv : s2.divisor = (proc_at c r).divisor * 2 := by rw [hs2]
    have hs_dn : s2.done = 0 := by rw [hs2]; exact hd
    have hI2 := Inv_advance hI r hr hd k hk hg hdv (fun _ => ⟨hp2, hp3⟩) s2 hs_pd hs_dv
      hs_ap hs_mc hs_dn hlen2 hat
      (by
        intro y
        rw [hn2, hpdk]
        simp only
        rw [mem_eraseP_of_nodup_source _ x _ hI.pending_nodup hF y, hxp.1])
      (by
        rw [hn2]
        exact List.Nodup.sublist ((List.eraseP_sublist _).map _) hI.pending_nodup)
      (by rw [hn2])
    refine ⟨hI2, Or.inr ⟨hs_dn, hdv, ?_⟩⟩
    obtain ⟨k2, hk2⟩ := hI2.procs r hr
    rw [hat, if_pos rfl] at hk2
    have e : k2 = k + 1 := by
      apply pow_two_inj
      rw [← hk2.proc_diff_eq, hs_pd, hpdk, pow_succ]
    subst e
    exact hk2
  · have hdv : 2 ^ (k + 1) ∣ r := by
      by_contra hcon
      exact (mod_divisor_ne_zero_iff hk).mpr hcon h1
    rw [hpdk] at h2
    have hexp : expected p Ls (k + 1) r = expected p Ls k r := by
      simp only [expected]; rw [if_neg h2]
    have hs_ap : s2.all_primes = expected p Ls (k + 1) r := by
      rw [hs2, hexp]; exact hk.data_eq
    have hs_mc : s2.my_count = (expected p Ls (k + 1) r).length := by
      rw [hs2, hexp]; exact hk.count_eq
    have hs_pd : s2.proc_diff = (proc_at c r).proc_diff * 2 := by rw [hs2]
    have hs_dv : s2.divisor = (proc_at c r).divisor * 2 := by rw [hs2]
    have hs_dn : s2.done = 0 := by rw [hs2]; exact hd
    have hI2 := Inv_advance hI r hr hd k hk hg hdv (fun h => absurd h h2) s2 hs_pd hs_dv
      hs_ap hs_mc hs_dn hlen2 hat
      (by
        intro y
        rw [hn2]
        constructor
        · intro hy
          refine ⟨hy, ?_⟩
          have := (hI.pending_ok y hy).1
          omega
        · exact fun h => h.1)
      (by rw [hn2]; exact hI.pending_nodup)
      (by rw [hn2])
    refine ⟨hI2, Or.inr ⟨hs_dn, hdv, ?_⟩⟩
    obtain ⟨k2, hk2⟩ := hI2.procs r hr
    rw [hat, if_pos rfl] at hk2
    have e : k2 = k + 1 := by
      apply pow_two_inj
      rw [← hk2.proc_diff_eq, hs_pd, hpdk, pow_succ]
    subst e
    exact hk2

/-- A rank whose loop guard holds can make its pass as soon as its partner, if it has
one, has left: the receive finds the message and the size announced matches. -/
theorem loop_body_progress {p m : Nat} {Ls : List (List Int)} {c : Config}
    (hL : Ls.length = p) (hI : Inv p m Ls c)
    (r : Nat) (hr : r < p) (k : Nat) (hk : ProcInv p m Ls r (proc_at c r) k)
    (hpart : r + 2 ^ k < p → (proc_at c (r + 2 ^ k)).done = 1) :
    ∃ s2 net2, loop_body p r (Ls.map List.length) (proc_at c r) c.net = some (s2, net2) := by
  have hpdk := hk.proc_diff_eq
  have hpos : 0 < 2 ^ k := Nat.two_pow_pos k
  unfold loop_body
  simp only
  by_cases h1 : r % (proc_at c r).divisor ≠ 0
  · rw [if_pos h1]
    have hnd := (mod_divisor_ne_zero_iff hk).mp h1
    have htgt := sender_target r k hk.dvd hnd
    rw [if_pos (by omega)]
    unfold MPI_Send
    rw [if_pos ⟨by omega, by rw [hk.count_eq, ← hk.data_eq]⟩]
    exact ⟨_, _, rfl⟩
  · rw [if_neg h1]
    have hdv : 2 ^ (k + 1) ∣ r := by
      by_contra hcon
      exact h1 ((mod_divisor_ne_zero_iff hk).mpr hcon)
    rw [hpdk]
    by_cases h2 : r + 2 ^ k < p
    · rw [if_pos h2, received_count_eq p Ls hL k (r + 2 ^ k) h2]
      simp only
      have hdt := hpart h2
      obtain ⟨kt, hkt⟩ := hI.procs _ h2
      have hlev := partner_level r k hdv
      have hndt : ¬ 2 ^ (kt + 1) ∣ r + 2 ^ k := by
        rcases hkt.done_cases with h | h
        · omega
        · exact h.2
      have e : kt = k := level_unique _ _ _ hkt.dvd hndt hlev.1 hlev.2
      subst e
      have hpdt := hkt.proc_diff_eq
      have hsub : r + 2 ^ kt - (proc_at c (r + 2 ^ kt)).proc_diff = r := by omega
      obtain ⟨x, hx, hxs⟩ := hI.pending_has _ h2 hdt (by rw [hsub, hpdk, hpdt])
      have hxd : x.dest = r := by
        have := (hI.pending_ok x hx).2.2.1
        rw [hxs, hpdt] at this
        omega
      have hsome : (c.net.pending.find?
          (fun y => decide (y.source = r + 2 ^ kt ∧ y.dest = r))).isSome := by
        rw [List.find?_isSome]
        exact ⟨x, hx, by simp [hxs, hxd]⟩
      obtain ⟨y, hy⟩ := Option.isSome_iff_exists.mp hsome
      have hym : y ∈ c.net.pending := List.mem_of_find?_eq_some hy
      have hyp := List.find?_some hy
      simp only [decide_eq_true_eq] at hyp
      obtain ⟨_, _, _, hyd⟩ := pending_from_partner hI r kt hk y hym hyp.1 hyp.2
      unfold MPI_Recv
      rw [hy]
      simp only
      rw [if_pos (by rw [hyd])]
      simp only
      rw [← hyd, Merge_eq_merge_lists _ _ _ _ _ (by rw [hk.count_eq, ← hk.data_eq])
        (le_refl _)]
      exact ⟨_, _, rfl⟩
    · rw [if_neg h2]
      exact ⟨_, _, rfl⟩

theorem guard_true_iff {p m : Nat} {Ls : List (List Int)} {r k : Nat} {s : Proc}
    (hk : ProcInv p m Ls r s k) :
    (s.done = 0 ∧ s.divisor ≤ 2 ^ m) ↔ (s.done = 0 ∧ k < m) := by
  rw [hk.divisor_eq, pow_two_le_iff]
  constructor <;> rintro ⟨h1, h2⟩ <;> exact ⟨h1, by omega⟩

/-- A rank other than 0 whose loop has ended has sent its list. -/
theorem done_of_guard_false {p m : Nat} {Ls : List (List Int)} {c : Config}
    (hm : Smallest_power_two p = some (2 ^ m)) (hpm : p ≤ 2 ^ m) (hI : Inv p m Ls c)
    (t : Nat) (ht0 : 0 < t) (ht : t < p) (hg : loop_guard p (proc_at c t) = some false) :
    (proc_at c t).done = 1 := by
  obtain ⟨k, hk⟩ := hI.procs t ht
  rw [loop_guard_eq hm] at hg
  simp only [Option.some.injEq, decide_eq_false_iff_not] at hg
  rw [guard_true_iff hk] at hg
  have := level_lt_of_pos t k m p hk.dvd ht0 ht hpm
  rcases hk.done_cases with h | h
  · exact absurd ⟨h, this⟩ hg
  · exact h.1

/-- Rank 0 never sends, and when its loop has ended it is at the top level. -/
theorem rank_zero_of_guard_false {p m : Nat} {Ls : List (List Int)} {c : Config}
    (hm : Smallest_power_two p = some (2 ^ m)) (hp : 0 < p) (hI : Inv p m Ls c)
    (hg : loop_guard p (proc_at c 0) = some false) :
    (proc_at c 0).done = 0 ∧ ProcInv p m Ls 0 (proc_at c 0) m := by
  obtain ⟨k, hk⟩ := hI.procs 0 hp
  rw [loop_guard_eq hm] at hg
  simp only [Option.some.injEq, decide_eq_false_iff_not] at hg
  rw [guard_true_iff hk] at hg
  have hd : (proc_at c 0).done = 0 := by
    rcases hk.done_cases with h | h
    · exact h
    · exact absurd (Nat.dvd_zero _) h.2
  have hle := hk.level_le
  have e : k = m := by
    by_contra hne
    exact hg ⟨hd, by omega⟩
  subst e
  exact ⟨hd, hk⟩

/-- The reduction loop of rank `r` runs to its end once every higher rank has left. -/
theorem reduce_loop_spec {p m : Nat} {Ls : List (List Int)} (hL : Ls.length = p)
    (hm : Smallest_power_two p = some (2 ^ m)) (r : Nat) (hr : r < p) :
    ∀ (fuel : Nat) (c : Config), Inv p m Ls c →
      (∀ t, r < t → t < p → (proc_at c t).done = 1) →
      (∀ k, ProcInv p m Ls r (proc_at c r) k → (proc_at c r).done = 0 → m + 1 ≤ fuel + k) →
      1 ≤ fuel →
      ∃ c2, reduce_loop p (Ls.map List.length) r fuel c = some c2 ∧ Inv p m Ls c2 ∧
        loop_guard p (proc_at c2 r) = some false ∧
        (∀ t, t ≠ r → proc_at c2 t = proc_at c t) := by
  intro fuel
  induction fuel with
  | zero => intro c _ _ _ h; omega
  | succ fuel ih =>
    intro c hI hhigh hfuel _
    have hlen := hI.length_eq
    unfold reduce_loop
    rw [getElem?_eq_proc_at c r (by omega)]
    simp only
    obtain ⟨k, hk⟩ := hI.procs r hr
    by_cases hg : (proc_at c r).done = 0 ∧ (proc_at c r).divisor ≤ 2 ^ m
    · have hg1 : loop_guard p (proc_at c r) = some true := by
        rw [loop_guard_eq hm]; simp [hg]
      rw [hg1]
      simp only
      have hkm := ((guard_true_iff hk).mp hg).2
      obtain ⟨s2, net2, hb⟩ := loop_body_progress hL hI r hr k hk
        (fun h => hhigh _ (by have := Nat.two_pow_pos k; omega) h)
      rw [hb]
      simp only
      obtain ⟨hI2, hcase⟩ := Inv_loop_body hI r hr hg.1 k hk hkm s2 net2 hb
      have hat := proc_at_set c r s2 net2 (by omega)
      have hf := hfuel k hk hg.1
      obtain ⟨c3, h1, h2, h3, h4⟩ := ih ⟨c.procs.set r s2, net2⟩ hI2
        (by
          intro t ht1 ht2
          rw [hat, if_neg (by omega)]
          exact hhigh t ht1 ht2)
        (by
          intro k2 hk2 hd2
          rw [hat, if_pos rfl] at hk2 hd2
          rcases hcase with h | h
          · omega
          · have e : k2 = k + 1 :=
              pow_two_inj _ _ (hk2.proc_diff_eq.symm.trans h.2.2.proc_diff_eq)
            omega)
        (by omega)
      refine ⟨c3, h1, h2, h3, ?_⟩
      intro t ht
      rw [h4 t ht, hat, if_neg ht]
    · have hg1 : loop_guard p (proc_at c r) = some false := by
        rw [loop_guard_eq hm]; simp only [Option.some.injEq, decide_eq_false_iff_not]; exact hg
      rw [hg1]
      exact ⟨c, rfl, hI, hg1, fun _ _ => rfl⟩

theorem exponent_le {p m : Nat} (h : m = 0 ∨ 2 ^ (m - 1) < p) : m ≤ p := by
  rcases h with h | h
  · omega
  · have := Nat.lt_two_pow (m - 1)
    omega

/-- The ranks below `k` run their loops to the end, highest first. -/
theorem run_below_spec {p m : Nat} {Ls : List (List Int)} (hL : Ls.length = p)
    (hm : Smallest_power_two p = some (2 ^ m)) (hpm : p ≤ 2 ^ m) (hmp : m ≤ p) :
    ∀ (k : Nat) (c : Config), k ≤ p → Inv p m Ls c →
      (∀ t, k ≤ t → t < p → loop_guard p (proc_at c t) = some false) →
      ∃ c2, run_below p (Ls.map List.length) k c = some c2 ∧ Inv p m Ls c2 ∧
        (∀ t, t < p → loop_guard p (proc_at c2 t) = some false) := by
  intro k
  induction k with
  | zero =>
    intro c _ hI hQ
    exact ⟨c, rfl, hI, fun t ht => hQ t (Nat.zero_le _) ht⟩
  | succ k ih =>
    intro c hk hI hQ
    unfold run_below
    obtain ⟨c1, h1, h2, h3, h4⟩ := reduce_loop_spec hL hm k (by omega) (p + 2) c hI
      (fun t ht1 ht2 => done_of_guard_false hm hpm hI t (by omega) ht2 (hQ t (by omega) ht2))
      (fun _ _ _ => by omega) (by omega)
    rw [h1]
    simp only
    apply ih c1 (by omega) h2
    intro t ht1 ht2
    by_cases e : t = k
    · subst e; exact h3
    · rw [h4 t e]
      exact hQ t (by omega) ht2

theorem copy_loop_spec (lp : List Int) :
    ∀ (fuel i : Nat) (acc : List Int), i ≤ lp.length → lp.length + 1 ≤ fuel + i →
      copy_loop lp lp.length fuel i acc = some (acc ++ lp.drop i) := by
  intro fuel
  induction fuel with
  | zero => intro i _ h1 h2; omega
  | succ fuel ih =>
    intro i acc hi hf
    unfold copy_loop
    by_cases hlt : i < lp.length
    · rw [if_pos hlt, List.getElem?_eq_getElem hlt]
      simp only
      rw [ih (i + 1) _ (by omega) (by omega), List.drop_eq_getElem_cons hlt]
      simp
    · rw [if_neg hlt, List.drop_eq_nil_of_le (by omega)]
      simp

/-- The state of a rank at line 96. -/
theorem init_proc_spec (l : LocalState) (h : l.local_count = l.local_primes.length) :
    init_proc l = some ⟨l.local_primes, [], [], l.local_count, 2, 1, 0⟩ := by
  unfold init_proc
  rw [h, copy_loop_spec l.local_primes _ 0 [] (by omega) (by omega)]
  simp

theorem init_procs_spec :
    ∀ (ls : List LocalState), (∀ l, l ∈ ls → l.local_count = l.local_primes.length) →
      init_procs ls
        = some (ls.map (fun l => (⟨l.local_primes, [], [], l.local_count, 2, 1, 0⟩ : Proc))) := by
  intro ls
  induction ls with
  | nil => intro _; rfl
  | cons l ls ih =>
    intro h
    unfold init_procs
    rw [init_proc_spec l (h l (List.mem_cons_self _ _)),
      ih (fun l2 h2 => h l2 (List.mem_cons_of_mem _ h2))]
    rfl

theorem proc_at_init (ls : List LocalState) (net : Net) (r : Nat) (hr : r < ls.length) :
    proc_at ⟨ls.map (fun l => (⟨l.local_primes, [], [], l.local_count, 2, 1, 0⟩ : Proc)), net⟩ r
      = ⟨ls[r].local_primes, [], [], ls[r].local_count, 2, 1, 0⟩ := by
  unfold proc_at
  rw [List.getD_eq_getElem _ _ (by simpa using hr)]
  simp

/-- The configuration at line 96 satisfies the invariant, every rank at level 0. -/
theorem Inv_start (m : Nat) (ls : List LocalState)
    (h : ∀ l, l ∈ ls → l.local_count = l.local_primes.length) :
    Inv ls.length m (ls.map (fun l => l.local_primes))
      ⟨ls.map (fun l => (⟨l.local_primes, [], [], l.local_count, 2, 1, 0⟩ : Proc)), ⟨[], []⟩⟩ := by
  refine ⟨by simp, ?_, ?_, ?_, by simp, ?_, ?_, ?_⟩
  · intro r hr
    rw [proc_at_init ls _ r hr]
    have e : expected ls.length (ls.map (fun l => l.local_primes)) 0 r = ls[r].local_primes := by
      simp only [expected]
      rw [List.getD_eq_getElem _ _ (by simpa using hr)]
      simp
    refine ⟨0, ⟨rfl, rfl, by simp, Nat.zero_le _, ?_, ?_, Or.inl rfl⟩⟩
    · simp only [e]
    · simp only [e]
      exact h _ (List.getElem_mem _)
  · intro x hx
    simp at hx
  · intro r hr hd
    rw [proc_at_init ls _ r hr] at hd
    simp at hd
  · intro d t hdt ht hlt
    have hd : d < ls.length := by omega
    rw [proc_at_init ls _ d hd] at hlt
    simp only at hlt
    omega
  · intro r hr
    rw [proc_at_init ls _ r hr]
    simp
  · intro x hx
    simp at hx

/-- The reduction returns: every rank's loop ends, and the final configuration satisfies
the invariant.  `ls` are the local lists of the ranks, each with its exact count. -/
theorem reduction_spec (ls : List LocalState)
    (h : ∀ l, l ∈ ls → l.local_count = l.local_primes.length) :
    ∃ m c, Smallest_power_two ls.length = some (2 ^ m) ∧ ls.length ≤ 2 ^ m ∧
      reduction ls.length ls
        = some ⟨ls.map (fun l => l.local_count), (ls.map (fun l => l.local_count)).sum, c⟩ ∧
      Inv ls.length m (ls.map (fun l => l.local_primes)) c ∧
      (∀ t, t < ls.length → loop_guard ls.length (proc_at c t) = some false) := by
  obtain ⟨m, hm, hpm, hmin⟩ := Smallest_power_two_spec ls.length
  have hcounts : ls.map (fun l => l.local_count)
      = (ls.map (fun l => l.local_primes)).map List.length := by
    rw [List.map_map]
    exact List.map_congr_left (fun l hl => h l hl)
  have hI0 := Inv_start m ls h
  obtain ⟨c, h1, h2, h3⟩ := run_below_spec (by simp) hm hpm (exponent_le hmin) ls.length _
    (le_refl _) hI0
    (fun t ht1 ht2 => by omega)
  refine ⟨m, c, hm, hpm, ?_, h2, h3⟩
  unfold reduction start_config
  simp only
  rw [Sum_spec _ _ (by simp), init_procs_spec ls h]
  simp only
  rw [hcounts, h1]
  simp only [Reduced.mk.injEq, Option.some.injEq, true_and, and_true]
  rw [List.take_of_length_le (by simp)]

/-- Rank 0 at the end of the reduction: it has not sent, and it holds a permutation of
all the local lists, with its exact count. -/
theorem rank_zero_final {p m : Nat} {Ls : List (List Int)} {c : Config} (hL : Ls.length = p)
    (hm : Smallest_power_two p = some (2 ^ m)) (hpm : p ≤ 2 ^ m) (hp : 0 < p)
    (hI : Inv p m Ls c) (hg : loop_guard p (proc_at c 0) = some false) :
    (proc_at c 0).done = 0 ∧
      (proc_at c 0).all_primes = expected p Ls m 0 ∧
      (proc_at c 0).my_count = (proc_at c 0).all_primes.length ∧
      (proc_at c 0).all_primes.Perm Ls.flatten := by
  obtain ⟨hd, hk⟩ := rank_zero_of_guard_false hm hp hI hg
  refine ⟨hd, hk.data_eq, by rw [hk.count_eq, hk.data_eq], ?_⟩
  rw [hk.data_eq]
  have := expected_perm p Ls hL m 0
  rwa [List.drop_zero, List.take_of_length_le (by omega)] at this

/-! ### The local lists of `main` -/

theorem local_of_spec (n p r : Nat) (hp : 1 ≤ p) :
    ∃ cs, candidates n p r = some cs ∧
      (∀ i, i ∈ cs ↔ (i < n ∧ ∃ k, i = 2 * r + 3 + 2 * p * k)) ∧ cs.Sorted (· < ·) ∧
      (∀ cap, local_loop n p cap (n + 1) ⟨2 * r + 3, [], 0⟩
        = if (local_of n p r).local_count ≤ cap then some (local_of n p r) else none) ∧
      (local_of n p r).local_primes
        = (cs.filter (fun i => decide (Nat.Prime i))).map Int.ofNat ∧
      (local_of n p r).local_count = (local_of n p r).local_primes.length := by
  obtain ⟨cs, h1, i2, h2⟩ := local_phase_spec n p r hp
  obtain ⟨cs2, h3, h4, h5⟩ := candidates_spec n p r hp
  rw [h1] at h3
  cases h3
  have hlen : (cs.filter (fun i => decide (Nat.Prime i))).length ≤ n :=
    (List.length_filter_le _ _).trans
      (length_le_of_sorted_lt n cs h5 (fun i hi => ((h4 i).mp hi).1))
  have hof : local_of n p r
      = ⟨i2, (cs.filter (fun i => decide (Nat.Prime i))).map Int.ofNat,
          (cs.filter (fun i => decide (Nat.Prime i))).length⟩ := by
    simp [local_of, h2 n, hlen]
  refine ⟨cs, h1, h4, h5, ?_, ?_, ?_⟩
  · intro cap
    rw [h2 cap, hof]
  · rw [hof]
  · rw [hof]; simp

/-- The partition loop of `main` on rank `r`: it returns when the primes among the
candidates of the rank fit the block of `local_primes`, and faults when they do not. -/
theorem local_phase_eq (n p r : Nat) (hp : 1 ≤ p) :
    local_phase n p r
      = if (local_of n p r).local_count ≤ local_primes_bytes n p / sizeof_int then
          some (local_of n p r)
        else none := by
  obtain ⟨_, _, _, _, h, _⟩ := local_of_spec n p r hp
  exact h _

/-- The partition loops return on every rank when every rank's primes fit its block. -/
theorem gather_locals_spec (n p : Nat) (hp : 1 ≤ p) :
    ∀ k, (∀ r, r < k → (local_of n p r).local_count ≤ local_primes_bytes n p / sizeof_int) →
      gather_locals n p k = some ((List.range k).map (local_of n p)) := by
  intro k
  induction k with
  | zero => intro _; rfl
  | succ k ih =>
    intro hfit
    unfold gather_locals
    rw [ih (fun r hr => hfit r (by omega)), local_phase_eq n p k hp,
      if_pos (hfit k (by omega))]
    simp [List.range_succ]

/-- What the partition loops return is the local state of every rank, each within its
block. -/
theorem gather_locals_some (n p : Nat) (hp : 1 ≤ p) :
    ∀ k ls, gather_locals n p k = some ls →
      ls = (List.range k).map (local_of n p) ∧
      ∀ r, r < k → (local_of n p r).local_count ≤ local_primes_bytes n p / sizeof_int := by
  intro k
  induction k with
  | zero =>
    intro ls h
    simp only [gather_locals, Option.some.injEq] at h
    exact ⟨by rw [← h]; rfl, fun r hr => absurd hr (Nat.not_lt_zero r)⟩
  | succ k ih =>
    intro ls h
    unfold gather_locals at h
    cases hg : gather_locals n p k with
    | none => rw [hg] at h; simp at h
    | some ls0 =>
      obtain ⟨e, hfit⟩ := ih ls0 hg
      rw [hg, local_phase_eq n p k hp] at h
      by_cases hk : (local_of n p k).local_count ≤ local_primes_bytes n p / sizeof_int
      · rw [if_pos hk] at h
        simp only [Option.some.injEq] at h
        refine ⟨by rw [← h, e]; simp [List.range_succ], ?_⟩
        intro r hr
        rcases Nat.lt_succ_iff_lt_or_eq.mp hr with h1 | h1
        · exact hfit r h1
        · rw [h1]; exact hk
      · rw [if_neg hk] at h
        simp at h

/-- A rank whose primes do not fit its block makes the partition phase fault. -/
theorem gather_locals_none (n p : Nat) (hp : 1 ≤ p) (r : Nat)
    (hfit : ¬ (local_of n p r).local_count ≤ local_primes_bytes n p / sizeof_int) :
    ∀ k, r < k → gather_locals n p k = none := by
  intro k hr
  cases hg : gather_locals n p k with
  | none => rfl
  | some ls => exact absurd ((gather_locals_some n p hp k ls hg).2 r hr) hfit

theorem locals_of_count (n p : Nat) (hp : 1 ≤ p) :
    ∀ l, l ∈ locals_of n p → l.local_count = l.local_primes.length := by
  intro l hl
  obtain ⟨r, _, rfl⟩ := List.mem_map.mp hl
  obtain ⟨_, _, _, _, _, _, h⟩ := local_of_spec n p r hp
  exact h

theorem mem_local_of (n p r : Nat) (hp : 1 ≤ p) (x : Int) :
    x ∈ (local_of n p r).local_primes ↔
      ∃ i : Nat, x = (i : Int) ∧ Nat.Prime i ∧ i < n ∧ ∃ k, i = 2 * r + 3 + 2 * p * k := by
  obtain ⟨cs, _, h2, _, _, h5, _⟩ := local_of_spec n p r hp
  rw [h5]
  simp only [List.mem_map, List.mem_filter, decide_eq_true_eq, h2]
  constructor
  · rintro ⟨i, ⟨⟨h1, h3⟩, h4⟩, rfl⟩
    exact ⟨i, rfl, h4, h1, h3⟩
  · rintro ⟨i, rfl, h4, h1, h3⟩
    exact ⟨i, ⟨⟨h1, h3⟩, h4⟩, rfl⟩

theorem local_of_sorted (n p r : Nat) (hp : 1 ≤ p) :
    (local_of n p r).local_primes.Sorted (· < ·) := by
  obtain ⟨cs, _, _, h3, _, h5, _⟩ := local_of_spec n p r hp
  rw [h5]
  unfold List.Sorted
  rw [List.pairwise_map]
  exact (List.Pairwise.filter _ h3).imp (fun h => Int.ofNat_lt.mpr h)

theorem rank_of_candidate (p r r2 k k2 : Nat) (hr : r < p) (hr2 : r2 < p)
    (h : 2 * r + 3 + 2 * p * k = 2 * r2 + 3 + 2 * p * k2) : r = r2 := by
  have e1 : 2 * p * k = 2 * (p * k) := by ring
  have e2 : 2 * p * k2 = 2 * (p * k2) := by ring
  have e : r + p * k = r2 + p * k2 := by omega
  have h1 : (r + p * k) % p = r := by
    rw [Nat.add_mul_mod_self_left, Nat.mod_eq_of_lt hr]
  have h2 : (r2 + p * k2) % p = r2 := by
    rw [Nat.add_mul_mod_self_left, Nat.mod_eq_of_lt hr2]
  rw [e, h2] at h1
  exact h1.symm

/-- All local lists together hold every odd prime below `n` exactly once. -/
theorem locals_flatten (n p : Nat) (hp : 1 ≤ p) :
    ((locals_of n p).map (fun l => l.local_primes)).flatten.Nodup ∧
    ∀ x : Int, x ∈ ((locals_of n p).map (fun l => l.local_primes)).flatten ↔
      ∃ q : Nat, x = (q : Int) ∧ Nat.Prime q ∧ 3 ≤ q ∧ q < n := by
  constructor
  · rw [List.nodup_flatten]
    constructor
    · intro l hl
      simp only [locals_of, List.map_map, List.mem_map, List.mem_range, Function.comp] at hl
      obtain ⟨r, _, rfl⟩ := hl
      exact (local_of_sorted n p r hp).nodup
    · simp only [locals_of, List.map_map]
      rw [List.pairwise_map]
      refine (List.pairwise_lt_range p).imp_of_mem ?_
      intro a b ha hb hab
      simp only [List.mem_range] at ha hb
      intro x hxa hxb
      simp only [Function.comp] at hxa hxb
      obtain ⟨i, rfl, _, _, k, hk⟩ := (mem_local_of n p a hp x).mp hxa
      obtain ⟨i2, e, _, _, k2, hk2⟩ := (mem_local_of n p b hp _).mp hxb
      have : i = i2 := by exact_mod_cast e
      subst this
      have := rank_of_candidate p a b k k2 ha hb (hk.symm.trans hk2)
      omega
  · intro x
    simp only [locals_of, List.map_map, List.mem_flatten, List.mem_map, List.mem_range,
      Function.comp]
    constructor
    · rintro ⟨l, ⟨r, hr, rfl⟩, hx⟩
      obtain ⟨i, rfl, h1, h2, k, hk⟩ := (mem_local_of n p r hp x).mp hx
      refine ⟨i, rfl, h1, ?_, h2⟩
      have : 0 ≤ 2 * p * k := Nat.zero_le _
      omega
    · rintro ⟨q, rfl, h1, h2, h3⟩
      have hodd : q % 2 = 1 := by
        rcases h1.eq_two_or_odd with h | h
        · omega
        · exact h
      refine ⟨_, ⟨(q - 3) / 2 % p, Nat.mod_lt _ (by omega), rfl⟩, ?_⟩
      rw [mem_local_of n p _ hp]
      refine ⟨q, rfl, h1, h3, (q - 3) / 2 / p, ?_⟩
      have hdecomp : (q - 3) / 2 = (q - 3) / 2 % p + p * ((q - 3) / 2 / p) :=
        (Nat.mod_add_div _ _).symm
      have : 2 * p * ((q - 3) / 2 / p) = 2 * (p * ((q - 3) / 2 / p)) := by ring
      omega

/-! ### Any interleaving -/

/-- Any pass of any rank keeps the invariant. -/
theorem Inv_step {p m : Nat} {Ls : List (List Int)} {c c2 : Config}
    (hm : Smallest_power_two p = some (2 ^ m)) (hI : Inv p m Ls c) (r : Nat)
    (h : step p (Ls.map List.length) r c = some c2) : Inv p m Ls c2 := by
  unfold step at h
  cases hs : c.procs[r]? with
  | none => rw [hs] at h; simp at h
  | some s =>
    rw [hs] at h
    simp only at h
    obtain ⟨hr, rfl⟩ := getElem?_eq_some_proc_at c r s hs
    rw [hI.length_eq] at hr
    rw [loop_guard_eq hm] at h
    by_cases hg : (proc_at c r).done = 0 ∧ (proc_at c r).divisor ≤ 2 ^ m
    · rw [decide_eq_true hg] at h
      simp only at h
      cases hb : loop_body p r (Ls.map List.length) (proc_at c r) c.net with
      | none => rw [hb] at h; simp at h
      | some res =>
        obtain ⟨s2, net2⟩ := res
        rw [hb] at h
        simp only [Option.some.injEq] at h
        obtain ⟨k, hk⟩ := hI.procs r hr
        rw [← h]
        exact (Inv_loop_body hI r hr hg.1 k hk ((guard_true_iff hk).mp hg).2 s2 net2 hb).1
    · rw [decide_eq_false hg] at h
      simp at h

/-- The invariant holds after the passes of any schedule. -/
theorem Inv_run_sched {p m : Nat} {Ls : List (List Int)}
    (hm : Smallest_power_two p = some (2 ^ m)) :
    ∀ (sched : List Nat) (c : Config), Inv p m Ls c →
      Inv p m Ls (run_sched p (Ls.map List.length) sched c) := by
  intro sched
  induction sched with
  | nil => intro c hI; exact hI
  | cons r sched ih =>
    intro c hI
    unfold run_sched
    cases hs : step p (Ls.map List.length) r c with
    | none => exact ih c hI
    | some c2 => exact ih c2 (Inv_step hm hI r hs)

/-- What rank 0 prints once its loop has ended, in any configuration that satisfies the
invariant: its list, when the line fits the buffer of `Print_vector`. -/
theorem print_line_of_ended {p m : Nat} {Ls : List (List Int)} {c : Config} (n : Int)
    (hm : Smallest_power_two p = some (2 ^ m)) (hp : 0 < p)
    (hI : Inv p m Ls c) (hg : loop_guard p (proc_at c 0) = some false) :
    print_line n c
      = if line_bytes n 0 (expected p Ls m 0) ≤ 10000 then some (2 :: expected p Ls m 0)
        else none := by
  obtain ⟨_, hk⟩ := rank_zero_of_guard_false hm hp hI hg
  have hcnt : (proc_at c 0).my_count ≤ (expected p Ls m 0).length := by
    rw [hk.count_eq]
  unfold print_line
  rw [getElem?_eq_proc_at c 0 (by rw [hI.length_eq]; exact hp)]
  have htake := hk.take_eq
  rw [hk.data_eq] at htake
  simp only [hk.data_eq, htake]
  by_cases hb : line_bytes n 0 (expected p Ls m 0) ≤ 10000
  · rw [if_pos ⟨hcnt, hb⟩, if_pos hb]
  · rw [if_neg (fun h => hb h.2), if_neg hb]

/-! ### The whole program -/

theorem length_locals_of (n p : Nat) : (locals_of n p).length = p := by
  simp [locals_of]

/-- The run of `main` for `n ≥ 3`: on the local lists the reduction returns; `main`
returns, and rank 0 prints `2` and the list expected at the top level, exactly when the
primes of every rank fit its block of `local_primes` and the line fits the buffer of
`Print_vector`. -/
theorem main_spec (n : Int) (p : Nat) (hn : 3 ≤ n) (hp : 1 ≤ p) :
    ∃ m c, Smallest_power_two p = some (2 ^ m) ∧ p ≤ 2 ^ m ∧
      reduction p (locals_of n.toNat p) = some
        ⟨(locals_of n.toNat p).map (fun l => l.local_count),
         ((locals_of n.toNat p).map (fun l => l.local_count)).sum, c⟩ ∧
      Inv p m ((locals_of n.toNat p).map (fun l => l.local_primes)) c ∧
      (∀ t, t < p → loop_guard p (proc_at c t) = some false) ∧
      main n p =
        if (∀ r, r < p → (local_of n.toNat p r).local_count
              ≤ local_primes_bytes n.toNat p / sizeof_int) ∧
            line_bytes n 0 (proc_at c 0).all_primes ≤ 10000 then
          some (Outcome.reduced
            ⟨(locals_of n.toNat p).map (fun l => l.local_count),
             ((locals_of n.toNat p).map (fun l => l.local_count)).sum, c⟩
            (2 :: (proc_at c 0).all_primes))
        else none := by
  obtain ⟨m, c, h1, h2, h3, h4, h5⟩ :=
    reduction_spec (locals_of n.toNat p) (locals_of_count n.toNat p hp)
  rw [length_locals_of] at h1 h2 h3 h4 h5
  refine ⟨m, c, h1, h2, h3, h4, h5, ?_⟩
  obtain ⟨_, hk⟩ := rank_zero_of_guard_false h1 hp h4 (h5 0 hp)
  unfold main
  rw [if_neg (by omega), if_neg (by omega)]
  by_cases hfit : ∀ r, r < p → (local_of n.toNat p r).local_count
      ≤ local_primes_bytes n.toNat p / sizeof_int
  · rw [gather_locals_spec n.toNat p hp p hfit]
    simp only
    have e : (List.range p).map (local_of n.toNat p) = locals_of n.toNat p := rfl
    rw [e, h3]
    simp only
    rw [print_line_of_ended n h1 hp h4 (h5 0 hp), hk.data_eq]
    by_cases hb : line_bytes n 0
        (expected p ((locals_of n.toNat p).map (fun l => l.local_primes)) m 0) ≤ 10000
    · rw [if_pos hb, if_pos ⟨hfit, hb⟩]
    · rw [if_neg hb, if_neg (fun h => hb h.2)]
  · rw [if_neg (fun h => hfit h.1)]
    have hex : ∃ r, r < p ∧ ¬ (local_of n.toNat p r).local_count
        ≤ local_primes_bytes n.toNat p / sizeof_int := by
      by_contra hno
      exact hfit (fun r hr => by_contra (fun h => hno ⟨r, hr, h⟩))
    obtain ⟨r, hr, hnf⟩ := hex
    rw [gather_locals_none n.toNat p hp r hnf p hr]

/-- The list rank 0 holds at the end: strictly ascending, with exactly the odd primes
below `n`. -/
theorem final_list_spec {n p m : Nat} {c : Config} (hp : 1 ≤ p)
    (hm : Smallest_power_two p = some (2 ^ m)) (hpm : p ≤ 2 ^ m)
    (hI : Inv p m ((locals_of n p).map (fun l => l.local_primes)) c)
    (hg : loop_guard p (proc_at c 0) = some false) :
    (proc_at c 0).all_primes.Sorted (· < ·) ∧
    ∀ x : Int, x ∈ (proc_at c 0).all_primes ↔
      ∃ q : Nat, x = (q : Int) ∧ Nat.Prime q ∧ 3 ≤ q ∧ q < n := by
  obtain ⟨_, h2, _, h4⟩ := rank_zero_final (by simp [length_locals_of]) hm hpm hp hI hg
  obtain ⟨hnd, hmem⟩ := locals_flatten n p hp
  constructor
  · apply List.Sorted.lt_of_le
    · rw [h2]
      apply expected_sorted
      intro l hl
      obtain ⟨st, hst, rfl⟩ := List.mem_map.mp hl
      obtain ⟨r, _, rfl⟩ := List.mem_map.mp hst
      exact (local_of_sorted n p r hp).le_of_lt
    · exact h4.nodup_iff.mpr hnd
  · intro x
    rw [h4.mem_iff, hmem]

/-- What holds in a configuration of the reduction in which every rank's loop has ended:
rank 0 has not sent, every other rank has sent exactly one message, its list, while its
divisor was at most `Smallest_power_two p`. -/
theorem ended_config_spec {p m : Nat} {Ls : List (List Int)} {c : Config}
    (hm : Smallest_power_two p = some (2 ^ m)) (hpm : p ≤ 2 ^ m) (hp : 1 ≤ p)
    (hI : Inv p m Ls c) (hg : ∀ t, t < p → loop_guard p (proc_at c t) = some false) :
    (∀ t, t < p → loop_ended p c t) ∧
    (proc_at c 0).done = 0 ∧ c.net.sent.filter (fun x => decide (x.source = 0)) = [] ∧
    (∀ r, 0 < r → r < p →
      (proc_at c r).done = 1 ∧
      c.net.sent.filter (fun x => decide (x.source = r)) = [msg_of r (proc_at c r)] ∧
      (proc_at c r).divisor ≤ 2 ^ m) := by
  refine ⟨?_, ?_, ?_, ?_⟩
  · intro t ht
    exact ⟨proc_at c t, getElem?_eq_proc_at c t (by rw [hI.length_eq]; exact ht), hg t ht⟩
  · exact (rank_zero_of_guard_false hm hp hI (hg 0 hp)).1
  · rw [hI.sent_ok 0 hp, if_neg]
    rw [(rank_zero_of_guard_false hm hp hI (hg 0 hp)).1]
    decide
  · intro r hr0 hr
    have hd := done_of_guard_false hm hpm hI r hr0 hr (hg r hr)
    refine ⟨hd, ?_, ?_⟩
    · rw [hI.sent_ok r hr, if_pos hd]
    · obtain ⟨k, hk⟩ := hI.procs r hr
      rw [hk.divisor_eq, pow_two_le_iff]
      have := level_lt_of_pos r k m p hk.dvd hr0 hr hpm
      omega

/-- No deadlock: in a configuration that satisfies the invariant, as long as the loop of
some rank has not ended, some rank can make a pass. -/
theorem step_progress {p m : Nat} {Ls : List (List Int)} {c : Config}
    (hL : Ls.length = p) (hm : Smallest_power_two p = some (2 ^ m)) (hpm : p ≤ 2 ^ m)
    (hI : Inv p m Ls c) (t : Nat) (ht : t < p)
    (hg : loop_guard p (proc_at c t) = some true) :
    ∃ r c2, step p (Ls.map List.length) r c = some c2 := by
  -- the highest rank whose guard holds
  have hex : ∃ d, d < p ∧ loop_guard p (proc_at c (p - 1 - d)) = some true :=
    ⟨p - 1 - t, by omega, by rw [show p - 1 - (p - 1 - t) = t by omega]; exact hg⟩
  classical
  obtain ⟨hd, hgd⟩ := Nat.find_spec hex
  have hmin := fun d (h : d < Nat.find hex) => Nat.find_min hex h
  generalize Nat.find hex = d at hd hgd hmin
  have hr : p - 1 - d < p := by omega
  obtain ⟨k, hk⟩ := hI.procs _ hr
  have hhigh : ∀ t2, p - 1 - d < t2 → t2 < p → (proc_at c t2).done = 1 := by
    intro t2 h1 h2
    apply done_of_guard_false hm hpm hI t2 (by omega) h2
    have hne := hmin (p - 1 - t2) (by omega)
    rw [show p - 1 - (p - 1 - t2) = t2 by omega] at hne
    rw [loop_guard_eq hm] at hne ⊢
    cases hdec : decide ((proc_at c t2).done = 0 ∧ (proc_at c t2).divisor ≤ 2 ^ m) with
    | false => rfl
    | true => rw [hdec] at hne; exact absurd ⟨by omega, rfl⟩ hne
  obtain ⟨s2, net2, hb⟩ := loop_body_progress hL hI _ hr k hk
    (fun h => hhigh _ (by have := Nat.two_pow_pos k; omega) h)
  refine ⟨p - 1 - d, ⟨c.procs.set (p - 1 - d) s2, net2⟩, ?_⟩
  unfold step
  rw [getElem?_eq_proc_at c _ (by rw [hI.length_eq]; exact hr)]
  simp only [hgd, hb]

/-- The line of rank 0 does not depend on the interleaving: from the configuration at
line 96, after the passes of any schedule, once the loop of rank 0 has ended rank 0
prints what it prints at the end of `reduction`. -/
theorem main_line_any_schedule (n : Int) (p : Nat) (hp : 1 ≤ p) :
    ∃ red all_counts sum_count c0,
      reduction p (locals_of n.toNat p) = some red ∧
      start_config p (locals_of n.toNat p) = some (all_counts, sum_count, c0) ∧
      ∀ sched, loop_ended p (run_sched p all_counts sched c0) 0 →
        print_line n (run_sched p all_counts sched c0) = print_line n red.final := by
  obtain ⟨m, c, hm, hpm, hred, hI, hg⟩ :=
    reduction_spec (locals_of n.toNat p) (locals_of_count n.toNat p hp)
  rw [length_locals_of] at hm hpm hred hI hg
  have hcount := locals_of_count n.toNat p hp
  have hcounts : (locals_of n.toNat p).map (fun l => l.local_count)
      = ((locals_of n.toNat p).map (fun l => l.local_primes)).map List.length := by
    rw [List.map_map]
    exact List.map_congr_left (fun l hl => hcount l hl)
  have hstart : start_config p (locals_of n.toNat p)
      = some ((locals_of n.toNat p).map (fun l => l.local_count),
          ((locals_of n.toNat p).map (fun l => l.local_count)).sum,
          ⟨(locals_of n.toNat p).map
              (fun l => (⟨l.local_primes, [], [], l.local_count, 2, 1, 0⟩ : Proc)),
            ⟨[], []⟩⟩) := by
    unfold start_config
    simp only
    rw [Sum_spec _ _ (by simp [length_locals_of]), init_procs_spec _ hcount,
      List.take_of_length_le (by simp [length_locals_of])]
  refine ⟨_, _, _, _, hred, hstart, ?_⟩
  intro sched hended
  have hI0 := Inv_start m (locals_of n.toNat p) hcount
  rw [length_locals_of] at hI0
  have hI2 := Inv_run_sched hm sched _ hI0
  rw [← hcounts] at hI2
  obtain ⟨s, hs1, hs2⟩ := hended
  obtain ⟨_, rfl⟩ := getElem?_eq_some_proc_at _ 0 s hs1
  rw [print_line_of_ended n hm hp hI2 hs2, print_line_of_ended n hm hp hI (hg 0 hp)]

/-! ### Reachable configurations -/

theorem run_sched_append (p : Nat) (all_counts : List Nat) :
    ∀ (s1 s2 : List Nat) (c : Config),
      run_sched p all_counts (s1 ++ s2) c
        = run_sched p all_counts s2 (run_sched p all_counts s1 c) := by
  intro s1
  induction s1 with
  | nil => intro s2 c; rfl
  | cons r s1 ih =>
    intro s2 c
    simp only [List.cons_append, run_sched]
    cases step p all_counts r c with
    | none => exact ih s2 c
    | some c2 => exact ih s2 c2

/-- A run of the reduction loop of one rank is a sequence of passes of that rank. -/
theorem reduce_loop_sched (p : Nat) (all_counts : List Nat) (r : Nat) :
    ∀ (fuel : Nat) (c c2 : Config), reduce_loop p all_counts r fuel c = some c2 →
      ∃ sched, c2 = run_sched p all_counts sched c := by
  intro fuel
  induction fuel with
  | zero => intro c c2 h; simp [reduce_loop] at h
  | succ fuel ih =>
    intro c c2 h
    unfold reduce_loop at h
    cases hs : c.procs[r]? with
    | none => rw [hs] at h; simp at h
    | some s =>
      rw [hs] at h
      simp only at h
      cases hg : loop_guard p s with
      | none => rw [hg] at h; simp at h
      | some b =>
        rw [hg] at h
        cases b with
        | false =>
          simp only [Option.some.injEq] at h
          exact ⟨[], h.symm⟩
        | true =>
          simp only at h
          cases hb : loop_body p r all_counts s c.net with
          | none => rw [hb] at h; simp at h
          | some res =>
            obtain ⟨s2, net2⟩ := res
            rw [hb] at h
            simp only at h
            obtain ⟨sched, hsched⟩ := ih _ _ h
            refine ⟨r :: sched, ?_⟩
            have hstep : step p all_counts r c = some ⟨c.procs.set r s2, net2⟩ := by
              simp [step, hs, hg, hb]
            simp only [run_sched, hstep]
            exact hsched

/-- The run of all ranks, highest first, is a sequence of passes. -/
theorem run_below_sched (p : Nat) (all_counts : List Nat) :
    ∀ (k : Nat) (c c2 : Config), run_below p all_counts k c = some c2 →
      ∃ sched, c2 = run_sched p all_counts sched c := by
  intro k
  induction k with
  | zero =>
    intro c c2 h
    simp only [run_below, Option.some.injEq] at h
    exact ⟨[], h.symm⟩
  | succ k ih =>
    intro c c2 h
    unfold run_below at h
    cases h1 : reduce_loop p all_counts k (p + 2) c with
    | none => rw [h1] at h; simp at h
    | some c1 =>
      rw [h1] at h
      simp only at h
      obtain ⟨s1, hs1⟩ := reduce_loop_sched p all_counts k _ _ _ h1
      obtain ⟨s2, hs2⟩ := ih _ _ h
      exact ⟨s1 ++ s2, by rw [run_sched_append, ← hs1]; exact hs2⟩

/-- The final configuration of `reduction` is reachable. -/
theorem reduction_reachable (p : Nat) (ls : List LocalState) (red : Reduced)
    (h : reduction p ls = some red) : reachable p ls red.final := by
  unfold reduction at h
  cases hs : start_config p ls with
  | none => rw [hs] at h; simp at h
  | some v =>
    obtain ⟨all_counts, sum_count, c0⟩ := v
    rw [hs] at h
    simp only at h
    cases hr : run_below p all_counts p c0 with
    | none => rw [hr] at h; simp at h
    | some c =>
      rw [hr] at h
      simp only [Option.some.injEq] at h
      obtain ⟨sched, hsched⟩ := run_below_sched p all_counts p c0 c hr
      refine ⟨all_counts, sum_count, c0, sched, hs, ?_⟩
      rw [← h]
      exact hsched

/-- The configuration at line 96, for local lists with their exact counts. -/
theorem start_config_spec (ls : List LocalState)
    (hcount : ∀ l, l ∈ ls → l.local_count = l.local_primes.length) :
    start_config ls.length ls
      = some (ls.map (fun l => l.local_count), (ls.map (fun l => l.local_count)).sum,
          ⟨ls.map (fun l => (⟨l.local_primes, [], [], l.local_count, 2, 1, 0⟩ : Proc)),
            ⟨[], []⟩⟩) := by
  unfold start_config
  simp only
  rw [Sum_spec _ _ (by simp), init_procs_spec ls hcount, List.take_of_length_le (by simp)]

theorem map_local_count (ls : List LocalState)
    (hcount : ∀ l, l ∈ ls → l.local_count = l.local_primes.length) :
    ls.map (fun l => l.local_count) = (ls.map (fun l => l.local_primes)).map List.length := by
  rw [List.map_map]
  exact List.map_congr_left (fun l hl => hcount l hl)

/-- Every reachable configuration satisfies the invariant. -/
theorem Inv_of_reachable (p : Nat) (ls : List LocalState) (hlen : ls.length = p)
    (hcount : ∀ l, l ∈ ls → l.local_count = l.local_primes.length)
    (c : Config) (hc : reachable p ls c) :
    ∃ m, Smallest_power_two p = some (2 ^ m) ∧ p ≤ 2 ^ m ∧ (m = 0 ∨ 2 ^ (m - 1) < p) ∧
      Inv p m (ls.map (fun l => l.local_primes)) c := by
  subst hlen
  obtain ⟨m, hm, hpm, hmin⟩ := Smallest_power_two_spec ls.length
  obtain ⟨all_counts, sum_count, c0, sched, hs, rfl⟩ := hc
  rw [start_config_spec ls hcount] at hs
  simp only [Option.some.injEq, Prod.mk.injEq] at hs
  obtain ⟨rfl, _, rfl⟩ := hs
  refine ⟨m, hm, hpm, hmin, ?_⟩
  rw [map_local_count ls hcount]
  exact Inv_run_sched hm sched _ (Inv_start m ls hcount)

/-- When every loop has ended no message is left pending: every send was received. -/
theorem pending_nil_of_ended {p m : Nat} {Ls : List (List Int)} {c : Config}
    (hm : Smallest_power_two p = some (2 ^ m)) (hpm : p ≤ 2 ^ m) (hI : Inv p m Ls c)
    (hg : ∀ t, t < p → loop_guard p (proc_at c t) = some false) :
    c.net.pending = [] := by
  apply List.eq_nil_iff_forall_not_mem.mpr
  intro x hx
  obtain ⟨h1, h2, h3, _, h5⟩ := hI.pending_ok x hx
  obtain ⟨ks, hks⟩ := hI.procs x.source h1
  have hpos := hks.proc_diff_pos
  have hdl : x.dest < p := by omega
  obtain ⟨kd, hkd⟩ := hI.procs x.dest hdl
  have hnd : ¬ 2 ^ (ks + 1) ∣ x.source := by
    rcases hks.done_cases with h | h
    · omega
    · exact h.2
  have htgt := sender_target x.source ks hks.dvd hnd
  have hde : x.dest = x.source - 2 ^ ks := by
    rw [hks.proc_diff_eq] at h3; omega
  rw [hkd.proc_diff_eq, hks.proc_diff_eq, pow_two_le_iff] at h5
  have hdvd : 2 ^ (kd + 1) ∣ x.dest := by
    rw [hde]
    exact Nat.dvd_trans (Nat.pow_dvd_pow 2 (by omega)) htgt.2
  have hlt := level_lt_of_pos x.source ks m p hks.dvd (by omega) h1 hpm
  have hgd := hg x.dest hdl
  rw [loop_guard_eq hm] at hgd
  simp only [Option.some.injEq, decide_eq_false_iff_not] at hgd
  rw [guard_true_iff hkd] at hgd
  rcases hkd.done_cases with h | h
  · exact hgd ⟨h, by omega⟩
  · exact h.2 hdvd

/-! ### The lists of the ranks -/

theorem flatten_take_drop_sublist (L : List (List Int)) (r w : Nat) :
    ((L.drop r).take w).flatten.Sublist L.flatten := by
  have h1 : ((L.drop r).take w).flatten.Sublist (L.drop r).flatten := by
    conv_rhs => rw [← List.take_append_drop w (L.drop r), List.flatten_append]
    exact List.sublist_append_left _ _
  have h2 : (L.drop r).flatten.Sublist L.flatten := by
    conv_rhs => rw [← List.take_append_drop r L, List.flatten_append]
    exact List.sublist_append_right _ _
  exact h1.trans h2

/-- Two strictly ascending lists with the same elements are equal. -/
theorem eq_of_sorted_of_mem_iff (l1 l2 : List Int) (h1 : l1.Sorted (· < ·))
    (h2 : l2.Sorted (· < ·)) (h : ∀ x, x ∈ l1 ↔ x ∈ l2) : l1 = l2 :=
  List.eq_of_perm_of_sorted ((List.perm_ext_iff_of_nodup h1.nodup h2.nodup).mpr h)
    h1.le_of_lt h2.le_of_lt

/-- The line of `main`: `2` and then the list rank 0 holds at the end of the reduction,
strictly ascending, with exactly the primes below `n`; `main` prints it exactly when the
primes of every rank fit its block of `local_primes` and the line fits the buffer of
`Print_vector`, and faults otherwise. -/
theorem main_line_spec (n : Int) (p : Nat) (hn : 3 ≤ n) (hp : 1 ≤ p) :
    ∃ r line, reduction p (locals_of n.toNat p) = some r ∧
      line = 2 :: (proc_at r.final 0).all_primes.take (proc_at r.final 0).my_count ∧
      line.Sorted (· < ·) ∧
      (∀ x : Int, x ∈ line ↔ ∃ q : Nat, x = (q : Int) ∧ Nat.Prime q ∧ (q : Int) < n) ∧
      main n p =
        if (∀ k, k < p → (local_of n.toNat p k).local_count
              ≤ local_primes_bytes n.toNat p / sizeof_int) ∧
            line_bytes n 0 line.tail ≤ 10000 then
          some (Outcome.reduced r line)
        else none := by
  obtain ⟨m, c, hm, hpm, hred, hI, hg, hmain⟩ := main_spec n p hn hp
  obtain ⟨hs, hmem⟩ := final_list_spec hp hm hpm hI (hg 0 hp)
  obtain ⟨_, hk⟩ := rank_zero_of_guard_false hm hp hI (hg 0 hp)
  refine ⟨_, 2 :: (proc_at c 0).all_primes, hred, ?_, ?_, ?_, ?_⟩
  · simp only
    rw [hk.take_eq]
  · rw [List.sorted_cons]
    refine ⟨?_, hs⟩
    intro b hb
    obtain ⟨q, rfl, _, h3, _⟩ := (hmem b).mp hb
    omega
  · intro x
    rw [List.mem_cons, hmem]
    constructor
    · rintro (rfl | ⟨q, rfl, h1, _, h3⟩)
      · exact ⟨2, rfl, Nat.prime_two, by omega⟩
      · exact ⟨q, rfl, h1, by omega⟩
    · rintro ⟨q, rfl, h1, h2⟩
      by_cases e : q = 2
      · left; subst e; rfl
      · right
        have := h1.two_le
        exact ⟨q, rfl, h1, by omega, by omega⟩
  · rw [hmain]
    rfl

/-- The line of `main` is the one strictly ascending list of the primes below `n`, when
the primes of every rank fit its block and the line fits the buffer. -/
theorem main_line_eq (n : Int) (p : Nat) (hn : 3 ≤ n) (hp : 1 ≤ p) (L : List Int)
    (hs : L.Sorted (· < ·))
    (hmem : ∀ x : Int, x ∈ L ↔ ∃ q : Nat, x = (q : Int) ∧ Nat.Prime q ∧ (q : Int) < n)
    (hfit : ∀ k, k < p → (local_of n.toNat p k).local_count
      ≤ local_primes_bytes n.toNat p / sizeof_int)
    (hbuf : line_bytes n 0 L.tail ≤ 10000) :
    ∃ r, main n p = some (Outcome.reduced r L) ∧
      L = 2 :: (proc_at r.final 0).all_primes.take (proc_at r.final 0).my_count := by
  obtain ⟨r, line, _, h0, h2, h3, h4⟩ := main_line_spec n p hn hp
  have e : line = L := eq_of_sorted_of_mem_iff line L h2 hs (fun x => by rw [h3, hmem])
  subst e
  rw [if_pos ⟨hfit, hbuf⟩] at h4
  exact ⟨r, h4, h0⟩

/-- A rank whose primes do not fit its block of `local_primes` makes `main` fault. -/
theorem main_none_of_overflow (n : Int) (p : Nat) (hn : 3 ≤ n) (hp : 1 ≤ p) (k : Nat)
    (hk : k < p)
    (hfit : ¬ (local_of n.toNat p k).local_count
      ≤ local_primes_bytes n.toNat p / sizeof_int) :
    main n p = none := by
  unfold main
  rw [if_neg (by omega), if_neg (by omega), gather_locals_none n.toNat p hp k hfit p hk]

theorem primes_below_ten (x : Int) :
    x ∈ ([2, 3, 5, 7] : List Int) ↔
      ∃ q : Nat, x = (q : Int) ∧ Nat.Prime q ∧ (q : Int) < 10 := by
  constructor
  · intro h
    simp only [List.mem_cons, List.mem_singleton, List.not_mem_nil, or_false] at h
    rcases h with rfl | rfl | rfl | rfl
    · exact ⟨2, rfl, by norm_num, by norm_num⟩
    · exact ⟨3, rfl, by norm_num, by norm_num⟩
    · exact ⟨5, rfl, by norm_num, by norm_num⟩
    · exact ⟨7, rfl, by norm_num, by norm_num⟩
  · rintro ⟨q, rfl, hq, hlt⟩
    have hq10 : q < 10 := by omega
    interval_cases q <;> first | (simp; done) | (norm_num at hq)

theorem primes_below_twenty (x : Int) :
    x ∈ ([2, 3, 5, 7, 11, 13, 17, 19] : List Int) ↔
      ∃ q : Nat, x = (q : Int) ∧ Nat.Prime q ∧ (q : Int) < 20 := by
  constructor
  · intro h
    simp only [List.mem_cons, List.mem_singleton, List.not_mem_nil, or_false] at h
    rcases h with rfl | rfl | rfl | rfl | rfl | rfl | rfl | rfl
    · exact ⟨2, rfl, by norm_num, by norm_num⟩
    · exact ⟨3, rfl, by norm_num, by norm_num⟩
    · exact ⟨5, rfl, by norm_num, by norm_num⟩
    · exact ⟨7, rfl, by norm_num, by norm_num⟩
    · exact ⟨11, rfl, by norm_num, by norm_num⟩
    · exact ⟨13, rfl, by norm_num, by norm_num⟩
    · exact ⟨17, rfl, by norm_num, by norm_num⟩
    · exact ⟨19, rfl, by norm_num, by norm_num⟩
  · rintro ⟨q, rfl, hq, hlt⟩
    have hq20 : q < 20 := by omega
    interval_cases q <;> first | (simp; done) | (norm_num at hq)

theorem sample_reachable : reachable 3 sample_locals sample_config :=
  ⟨[2, 1, 0], 3, sample_start, [1], by decide, rfl⟩


/-- The lists of the ranks `r, ..., min (r + w, length) - 1`. -/
theorem take_drop_eq_map_range' (L : List (List Int)) (r w : Nat) :
    (L.drop r).take w
      = (List.range' r (min w (L.length - r))).map (fun j => L.getD j []) := by
  apply List.ext_getElem?
  intro i
  by_cases h : i < min w (L.length - r)
  · have h1 : i < w := by omega
    have h2 : r + i < L.length := by omega
    rw [List.getElem?_take_of_lt h1, List.getElem?_drop, List.getElem?_map,
      List.getElem?_range' _ _ h, List.getElem?_eq_getElem h2]
    simp [List.getElem?_eq_getElem h2]
  · have hl : ((L.drop r).take w).length ≤ i := by
      rw [List.length_take, List.length_drop]; omega
    have hr : ((List.range' r (min w (L.length - r))).map (fun j => L.getD j [])).length ≤ i := by
      rw [List.length_map, List.length_range']; omega
    rw [List.getElem?_eq_none hl, List.getElem?_eq_none hr]

/-! ### Senders and receivers of a round -/

theorem guard_true_of {p m : Nat} {Ls : List (List Int)} {r k : Nat} {s : Proc}
    (hm : Smallest_power_two p = some (2 ^ m)) (hk : ProcInv p m Ls r s k)
    (hd : s.done = 0) (hlt : k < m) : loop_guard p s = some true := by
  rw [loop_guard_eq hm]
  simp only [Option.some.injEq, decide_eq_true_eq]
  exact (guard_true_iff hk).mpr ⟨hd, hlt⟩

theorem guard_true_level {p m : Nat} {Ls : List (List Int)} {r k : Nat} {s : Proc}
    (hm : Smallest_power_two p = some (2 ^ m)) (hk : ProcInv p m Ls r s k)
    (hg : loop_guard p s = some true) : s.done = 0 ∧ k < m := by
  rw [loop_guard_eq hm] at hg
  simp only [Option.some.injEq, decide_eq_true_eq] at hg
  exact (guard_true_iff hk).mp hg

/-- The partner `r + 2^k` of a receiver `r` at level `k` has not passed level `k`, and
if it has left, it left at level `k`. -/
theorem partner_of_receiver {p m : Nat} {Ls : List (List Int)} {c : Config}
    (hI : Inv p m Ls c) (r k : Nat) (hdv : 2 ^ (k + 1) ∣ r) (ht : r + 2 ^ k < p) :
    ∃ kt, ProcInv p m Ls (r + 2 ^ k) (proc_at c (r + 2 ^ k)) kt ∧ kt ≤ k ∧
      ((proc_at c (r + 2 ^ k)).done = 1 → kt = k) := by
  obtain ⟨kt, hkt⟩ := hI.procs _ ht
  have hlev := partner_level r k hdv
  refine ⟨kt, hkt, ?_, ?_⟩
  · by_contra hcon
    exact hlev.2 (Nat.dvd_trans (Nat.pow_dvd_pow 2 (by omega)) hkt.dvd)
  · intro hd
    rcases hkt.done_cases with h | h
    · omega
    · exact level_unique _ _ _ hkt.dvd h.2 hlev.1 hlev.2

/-- The target `s - 2^k` of a sender `s` at level `k` is in its loop, has not sent, and
has not passed level `k`. -/
theorem target_of_sender {p m : Nat} {Ls : List (List Int)} {c : Config}
    (hI : Inv p m Ls c) (s k : Nat) (hs : s < p) (hk : ProcInv p m Ls s (proc_at c s) k)
    (hd : (proc_at c s).done = 0) (hnd : ¬ 2 ^ (k + 1) ∣ s) :
    2 ^ k ≤ s ∧ 2 ^ (k + 1) ∣ s - 2 ^ k ∧
      ∃ kd, ProcInv p m Ls (s - 2 ^ k) (proc_at c (s - 2 ^ k)) kd ∧ kd ≤ k ∧
        (proc_at c (s - 2 ^ k)).done = 0 := by
  have htgt := sender_target s k hk.dvd hnd
  have hpos : 0 < 2 ^ k := Nat.two_pow_pos k
  obtain ⟨kd, hkd⟩ := hI.procs (s - 2 ^ k) (by omega)
  have hle : kd ≤ k := by
    by_contra hcon
    have h1 : 2 ^ (k + 1) ≤ 2 ^ kd := (pow_two_le_iff _ _).mpr (by omega)
    have h2 : 2 ^ (k + 1) = 2 ^ k + 2 ^ k := by rw [pow_succ]; ring
    have := hI.absorbed (s - 2 ^ k) s (by omega) hs (by rw [hkd.proc_diff_eq]; omega)
    omega
  refine ⟨htgt.1, htgt.2, kd, hkd, hle, ?_⟩
  rcases hkd.done_cases with h | h
  · exact h
  · exact absurd (Nat.dvd_trans (Nat.pow_dvd_pow 2 (by omega)) htgt.2) h.2

/-! ### The divisor and the step distance -/

theorem init_proc_values (l : LocalState) (s : Proc) (h : init_proc l = some s) :
    s.divisor = 2 ∧ s.proc_diff = 1 ∧ s.done = 0 := by
  unfold init_proc at h
  cases hc : copy_loop l.local_primes l.local_count (l.local_count + 1) 0 [] with
  | none => rw [hc] at h; simp at h
  | some a =>
    rw [hc] at h
    simp only [Option.some.injEq] at h
    subst h
    exact ⟨rfl, rfl, rfl⟩

theorem init_procs_values :
    ∀ (ls : List LocalState) (ps : List Proc), init_procs ls = some ps →
      ∀ s, s ∈ ps → s.divisor = 2 ∧ s.proc_diff = 1 ∧ s.done = 0 := by
  intro ls
  induction ls with
  | nil =>
    intro ps h s hs
    simp only [init_procs, Option.some.injEq] at h
    subst h
    simp at hs
  | cons l ls ih =>
    intro ps h s hs
    unfold init_procs at h
    cases h1 : init_proc l with
    | none => rw [h1] at h; simp at h
    | some s1 =>
      cases h2 : init_procs ls with
      | none => rw [h1, h2] at h; simp at h
      | some ss =>
        rw [h1, h2] at h
        simp only [Option.some.injEq] at h
        subst h
        rcases List.mem_cons.mp hs with rfl | hs
        · exact init_proc_values l _ h1
        · exact ih ss h2 s hs

/-- A receiving pass doubles the divisor and the step distance; a sending pass changes
neither and sets `done`. -/
theorem loop_body_doubles (p my_rank : Nat) (all_counts : List Nat) (s s2 : Proc)
    (net net2 : Net) (h : loop_body p my_rank all_counts s net = some (s2, net2)) :
    (my_rank % s.divisor = 0 →
      s2.divisor = s.divisor * 2 ∧ s2.proc_diff = s.proc_diff * 2 ∧ s2.done = s.done) ∧
    (my_rank % s.divisor ≠ 0 →
      s2.divisor = s.divisor ∧ s2.proc_diff = s.proc_diff ∧ s2.done = 1) := by
  rcases loop_body_cases _ _ _ _ _ _ _ h with
    ⟨h1, _, _, _, hs2, _⟩ | ⟨h1, _, _, _, _, _, _, hs2, _⟩ | ⟨h1, _, hs2, _⟩
  · subst hs2
    exact ⟨fun h0 => absurd h0 h1, fun _ => ⟨rfl, rfl, rfl⟩⟩
  · subst hs2
    exact ⟨fun _ => ⟨rfl, rfl, rfl⟩, fun h0 => absurd h1 h0⟩
  · subst hs2
    exact ⟨fun _ => ⟨rfl, rfl, rfl⟩, fun h0 => absurd h1 h0⟩

theorem step_twice (p : Nat) (all_counts : List Nat) (r : Nat) (c c2 : Config)
    (hc : ∀ s, s ∈ c.procs → s.divisor = 2 * s.proc_diff)
    (h : step p all_counts r c = some c2) :
    ∀ s, s ∈ c2.procs → s.divisor = 2 * s.proc_diff := by
  unfold step at h
  cases hs : c.procs[r]? with
  | none => rw [hs] at h; simp at h
  | some s0 =>
    rw [hs] at h
    simp only at h
    cases hg : loop_guard p s0 with
    | none => rw [hg] at h; simp at h
    | some b =>
      rw [hg] at h
      cases b with
      | false => simp at h
      | true =>
        simp only at h
        cases hb : loop_body p r all_counts s0 c.net with
        | none => rw [hb] at h; simp at h
        | some res =>
          obtain ⟨s2, net2⟩ := res
          rw [hb] at h
          simp only [Option.some.injEq] at h
          subst h
          intro s hsm
          simp only at hsm
          have h0 := hc s0 (List.getElem?_mem hs)
          rcases List.mem_or_eq_of_mem_set hsm with hin | rfl
          · exact hc s hin
          · obtain ⟨d1, d2⟩ := loop_body_doubles _ _ _ _ _ _ _ hb
            by_cases hmod : r % s0.divisor = 0
            · obtain ⟨e1, e2, _⟩ := d1 hmod
              rw [e1, e2, h0]; ring
            · obtain ⟨e1, e2, _⟩ := d2 hmod
              rw [e1, e2, h0]

theorem run_sched_twice (p : Nat) (all_counts : List Nat) :
    ∀ (sched : List Nat) (c : Config),
      (∀ s, s ∈ c.procs → s.divisor = 2 * s.proc_diff) →
      ∀ s, s ∈ (run_sched p all_counts sched c).procs → s.divisor = 2 * s.proc_diff := by
  intro sched
  induction sched with
  | nil => intro c hc; exact hc
  | cons r sched ih =>
    intro c hc
    unfold run_sched
    cases hs : step p all_counts r c with
    | none => exact ih c hc
    | some c2 => exact ih c2 (step_twice p all_counts r c c2 hc hs)

/-- In every reachable configuration the divisor of every rank is twice its step
distance. -/
theorem reachable_twice (p : Nat) (ls : List LocalState) (c : Config)
    (hc : reachable p ls c) (r : Nat) (hr : r < c.procs.length) :
    (proc_at c r).divisor = 2 * (proc_at c r).proc_diff := by
  obtain ⟨all_counts, sum_count, c0, sched, hs, rfl⟩ := hc
  have h0 : ∀ s, s ∈ c0.procs → s.divisor = 2 * s.proc_diff := by
    unfold start_config at hs
    simp only at hs
    cases h1 : Sum (ls.map (fun l => l.local_count)) p with
    | none => rw [h1] at hs; simp at hs
    | some sc =>
      cases h2 : init_procs ls with
      | none => rw [h1, h2] at hs; simp at hs
      | some ps =>
        rw [h1, h2] at hs
        simp only [Option.some.injEq, Prod.mk.injEq] at hs
        obtain ⟨_, _, rfl⟩ := hs
        intro s hsm
        obtain ⟨e1, e2, _⟩ := init_procs_values ls ps h2 s hsm
        rw [e1, e2]
  apply run_sched_twice p all_counts sched c0 h0
  unfold proc_at
  rw [List.getD_eq_getElem _ _ hr]
  exact List.getElem_mem _

/-- The list and the count of a rank at the end of its partition loop, from the list of
its candidates. -/
theorem local_of_candidates (n p r : Nat) (hp : 1 ≤ p) (cs : List Nat)
    (h : candidates n p r = some cs) :
    (local_of n p r).local_primes
      = (cs.filter (fun i => decide (Nat.Prime i))).map Int.ofNat ∧
    (local_of n p r).local_count = (cs.filter (fun i => decide (Nat.Prime i))).length := by
  obtain ⟨cs2, h1, _, _, _, h5, h6⟩ := local_of_spec n p r hp
  rw [h] at h1
  cases h1
  exact ⟨h5, by rw [h6, h5, List.length_map]⟩

/-- A rank stores at most `n` primes. -/
theorem local_of_count_le (n p r : Nat) (hp : 1 ≤ p) : (local_of n p r).local_count ≤ n := by
  obtain ⟨cs, _, h2, h3, _, h5, h6⟩ := local_of_spec n p r hp
  rw [h6, h5, List.length_map]
  exact (List.length_filter_le _ _).trans
    (length_le_of_sorted_lt n cs h3 (fun i hi => ((h2 i).mp hi).1))

/-- With room for `n` ints the partition loop returns the local state of the rank. -/
theorem local_loop_of_room (n p r : Nat) (hp : 1 ≤ p) :
    local_loop n p n (n + 1) ⟨2 * r + 3, [], 0⟩ = some (local_of n p r) := by
  obtain ⟨_, _, _, _, h, _⟩ := local_of_spec n p r hp
  rw [h n, if_pos (local_of_count_le n p r hp)]

/-- The partition loop of a rank whose primes do not fit its block faults. -/
theorem local_phase_none (n p r : Nat) (hp : 1 ≤ p)
    (hfit : ¬ (local_of n p r).local_count ≤ local_primes_bytes n p / sizeof_int) :
    local_phase n p r = none := by
  rw [local_phase_eq n p r hp, if_neg hfit]

/-- With `n = 10` the primes of every rank fit its block, on any number of ranks. -/
theorem local_count_ten (p r : Nat) (hp : 1 ≤ p) :
    (local_of 10 p r).local_count ≤ local_primes_bytes 10 p / sizeof_int := by
  obtain ⟨_, _, _, _, _, _, h6⟩ := local_of_spec 10 p r hp
  have hs := local_of_sorted 10 p r hp
  have hmem := mem_local_of 10 p r hp
  rw [h6]
  have hsub : ∀ x, x ∈ (local_of 10 p r).local_primes → x = 3 ∨ x = 5 ∨ x = 7 := by
    intro x hx
    obtain ⟨i, rfl, hi, hlt, k, hk⟩ := (hmem x).mp hx
    have h3 : 3 ≤ i := by
      have : 0 ≤ 2 * p * k := Nat.zero_le _
      omega
    interval_cases i <;> first | (simp; done) | (norm_num at hi)
  by_cases hp1 : p = 1
  · subst hp1
    have hcap : local_primes_bytes 10 1 / sizeof_int = 3 := by decide
    rw [hcap]
    have h : (local_of 10 1 r).local_primes.Subperm ([3, 5, 7] : List Int) :=
      List.subperm_of_subset hs.nodup (fun x hx => by
        rcases hsub x hx with rfl | rfl | rfl <;> simp)
    simpa using h.length_le
  · have hcap : 2 ≤ local_primes_bytes 10 p / sizeof_int := by
      unfold local_primes_bytes sizeof_int
      generalize 10 / (2 * p) = x
      omega
    refine le_trans ?_ hcap
    by_cases h3 : (3 : Int) ∈ (local_of 10 p r).local_primes
    · have h5 : (5 : Int) ∉ (local_of 10 p r).local_primes := by
        intro h5
        obtain ⟨i, e, _, _, k, hk⟩ := (hmem 3).mp h3
        obtain ⟨i2, e2, _, _, k2, hk2⟩ := (hmem 5).mp h5
        have e3 : i = 3 := by omega
        have e5 : i2 = 5 := by omega
        subst e3 e5
        have hk0 : 2 * p * k2 = 2 := by
          have : 0 ≤ 2 * p * k := Nat.zero_le _
          omega
        have hpk : p * k2 = 1 := by
          have : 2 * p * k2 = 2 * (p * k2) := by ring
          omega
        have := Nat.eq_one_of_mul_eq_one_right hpk
        exact hp1 this
      have h : (local_of 10 p r).local_primes.Subperm ([3, 7] : List Int) :=
        List.subperm_of_subset hs.nodup (fun x hx => by
          rcases hsub x hx with rfl | rfl | rfl
          · simp
          · exact absurd hx h5
          · simp)
      simpa using h.length_le
    · have h : (local_of 10 p r).local_primes.Subperm ([5, 7] : List Int) :=
        List.subperm_of_subset hs.nodup (fun x hx => by
          rcases hsub x hx with rfl | rfl | rfl
          · exact absurd hx h3
          · simp
          · simp)
      simpa using h.length_le

/-- A rank whose candidates hold more primes than its block has room for: given room the
partition loop ends with these primes, and in the block of the program it faults. -/
theorem overflow_of_candidates (n p r : Nat) (hp : 1 ≤ p) (cs ps : List Nat)
    (h : candidates n p r = some cs)
    (hf : cs.filter (fun i => decide (Nat.Prime i)) = ps)
    (hcap : ¬ ps.length ≤ local_primes_bytes n p / sizeof_int) :
    (∃ st, local_loop n p n (n + 1) ⟨2 * r + 3, [], 0⟩ = some st ∧
      st.local_primes = ps.map Int.ofNat ∧ st.local_count = ps.length) ∧
    ¬ (local_of n p r).local_count ≤ local_primes_bytes n p / sizeof_int ∧
    local_phase n p r = none := by
  obtain ⟨hl, hc⟩ := local_of_candidates n p r hp cs h
  rw [hf] at hl hc
  have hnf : ¬ (local_of n p r).local_count ≤ local_primes_bytes n p / sizeof_int := by
    rw [hc]; exact hcap
  exact ⟨⟨_, local_loop_of_room n p r hp, hl, hc⟩, hnf, local_phase_none n p r hp hnf⟩

/-- On any local lists with their counts the reduction returns, and the `my_count` of
rank 0 at its end is `sum_count = Sum(all_counts, p)`, the sum of the local counts. -/
theorem reduction_count_eq_sum (p : Nat) (ls : List LocalState) (hlen : ls.length = p)
    (hcount : ∀ l, l ∈ ls → l.local_count = l.local_primes.length) (hp : 1 ≤ p) :
    ∃ r, reduction p ls = some r ∧
      r.all_counts = ls.map (fun l => l.local_count) ∧
      Sum r.all_counts p = some r.sum_count ∧
      (proc_at r.final 0).my_count = r.sum_count ∧
      (proc_at r.final 0).all_primes.length = r.sum_count := by
  subst hlen
  obtain ⟨m, c, hm, hpm, hred, hI, hg⟩ := reduction_spec ls hcount
  obtain ⟨_, _, h3, h4⟩ := rank_zero_final (by simp) hm hpm hp hI (hg 0 hp)
  have hl : (proc_at c 0).all_primes.length = (ls.map (fun l => l.local_count)).sum := by
    rw [h4.length_eq, List.length_flatten, List.map_map]
    congr 1
    exact List.map_congr_left (fun l hl => (hcount l hl).symm)
  refine ⟨_, hred, rfl, ?_, ?_, hl⟩
  · simp only
    rw [Sum_spec _ _ (by simp), List.take_of_length_le (by simp)]
  · simp only
    rw [h3, hl]

/-- On one rank the guard of the reduction loop is false in the initial state
(`Smallest_power_two(1) = 1` is below the initial divisor `2`): the body is never
entered, no message is sent, and rank 0 ends with its local list and local count. -/
theorem single_rank_reduction (st : LocalState)
    (hcount : st.local_count = st.local_primes.length) :
    ∃ s0 r, init_proc st = some s0 ∧ Smallest_power_two 1 = some 1 ∧ s0.divisor = 2 ∧
      s0.done = 0 ∧ loop_guard 1 s0 = some false ∧
      reduction 1 [st] = some r ∧ r.final = ⟨[s0], ⟨[], []⟩⟩ ∧
      (proc_at r.final 0).all_primes = st.local_primes ∧
      (proc_at r.final 0).my_count = st.local_count := by
  have hinit := init_proc_spec st hcount
  have hspt : Smallest_power_two 1 = some 1 := by decide
  have hguard : loop_guard 1 ⟨st.local_primes, [], [], st.local_count, 2, 1, 0⟩
      = some false := by
    simp [loop_guard, hspt]
  have hred : reduction 1 [st]
      = some ⟨[st.local_count], st.local_count,
          ⟨[⟨st.local_primes, [], [], st.local_count, 2, 1, 0⟩], ⟨[], []⟩⟩⟩ := by
    have hsum : Sum [st.local_count] 1 = some st.local_count := by
      rw [Sum_spec _ _ (by simp)]; simp
    simp only [reduction, start_config, List.map_cons, List.map_nil, hsum, init_procs, hinit,
      run_below, reduce_loop, List.getElem?_cons_zero, hguard]
  exact ⟨_, _, hinit, hspt, rfl, rfl, hguard, hred, rfl, by simp [proc_at], by simp [proc_at]⟩

/-- The list of a rank never outgrows the blocks of `sum_count` ints: in every reachable
configuration of the reduction it has at most `sum_count` elements. -/
theorem held_length_le_sum_count (p : Nat) (ls : List LocalState) (hlen : ls.length = p)
    (hcount : ∀ l, l ∈ ls → l.local_count = l.local_primes.length)
    (c : Config) (hc : reachable p ls c) (r : Nat) (hr : r < p) :
    (proc_at c r).all_primes.length ≤ (ls.map (fun l => l.local_count)).sum ∧
    (proc_at c r).my_count ≤ (ls.map (fun l => l.local_count)).sum := by
  obtain ⟨m, _, _, _, hI⟩ := Inv_of_reachable p ls hlen hcount c hc
  obtain ⟨k, hk⟩ := hI.procs r hr
  have hL : (ls.map (fun l => l.local_primes)).length = p := by simp [hlen]
  have h1 : (expected p (ls.map (fun l => l.local_primes)) k r).length
      ≤ (ls.map (fun l => l.local_count)).sum := by
    rw [(expected_perm p _ hL k r).length_eq]
    refine le_trans (flatten_take_drop_sublist _ r (2 ^ k)).length_le ?_
    rw [List.length_flatten, List.map_map]
    apply le_of_eq
    congr 1
    exact List.map_congr_left (fun l hl => (hcount l hl).symm)
  exact ⟨by rw [hk.data_eq]; exact h1, by rw [hk.count_eq]; exact h1⟩

/-! ## The claims on `Merge` and `Is_prime` -/

/-- C3: for two arrays whose first `all_count` and `received_count` elements are
ascending, `Merge` returns, and the sequence it leaves in `*all_primes` (of length the
new `*all_count`) is ascending. -/
theorem Merge_ascending (all_primes received_primes temp : List Int)
    (all_count received_count : Nat)
    (hac : all_count ≤ all_primes.length) (hrc : received_count ≤ received_primes.length)
    (hA : (all_primes.take all_count).Sorted (· ≤ ·))
    (hB : (received_primes.take received_count).Sorted (· ≤ ·)) :
    ∃ r, Merge all_primes all_count received_primes received_count temp = some r ∧
      r.all_primes.length = r.all_count ∧ r.all_primes.Sorted (· ≤ ·) := by
  refine ⟨_, Merge_eq_merge_lists _ _ temp _ _ hac hrc, ?_, merge_lists_sorted _ _ hA hB⟩
  simp [List.length_merge, Nat.min_eq_left hac, Nat.min_eq_left hrc]

theorem Merge_ascending_witness :
    (2 ≤ [(1 : Int), 3].length ∧ 2 ≤ [(2 : Int), 2].length ∧
      ([(1 : Int), 3].take 2).Sorted (· ≤ ·) ∧ ([(2 : Int), 2].take 2).Sorted (· ≤ ·)) ∧
    ∃ r, Merge [1, 3] 2 [2, 2] 2 [] = some r ∧
      r.all_primes.length = r.all_count ∧ r.all_primes.Sorted (· ≤ ·) :=
  ⟨⟨by decide, by decide, by decide, by decide⟩,
    Merge_ascending [1, 3] [2, 2] [] 2 2 (by decide) (by decide) (by decide) (by decide)⟩

/-- C4: `Merge` returns a permutation of the first `all_count` elements of `all_primes`
followed by the first `received_count` elements of `received_primes`, and sets
`*all_count` to the sum of the two counts. -/
theorem Merge_perm_count (all_primes received_primes temp : List Int)
    (all_count received_count : Nat)
    (hac : all_count ≤ all_primes.length) (hrc : received_count ≤ received_primes.length)
    (_hA : (all_primes.take all_count).Sorted (· ≤ ·))
    (_hB : (received_primes.take received_count).Sorted (· ≤ ·)) :
    ∃ r, Merge all_primes all_count received_primes received_count temp = some r ∧
      r.all_primes.Perm (all_primes.take all_count ++ received_primes.take received_count) ∧
      r.all_count = all_count + received_count ∧
      r.all_count = (all_primes.take all_count).length
        + (received_primes.take received_count).length := by
  refine ⟨_, Merge_eq_merge_lists _ _ temp _ _ hac hrc, List.merge_perm_append _, rfl, ?_⟩
  simp [Nat.min_eq_left hac, Nat.min_eq_left hrc]

theorem Merge_perm_count_witness :
    (2 ≤ [(1 : Int), 3].length ∧ 2 ≤ [(2 : Int), 2].length ∧
      ([(1 : Int), 3].take 2).Sorted (· ≤ ·) ∧ ([(2 : Int), 2].take 2).Sorted (· ≤ ·)) ∧
    ∃ r, Merge [1, 3] 2 [2, 2] 2 [] = some r ∧
      r.all_primes.Perm (([1, 3] : List Int).take 2 ++ ([2, 2] : List Int).take 2) ∧
      r.all_count = 2 + 2 ∧
      r.all_count = (([1, 3] : List Int).take 2).length + (([2, 2] : List Int).take 2).length :=
  ⟨⟨by decide, by decide, by decide, by decide⟩,
    Merge_perm_count [1, 3] [2, 2] [] 2 2 (by decide) (by decide) (by decide) (by decide)⟩

/-- C5: the result of `Merge` is an interleaving of its two inputs: its positions split
into two disjoint increasing index lists, one reading off the first input in order and
the other the second; both inputs are sublists of the result. -/
theorem Merge_interleaving (all_primes received_primes temp : List Int)
    (all_count received_count : Nat)
    (hac : all_count ≤ all_primes.length) (hrc : received_count ≤ received_primes.length)
    (_hA : (all_primes.take all_count).Sorted (· ≤ ·))
    (_hB : (received_primes.take received_count).Sorted (· ≤ ·)) :
    ∃ r, Merge all_primes all_count received_primes received_count temp = some r ∧
      (∃ ia ib : List Nat,
        Interleaving r.all_primes (all_primes.take all_count)
          (received_primes.take received_count) ia ib) ∧
      (all_primes.take all_count).Sublist r.all_primes ∧
      (received_primes.take received_count).Sublist r.all_primes := by
  refine ⟨_, Merge_eq_merge_lists _ _ temp _ _ hac hrc, merge_lists_interleaving _ _,
    (sublist_merge_lists _ _).1, (sublist_merge_lists _ _).2⟩

theorem Merge_interleaving_witness :
    (2 ≤ [(1 : Int), 3].length ∧ 2 ≤ [(2 : Int), 2].length ∧
      ([(1 : Int), 3].take 2).Sorted (· ≤ ·) ∧ ([(2 : Int), 2].take 2).Sorted (· ≤ ·)) ∧
    ∃ r, Merge [1, 3] 2 [2, 2] 2 [] = some r ∧
      (∃ ia ib : List Nat,
        Interleaving r.all_primes (([1, 3] : List Int).take 2) (([2, 2] : List Int).take 2)
          ia ib) ∧
      (([1, 3] : List Int).take 2).Sublist r.all_primes ∧
      (([2, 2] : List Int).take 2).Sublist r.all_primes :=
  ⟨⟨by decide, by decide, by decide, by decide⟩,
    Merge_interleaving [1, 3] [2, 2] [] 2 2 (by decide) (by decide) (by decide) (by decide)⟩

/-- C7: for every odd `i ≥ 3`, `Is_prime i` returns, and the value returned is nonzero
exactly when no `j` with `2 ≤ j ≤ floor(sqrt(i))` divides `i`. -/
theorem Is_prime_trial_division (i : Nat) (_h3 : 3 ≤ i) (_hodd : i % 2 = 1) :
    ∃ v, Is_prime i = some v ∧
      (v ≠ 0 ↔ ∀ j, 2 ≤ j → j ≤ Nat.sqrt i → ¬ j ∣ i) := by
  obtain ⟨v, h1, _, h3⟩ := Is_prime_spec i
  exact ⟨v, h1, h3⟩

theorem Is_prime_trial_division_witness :
    (3 ≤ 9 ∧ 9 % 2 = 1) ∧
    ∃ v, Is_prime 9 = some v ∧ (v ≠ 0 ↔ ∀ j, 2 ≤ j → j ≤ Nat.sqrt 9 → ¬ j ∣ 9) :=
  ⟨⟨by decide, by decide⟩, Is_prime_trial_division 9 (by decide) (by decide)⟩

/-! ## The claims on the partition, the reduction and the whole program -/

/-- C1 (evaluation at the failing input): with `n = 3` on one rank the program prints
`2` alone, although `3` lies in `[2, n]` and has no divisor in `[2, floor(sqrt(3))]`. -/
theorem main_three_omits_three :
    (main 3 1).bind Outcome.printed = some [2] ∧
    (2 ≤ 3 ∧ 3 ≤ 3 ∧ ∀ j, 2 ≤ j → j ≤ Nat.sqrt 3 → ¬ j ∣ 3) ∧ (3 : Int) ∉ [(2 : Int)] :=
  ⟨by decide, ⟨by decide, by decide, (Nat.prime_def_le_sqrt.mp Nat.prime_three).2⟩, by decide⟩

/-- C6: for every bound `n` and every `p ≥ 1`, the candidates of rank `r` (the values of
`i` in its partition loop) are the numbers `2r + 3 + 2pk` below `n`, each an odd number
in `[3, n)`; and every odd `i` in `[3, n)` is a candidate of exactly one rank below `p`. -/
theorem partition_coverage (n p : Nat) (hp : 1 ≤ p) :
    (∀ r, r < p → ∃ cs, candidates n p r = some cs ∧
        (∀ i, i ∈ cs ↔ (i < n ∧ ∃ k, i = 2 * r + 3 + 2 * p * k)) ∧
        (∀ i, i ∈ cs → 3 ≤ i ∧ i < n ∧ i % 2 = 1)) ∧
    (∀ i, 3 ≤ i → i < n → i % 2 = 1 →
        ∃! r, r < p ∧ ∃ cs, candidates n p r = some cs ∧ i ∈ cs) := by
  constructor
  · intro r _
    obtain ⟨cs, h1, h2, _⟩ := candidates_spec n p r hp
    refine ⟨cs, h1, h2, ?_⟩
    intro i hi
    obtain ⟨hin, k, rfl⟩ := (h2 i).mp hi
    refine ⟨by omega, hin, ?_⟩
    have : 2 * r + 3 + 2 * p * k = 2 * (r + 1 + p * k) + 1 := by ring
    omega
  · intro i h3 hin hodd
    have hdecomp : (i - 3) / 2 = (i - 3) / 2 % p + p * ((i - 3) / 2 / p) :=
      (Nat.mod_add_div _ _).symm
    refine ⟨(i - 3) / 2 % p, ⟨Nat.mod_lt _ (by omega), ?_⟩, ?_⟩
    · obtain ⟨cs, h1, h2, _⟩ := candidates_spec n p ((i - 3) / 2 % p) hp
      refine ⟨cs, h1, (h2 i).mpr ⟨hin, (i - 3) / 2 / p, ?_⟩⟩
      have : 2 * p * ((i - 3) / 2 / p) = 2 * (p * ((i - 3) / 2 / p)) := by ring
      omega
    · rintro r ⟨hr, cs, h1, hi⟩
      obtain ⟨cs2, h1', h2, _⟩ := candidates_spec n p r hp
      rw [h1] at h1'
      cases h1'
      obtain ⟨_, k, hk⟩ := (h2 i).mp hi
      have e : (i - 3) / 2 = r + p * k := by
        have : 2 * p * k = 2 * (p * k) := by ring
        omega
      rw [e, Nat.add_mul_mod_self_left, Nat.mod_eq_of_lt hr]

theorem partition_coverage_witness :
    1 ≤ 3 ∧
    ((∀ r, r < 3 → ∃ cs, candidates 20 3 r = some cs ∧
        (∀ i, i ∈ cs ↔ (i < 20 ∧ ∃ k, i = 2 * r + 3 + 2 * 3 * k)) ∧
        (∀ i, i ∈ cs → 3 ≤ i ∧ i < 20 ∧ i % 2 = 1)) ∧
    (∀ i, 3 ≤ i → i < 20 → i % 2 = 1 →
        ∃! r, r < 3 ∧ ∃ cs, candidates 20 3 r = some cs ∧ i ∈ cs)) :=
  ⟨by decide, partition_coverage 20 3 (by decide)⟩

/-- C10: for every `p ≥ 1` and any local lists, the reduction returns with the loop of
every rank ended; then rank 0 has `done = 0` and has sent nothing, and every rank `r` with
`0 < r < p` has `done = 1` and has sent exactly one message, its list, while its divisor
was at most `Smallest_power_two(p)`, the least power of two that is at least `p`.  The
same holds in the configuration reached under any interleaving of the ranks' passes once
every loop has ended. -/
theorem only_rank_zero_active (p : Nat) (ls : List LocalState) (hlen : ls.length = p)
    (hcount : ∀ l, l ∈ ls → l.local_count = l.local_primes.length) (hp : 1 ≤ p) :
    ∃ red m all_counts sum_count c0,
      reduction p ls = some red ∧
      start_config p ls = some (all_counts, sum_count, c0) ∧
      Smallest_power_two p = some (2 ^ m) ∧ p ≤ 2 ^ m ∧ (m = 0 ∨ 2 ^ (m - 1) < p) ∧
      (∀ c, (c = red.final ∨ ∃ sched, c = run_sched p all_counts sched c0) →
        (∀ t, t < p → loop_ended p c t) →
        (proc_at c 0).done = 0 ∧
        c.net.sent.filter (fun x => decide (x.source = 0)) = [] ∧
        (∀ r, 0 < r → r < p →
          (proc_at c r).done = 1 ∧
          c.net.sent.filter (fun x => decide (x.source = r)) = [msg_of r (proc_at c r)] ∧
          (proc_at c r).divisor ≤ 2 ^ m)) ∧
      (∀ t, t < p → loop_ended p red.final t) := by
  subst hlen
  obtain ⟨m, c, hm, hpm, hred, hI, hg⟩ := reduction_spec ls hcount
  obtain ⟨m2, hm2, _, hmin⟩ := Smallest_power_two_spec ls.length
  have e : m2 = m := by
    rw [hm] at hm2
    exact (pow_two_inj _ _ (Option.some.inj hm2)).symm
  subst e
  have hcounts : ls.map (fun l => l.local_count)
      = (ls.map (fun l => l.local_primes)).map List.length := by
    rw [List.map_map]
    exact List.map_congr_left (fun l hl => hcount l hl)
  have hstart : start_config ls.length ls
      = some (ls.map (fun l => l.local_count), (ls.map (fun l => l.local_count)).sum,
          ⟨ls.map (fun l => (⟨l.local_primes, [], [], l.local_count, 2, 1, 0⟩ : Proc)),
            ⟨[], []⟩⟩) := by
    unfold start_config
    simp only
    rw [Sum_spec _ _ (by simp), init_procs_spec ls hcount, List.take_of_length_le (by simp)]
  refine ⟨_, m2, _, _, _, hred, hstart, hm, hpm, hmin, ?_, ?_⟩
  · intro c2 hc2 hended
    have hI2 : Inv ls.length m2 (ls.map (fun l => l.local_primes)) c2 := by
      rcases hc2 with rfl | ⟨sched, rfl⟩
      · exact hI
      · rw [hcounts]
        exact Inv_run_sched hm sched _ (Inv_start m2 ls hcount)
    have hg2 : ∀ t, t < ls.length → loop_guard ls.length (proc_at c2 t) = some false := by
      intro t ht
      obtain ⟨s, hs1, hs2⟩ := hended t ht
      obtain ⟨_, rfl⟩ := getElem?_eq_some_proc_at c2 t s hs1
      exact hs2
    exact (ended_config_spec hm hpm hp hI2 hg2).2
  · exact (ended_config_spec hm hpm hp hI hg).1

theorem only_rank_zero_active_witness :
    (([⟨0, [3, 7], 2⟩, ⟨0, [5], 1⟩, ⟨0, [], 0⟩] : List LocalState).length = 3 ∧
      (∀ l, l ∈ ([⟨0, [3, 7], 2⟩, ⟨0, [5], 1⟩, ⟨0, [], 0⟩] : List LocalState) →
        l.local_count = l.local_primes.length) ∧ 1 ≤ 3) ∧
    ∃ red m all_counts sum_count c0,
      reduction 3 [⟨0, [3, 7], 2⟩, ⟨0, [5], 1⟩, ⟨0, [], 0⟩] = some red ∧
      start_config 3 [⟨0, [3, 7], 2⟩, ⟨0, [5], 1⟩, ⟨0, [], 0⟩]
        = some (all_counts, sum_count, c0) ∧
      Smallest_power_two 3 = some (2 ^ m) ∧ 3 ≤ 2 ^ m ∧ (m = 0 ∨ 2 ^ (m - 1) < 3) ∧
      (∀ c, (c = red.final ∨ ∃ sched, c = run_sched 3 all_counts sched c0) →
        (∀ t, t < 3 → loop_ended 3 c t) →
        (proc_at c 0).done = 0 ∧
        c.net.sent.filter (fun x => decide (x.source = 0)) = [] ∧
        (∀ r, 0 < r → r < 3 →
          (proc_at c r).done = 1 ∧
          c.net.sent.filter (fun x => decide (x.source = r)) = [msg_of r (proc_at c r)] ∧
          (proc_at c r).divisor ≤ 2 ^ m)) ∧
      (∀ t, t < 3 → loop_ended 3 red.final t) :=
  ⟨⟨by decide, by decide, by decide⟩,
    only_rank_zero_active 3 [⟨0, [3, 7], 2⟩, ⟨0, [5], 1⟩, ⟨0, [], 0⟩] (by decide) (by decide)
      (by decide)⟩

/-- C2 (evaluation at a failing input): with `n = 12` on 2 ranks the block of
`local_primes` has `12 / 4 + 2 * 4 = 11` bytes, room for 2 `int`s, and the candidates
3, 7, 11 of rank 0 are three primes: the third store is outside the block, the partition
loop of rank 0 faults, and `main` prints no line. -/
theorem main_twelve_two_ranks :
    local_primes_bytes 12 2 = 11 ∧ local_primes_bytes 12 2 / sizeof_int = 2 ∧
    (∃ st, local_loop 12 2 12 13 ⟨3, [], 0⟩ = some st ∧ st.local_primes = [3, 7, 11] ∧
      st.local_count = 3) ∧
    local_phase 12 2 0 = none ∧ main 12 2 = none := by
  have hcs : candidates 12 2 0 = some [3, 7, 11] := by decide
  have hf : ([3, 7, 11] : List Nat).filter (fun i => decide (Nat.Prime i)) = [3, 7, 11] := by
    have p3 : Nat.Prime 3 := by norm_num
    have p7 : Nat.Prime 7 := by norm_num
    have p11 : Nat.Prime 11 := by norm_num
    simp [List.filter, p3, p7, p11]
  obtain ⟨h1, h2, h3⟩ := overflow_of_candidates 12 2 0 (by decide) _ _ hcs hf (by decide)
  exact ⟨by decide, by decide, h1, h3,
    main_none_of_overflow 12 2 (by decide) (by decide) 0 (by decide) h2⟩

/-- C8 (evaluation at a failing input): with `n = 20` on 2 ranks the block of
`local_primes` has `20 / 4 + 2 * 4 = 13` bytes, room for 3 `int`s, and the candidates of
rank 0 hold the four primes 3, 7, 11, 19: the fourth store is outside the block, the
partition loop faults, and `main` reaches no end of the reduction. -/
theorem main_twenty_two_ranks :
    local_primes_bytes 20 2 = 13 ∧ local_primes_bytes 20 2 / sizeof_int = 3 ∧
    (∃ st, local_loop 20 2 20 21 ⟨3, [], 0⟩ = some st ∧ st.local_primes = [3, 7, 11, 19] ∧
      st.local_count = 4) ∧
    local_phase 20 2 0 = none ∧ main 20 2 = none := by
  have hcs : candidates 20 2 0 = some [3, 7, 11, 15, 19] := by decide
  have hf : ([3, 7, 11, 15, 19] : List Nat).filter (fun i => decide (Nat.Prime i))
      = [3, 7, 11, 19] := by
    have p3 : Nat.Prime 3 := by norm_num
    have p7 : Nat.Prime 7 := by norm_num
    have p11 : Nat.Prime 11 := by norm_num
    have p15 : ¬ Nat.Prime 15 := by norm_num
    have p19 : Nat.Prime 19 := by norm_num
    simp [List.filter, p3, p7, p11, p15, p19]
  obtain ⟨h1, h2, h3⟩ := overflow_of_candidates 20 2 0 (by decide) _ _ hcs hf (by decide)
  exact ⟨by decide, by decide, h1, h3,
    main_none_of_overflow 20 2 (by decide) (by decide) 0 (by decide) h2⟩

/-- C9 (evaluation at a failing input): with `n = 20` on one rank the block of
`local_primes` has `20 / 2 + 2 * 4 = 18` bytes, room for 4 `int`s, and rank 0 has the
seven primes 3, 5, 7, 11, 13, 17, 19 to store: the fifth store is outside the block, the
partition loop faults, and `main` does not reach the reduction loop. -/
theorem main_twenty_one_rank :
    local_primes_bytes 20 1 = 18 ∧ local_primes_bytes 20 1 / sizeof_int = 4 ∧
    (∃ st, local_loop 20 1 20 21 ⟨3, [], 0⟩ = some st ∧
      st.local_primes = [3, 5, 7, 11, 13, 17, 19] ∧ st.local_count = 7) ∧
    local_phase 20 1 0 = none ∧ main 20 1 = none := by
  have hcs : candidates 20 1 0 = some [3, 5, 7, 9, 11, 13, 15, 17, 19] := by decide
  have hf : ([3, 5, 7, 9, 11, 13, 15, 17, 19] : List Nat).filter
      (fun i => decide (Nat.Prime i)) = [3, 5, 7, 11, 13, 17, 19] := by
    have p3 : Nat.Prime 3 := by norm_num
    have p5 : Nat.Prime 5 := by norm_num
    have p7 : Nat.Prime 7 := by norm_num
    have p9 : ¬ Nat.Prime 9 := by norm_num
    have p11 : Nat.Prime 11 := by norm_num
    have p13 : Nat.Prime 13 := by norm_num
    have p15 : ¬ Nat.Prime 15 := by norm_num
    have p17 : Nat.Prime 17 := by norm_num
    have p19 : Nat.Prime 19 := by norm_num
    simp [List.filter, p3, p5, p7, p9, p11, p13, p15, p17, p19]
  obtain ⟨h1, h2, h3⟩ := overflow_of_candidates 20 1 0 (by decide) _ _ hcs hf (by decide)
  exact ⟨by decide, by decide, h1, h3,
    main_none_of_overflow 20 1 (by decide) (by decide) 0 (by decide) h2⟩

/-! ## The claims on the scenarios, the rounds of the reduction and the allocation -/

/-- C11: with `n = 10`, on any number `p ≥ 1` of ranks, the program returns and the list
rank 0 prints, `2` followed by its merged list, is `[2, 3, 5, 7]`. -/
theorem main_ten (p : Nat) (hp : 1 ≤ p) :
    ∃ r, main 10 p = some (Outcome.reduced r [2, 3, 5, 7]) ∧
      ([2, 3, 5, 7] : List Int)
        = 2 :: (proc_at r.final 0).all_primes.take (proc_at r.final 0).my_count :=
  main_line_eq 10 p (by decide) hp [2, 3, 5, 7] (by decide) primes_below_ten
    (fun k _ => local_count_ten p k hp) (by decide)

theorem main_ten_witness :
    1 ≤ 3 ∧
    ∃ r, main 10 3 = some (Outcome.reduced r [2, 3, 5, 7]) ∧
      ([2, 3, 5, 7] : List Int)
        = 2 :: (proc_at r.final 0).all_primes.take (proc_at r.final 0).my_count :=
  ⟨by decide, main_ten 3 (by decide)⟩

/-- C12 (evaluation at the inputs of the claim): with `n = 20` the block of
`local_primes` has room for 2 `int`s both on 4 ranks (`20 / 8 + 8 = 10` bytes) and on
3 ranks (`20 / 6 + 8 = 11` bytes); on 4 ranks rank 0 has the three primes 3, 11, 19 to
store, on 3 ranks rank 1 has the three primes 5, 11, 17: the third store is outside the
block, and `main` prints no line in either run. -/
theorem main_twenty_scenarios :
    (local_primes_bytes 20 4 = 10 ∧ local_primes_bytes 20 4 / sizeof_int = 2 ∧
      (∃ st, local_loop 20 4 20 21 ⟨3, [], 0⟩ = some st ∧ st.local_primes = [3, 11, 19] ∧
        st.local_count = 3) ∧
      local_phase 20 4 0 = none ∧ main 20 4 = none) ∧
    (local_primes_bytes 20 3 = 11 ∧ local_primes_bytes 20 3 / sizeof_int = 2 ∧
      (∃ st, local_loop 20 3 20 21 ⟨5, [], 0⟩ = some st ∧ st.local_primes = [5, 11, 17] ∧
        st.local_count = 3) ∧
      local_phase 20 3 1 = none ∧ main 20 3 = none) := by
  have p3 : Nat.Prime 3 := by norm_num
  have p5 : Nat.Prime 5 := by norm_num
  have p11 : Nat.Prime 11 := by norm_num
  have p17 : Nat.Prime 17 := by norm_num
  have p19 : Nat.Prime 19 := by norm_num
  have hcs4 : candidates 20 4 0 = some [3, 11, 19] := by decide
  have hf4 : ([3, 11, 19] : List Nat).filter (fun i => decide (Nat.Prime i))
      = [3, 11, 19] := by
    simp [List.filter, p3, p11, p19]
  have hcs3 : candidates 20 3 1 = some [5, 11, 17] := by decide
  have hf3 : ([5, 11, 17] : List Nat).filter (fun i => decide (Nat.Prime i))
      = [5, 11, 17] := by
    simp [List.filter, p5, p11, p17]
  obtain ⟨a1, a2, a3⟩ := overflow_of_candidates 20 4 0 (by decide) _ _ hcs4 hf4 (by decide)
  obtain ⟨b1, b2, b3⟩ := overflow_of_candidates 20 3 1 (by decide) _ _ hcs3 hf3 (by decide)
  exact ⟨⟨by decide, by decide, a1, a3,
      main_none_of_overflow 20 4 (by decide) (by decide) 0 (by decide) a2⟩,
    ⟨by decide, by decide, b1, b3,
      main_none_of_overflow 20 3 (by decide) (by decide) 1 (by decide) b2⟩⟩

/-- C13: for every `n ≤ 1` and every number of ranks the run is the usage path: it is not
a run of the partition loops, the count exchange and the reduction, and no list is
printed. -/
theorem usage_path (n : Int) (p : Nat) (hn : n ≤ 1) :
    main n p = some Outcome.usage ∧
      (∀ r line, main n p ≠ some (Outcome.reduced r line)) ∧
      main n p ≠ some Outcome.two ∧
      (main n p).bind Outcome.printed = none := by
  have h : main n p = some Outcome.usage := by
    unfold main
    rw [if_pos hn]
  refine ⟨h, ?_, ?_, ?_⟩
  · intro r line
    rw [h]
    simp
  · rw [h]
    simp
  · rw [h]
    rfl

theorem usage_path_witness :
    (1 : Int) ≤ 1 ∧
    (main 1 4 = some Outcome.usage ∧
      (∀ r line, main 1 4 ≠ some (Outcome.reduced r line)) ∧
      main 1 4 ≠ some Outcome.two ∧
      (main 1 4).bind Outcome.printed = none) :=
  ⟨by decide, usage_path 1 4 (by decide)⟩

/-- C18: for every `i ≥ 2`, `Is_prime i` returns; the value is nonzero exactly when `i`
is prime, that is when its only divisors are 1 and `i`, and it is zero otherwise. -/
theorem Is_prime_decides_primality (i : Nat) (hi : 2 ≤ i) :
    ∃ v, Is_prime i = some v ∧
      (v ≠ 0 ↔ Nat.Prime i) ∧
      (v ≠ 0 ↔ ∀ d, d ∣ i → d = 1 ∨ d = i) ∧
      (¬ Nat.Prime i → v = 0) := by
  obtain ⟨v, h1, _, h3⟩ := Is_prime_iff_prime i hi
  refine ⟨v, h1, h3, ?_, ?_⟩
  · rw [h3, Nat.prime_def]
    constructor
    · intro h; exact h.2
    · intro h; exact ⟨hi, h⟩
  · intro hnp
    by_contra hv
    exact hnp (h3.mp hv)

theorem Is_prime_decides_primality_witness :
    2 ≤ 9 ∧
    ∃ v, Is_prime 9 = some v ∧
      (v ≠ 0 ↔ Nat.Prime 9) ∧
      (v ≠ 0 ↔ ∀ d, d ∣ 9 → d = 1 ∨ d = 9) ∧
      (¬ Nat.Prime 9 → v = 0) :=
  ⟨by decide, Is_prime_decides_primality 9 (by decide)⟩

/-- C14: in any reachable configuration of the reduction, for any local lists with their
counts, a rank `r` that is about to receive (its guard holds, `r % divisor = 0`, its
partner `r + proc_diff` is below `p`) computes as `received_count` the sum of the
original counts of the ranks in `[partner, partner + proc_diff)` clipped to `p`; this is
the `my_count` of the partner in that round and the length of the message the partner
sends. -/
theorem received_count_matches (p : Nat) (ls : List LocalState) (hlen : ls.length = p)
    (hcount : ∀ l, l ∈ ls → l.local_count = l.local_primes.length)
    (c : Config) (hc : reachable p ls c) (r : Nat) (hr : r < p)
    (_hg : loop_guard p (proc_at c r) = some true)
    (hrecv : r % (proc_at c r).divisor = 0)
    (hpart : r + (proc_at c r).proc_diff < p) :
    ∃ received_count,
      Sum ((ls.map (fun l => l.local_count)).drop (r + (proc_at c r).proc_diff))
        (if r + (proc_at c r).proc_diff + (proc_at c r).proc_diff < p
          then (proc_at c r).proc_diff else p - (r + (proc_at c r).proc_diff))
        = some received_count ∧
      received_count
        = (((ls.map (fun l => l.local_count)).drop (r + (proc_at c r).proc_diff)).take
            (proc_at c r).proc_diff).sum ∧
      (proc_at c (r + (proc_at c r).proc_diff)).proc_diff ≤ (proc_at c r).proc_diff ∧
      ((proc_at c (r + (proc_at c r).proc_diff)).proc_diff = (proc_at c r).proc_diff →
        (proc_at c (r + (proc_at c r).proc_diff)).my_count = received_count) ∧
      ((proc_at c (r + (proc_at c r).proc_diff)).done = 1 →
        (proc_at c (r + (proc_at c r).proc_diff)).my_count = received_count) ∧
      (∀ x, x ∈ c.net.pending → x.source = r + (proc_at c r).proc_diff → x.dest = r →
        x.data.length = received_count) := by
  obtain ⟨m, hm, _, _, hI⟩ := Inv_of_reachable p ls hlen hcount c hc
  obtain ⟨k, hk⟩ := hI.procs r hr
  have hdv : 2 ^ (k + 1) ∣ r := by
    by_contra hcon
    exact (mod_divisor_ne_zero_iff hk).mpr hcon hrecv
  rw [hk.proc_diff_eq] at hpart ⊢
  obtain ⟨kt, hkt, hle, hdone⟩ := partner_of_receiver hI r k hdv hpart
  have hL : (ls.map (fun l => l.local_primes)).length = p := by simpa using hlen
  refine ⟨(expected p (ls.map (fun l => l.local_primes)) k (r + 2 ^ k)).length,
    ?_, ?_, ?_, ?_, ?_, ?_⟩
  · rw [map_local_count ls hcount]
    exact received_count_eq p _ hL k _ hpart
  · rw [map_local_count ls hcount]
    exact expected_length p _ hL k _
  · rw [hkt.proc_diff_eq]
    exact (pow_two_le_iff _ _).mpr hle
  · intro h
    have e : kt = k := pow_two_inj _ _ (hkt.proc_diff_eq.symm.trans h)
    subst e
    exact hkt.count_eq
  · intro h
    have e := hdone h
    subst e
    exact hkt.count_eq
  · intro x hx h1 h2
    rw [(pending_from_partner hI r k hk x hx h1 h2).2.2.2]

theorem received_count_matches_witness :
    (sample_locals.length = 3 ∧
      (∀ l, l ∈ sample_locals → l.local_count = l.local_primes.length) ∧
      reachable 3 sample_locals sample_config ∧ 0 < 3 ∧
      loop_guard 3 (proc_at sample_config 0) = some true ∧
      0 % (proc_at sample_config 0).divisor = 0 ∧
      0 + (proc_at sample_config 0).proc_diff < 3) ∧
    ∃ received_count,
      Sum ((sample_locals.map (fun l => l.local_count)).drop
          (0 + (proc_at sample_config 0).proc_diff))
        (if 0 + (proc_at sample_config 0).proc_diff + (proc_at sample_config 0).proc_diff < 3
          then (proc_at sample_config 0).proc_diff
          else 3 - (0 + (proc_at sample_config 0).proc_diff))
        = some received_count ∧
      received_count
        = (((sample_locals.map (fun l => l.local_count)).drop
            (0 + (proc_at sample_config 0).proc_diff)).take
            (proc_at sample_config 0).proc_diff).sum ∧
      (proc_at sample_config (0 + (proc_at sample_config 0).proc_diff)).proc_diff
        ≤ (proc_at sample_config 0).proc_diff ∧
      ((proc_at sample_config (0 + (proc_at sample_config 0).proc_diff)).proc_diff
          = (proc_at sample_config 0).proc_diff →
        (proc_at sample_config (0 + (proc_at sample_config 0).proc_diff)).my_count
          = received_count) ∧
      ((proc_at sample_config (0 + (proc_at sample_config 0).proc_diff)).done = 1 →
        (proc_at sample_config (0 + (proc_at sample_config 0).proc_diff)).my_count
          = received_count) ∧
      (∀ x, x ∈ sample_config.net.pending →
        x.source = 0 + (proc_at sample_config 0).proc_diff → x.dest = 0 →
        x.data.length = received_count) :=
  ⟨⟨by decide, by decide, sample_reachable, by decide, by decide, by decide, by decide⟩,
    received_count_matches 3 sample_locals (by decide) (by decide) sample_config
      sample_reachable 0 (by decide) (by decide) (by decide) (by decide)⟩

/-- C16: in any reachable configuration, a rank `r` that has completed `k` receiving
passes (its `proc_diff` is `2^k`) holds, with its exact count, a permutation of the local
lists of the ranks `r, ..., min (r + 2^k, p) - 1` put together: nothing lost, nothing
duplicated. -/
theorem held_list_is_union (p : Nat) (ls : List LocalState) (hlen : ls.length = p)
    (hcount : ∀ l, l ∈ ls → l.local_count = l.local_primes.length)
    (c : Config) (hc : reachable p ls c) (r : Nat) (hr : r < p) :
    ∃ k, (proc_at c r).proc_diff = 2 ^ k ∧ 2 ^ k ∣ r ∧
      (proc_at c r).my_count = (proc_at c r).all_primes.length ∧
      (proc_at c r).all_primes.Perm
        ((List.range' r (min (2 ^ k) (p - r))).map
          (fun j => (ls.map (fun l => l.local_primes)).getD j [])).flatten ∧
      (List.range' r (min (2 ^ k) (p - r))).map
          (fun j => (ls.map (fun l => l.local_primes)).getD j [])
        = ((ls.map (fun l => l.local_primes)).drop r).take (2 ^ k) := by
  obtain ⟨m, _, _, _, hI⟩ := Inv_of_reachable p ls hlen hcount c hc
  obtain ⟨k, hk⟩ := hI.procs r hr
  have hL : (ls.map (fun l => l.local_primes)).length = p := by simpa using hlen
  have e := take_drop_eq_map_range' (ls.map (fun l => l.local_primes)) r (2 ^ k)
  rw [hL] at e
  refine ⟨k, hk.proc_diff_eq, hk.dvd, by rw [hk.count_eq, hk.data_eq], ?_, e.symm⟩
  rw [← e, hk.data_eq]
  exact expected_perm p _ hL k r

theorem held_list_is_union_witness :
    (sample_locals.length = 3 ∧
      (∀ l, l ∈ sample_locals → l.local_count = l.local_primes.length) ∧
      reachable 3 sample_locals sample_config ∧ 0 < 3) ∧
    ∃ k, (proc_at sample_config 0).proc_diff = 2 ^ k ∧ 2 ^ k ∣ 0 ∧
      (proc_at sample_config 0).my_count = (proc_at sample_config 0).all_primes.length ∧
      (proc_at sample_config 0).all_primes.Perm
        ((List.range' 0 (min (2 ^ k) (3 - 0))).map
          (fun j => (sample_locals.map (fun l => l.local_primes)).getD j [])).flatten ∧
      (List.range' 0 (min (2 ^ k) (3 - 0))).map
          (fun j => (sample_locals.map (fun l => l.local_primes)).getD j [])
        = ((sample_locals.map (fun l => l.local_primes)).drop 0).take (2 ^ k) :=
  ⟨⟨by decide, by decide, sample_reachable, by decide⟩,
    held_list_is_union 3 sample_locals (by decide) (by decide) sample_config
      sample_reachable 0 (by decide)⟩

/-- C15: in any reachable configuration of the reduction:
a rank `s` about to send (guard true, `s % divisor ≠ 0`) targets `s - proc_diff`, a rank
in `[0, p)` that is still in its loop with `done = 0`, has not passed the round of `s`,
and in that round is a receiver (`(s - proc_diff) % divisor = 0`) whose partner is `s`;
a rank `r` about to receive with its partner `r + proc_diff` below `p` has a partner that
has not passed the round of `r`, is a sender in that round, and is either still in its
loop or has sent in that round, its message for `r` pending;
every pending message is the one message of its sender and awaits a receiver still in its
loop; and once all loops have ended no message is pending. -/
theorem sends_match_receives (p : Nat) (ls : List LocalState) (hlen : ls.length = p)
    (hcount : ∀ l, l ∈ ls → l.local_count = l.local_primes.length)
    (c : Config) (hc : reachable p ls c) :
    (∀ s, s < p → loop_guard p (proc_at c s) = some true →
      s % (proc_at c s).divisor ≠ 0 →
        (proc_at c s).proc_diff ≤ s ∧ s - (proc_at c s).proc_diff < p ∧
        loop_guard p (proc_at c (s - (proc_at c s).proc_diff)) = some true ∧
        (proc_at c (s - (proc_at c s).proc_diff)).done = 0 ∧
        (proc_at c (s - (proc_at c s).proc_diff)).proc_diff ≤ (proc_at c s).proc_diff ∧
        (s - (proc_at c s).proc_diff) % (proc_at c s).divisor = 0 ∧
        (s - (proc_at c s).proc_diff) + (proc_at c s).proc_diff = s) ∧
    (∀ r, r < p → loop_guard p (proc_at c r) = some true →
      r % (proc_at c r).divisor = 0 → r + (proc_at c r).proc_diff < p →
        (proc_at c (r + (proc_at c r).proc_diff)).proc_diff ≤ (proc_at c r).proc_diff ∧
        (r + (proc_at c r).proc_diff) % (proc_at c r).divisor ≠ 0 ∧
        (r + (proc_at c r).proc_diff) - (proc_at c r).proc_diff = r ∧
        ((proc_at c (r + (proc_at c r).proc_diff)).done = 0 →
          loop_guard p (proc_at c (r + (proc_at c r).proc_diff)) = some true) ∧
        ((proc_at c (r + (proc_at c r).proc_diff)).done = 1 →
          (proc_at c (r + (proc_at c r).proc_diff)).proc_diff = (proc_at c r).proc_diff ∧
          ∃ x, x ∈ c.net.pending ∧ x.source = r + (proc_at c r).proc_diff ∧ x.dest = r ∧
            x.data = (proc_at c (r + (proc_at c r).proc_diff)).all_primes.take
              (proc_at c (r + (proc_at c r).proc_diff)).my_count)) ∧
    (∀ x, x ∈ c.net.pending →
      x = msg_of x.source (proc_at c x.source) ∧ (proc_at c x.source).done = 1 ∧
      x.dest < p ∧ loop_guard p (proc_at c x.dest) = some true ∧
      (proc_at c x.dest).proc_diff ≤ (proc_at c x.source).proc_diff ∧
      x.dest % (proc_at c x.source).divisor = 0) ∧
    (c.net.pending.map (fun x => x.source)).Nodup ∧
    ((∀ t, t < p → loop_ended p c t) → c.net.pending = []) := by
  obtain ⟨m, hm, hpm, _, hI⟩ := Inv_of_reachable p ls hlen hcount c hc
  refine ⟨?_, ?_, ?_, hI.pending_nodup, ?_⟩
  · intro s hs hg hmod
    obtain ⟨k, hk⟩ := hI.procs s hs
    obtain ⟨hd, hlt⟩ := guard_true_level hm hk hg
    have hnd := (mod_divisor_ne_zero_iff hk).mp hmod
    obtain ⟨h1, h2, kd, hkd, hle, hdd⟩ := target_of_sender hI s k hs hk hd hnd
    have hpos : 0 < 2 ^ k := Nat.two_pow_pos k
    rw [hk.proc_diff_eq, hk.divisor_eq]
    refine ⟨h1, by omega, guard_true_of hm hkd hdd (by omega), hdd, ?_, ?_, by omega⟩
    · rw [hkd.proc_diff_eq]
      exact (pow_two_le_iff _ _).mpr hle
    · exact Nat.mod_eq_zero_of_dvd h2
  · intro r hr hg hmod hpart
    obtain ⟨k, hk⟩ := hI.procs r hr
    obtain ⟨hd, hlt⟩ := guard_true_level hm hk hg
    have hdv : 2 ^ (k + 1) ∣ r := by
      by_contra hcon
      exact (mod_divisor_ne_zero_iff hk).mpr hcon hmod
    rw [hk.proc_diff_eq] at hpart ⊢
    rw [hk.divisor_eq]
    obtain ⟨kt, hkt, hle, hdone⟩ := partner_of_receiver hI r k hdv hpart
    have hlev := partner_level r k hdv
    refine ⟨?_, ?_, by omega, ?_, ?_⟩
    · rw [hkt.proc_diff_eq]
      exact (pow_two_le_iff _ _).mpr hle
    · intro h0
      exact hlev.2 (Nat.dvd_of_mod_eq_zero h0)
    · intro hd0
      exact guard_true_of hm hkt hd0 (by omega)
    · intro hd1
      have e := hdone hd1
      subst e
      have hpdt := hkt.proc_diff_eq
      have hsub : r + 2 ^ kt - (proc_at c (r + 2 ^ kt)).proc_diff = r := by
        rw [hpdt]; omega
      obtain ⟨x, hx, hxs⟩ := hI.pending_has _ hpart hd1
        (by rw [hsub, hk.proc_diff_eq, hpdt])
      obtain ⟨_, _, h3, h4, _⟩ := hI.pending_ok x hx
      refine ⟨hpdt, x, hx, hxs, ?_, ?_⟩
      · rw [hxs, hpdt] at h3; omega
      · rw [h4, hxs, hkt.take_eq]
  · intro x hx
    obtain ⟨h1, h2, h3, h4, h5⟩ := hI.pending_ok x hx
    obtain ⟨ks, hks⟩ := hI.procs x.source h1
    have hpos := hks.proc_diff_pos
    have hdl : x.dest < p := by omega
    obtain ⟨kd, hkd⟩ := hI.procs x.dest hdl
    have hnd : ¬ 2 ^ (ks + 1) ∣ x.source := by
      rcases hks.done_cases with h | h
      · omega
      · exact h.2
    have htgt := sender_target x.source ks hks.dvd hnd
    have hde : x.dest = x.source - 2 ^ ks := by
      rw [hks.proc_diff_eq] at h3; omega
    have hle : kd ≤ ks := by
      rw [hkd.proc_diff_eq, hks.proc_diff_eq, pow_two_le_iff] at h5
      exact h5
    have hdvd : 2 ^ (ks + 1) ∣ x.dest := by rw [hde]; exact htgt.2
    have hlt := level_lt_of_pos x.source ks m p hks.dvd (by omega) h1 hpm
    have hdd : (proc_at c x.dest).done = 0 := by
      rcases hkd.done_cases with h | h
      · exact h
      · exact absurd (Nat.dvd_trans (Nat.pow_dvd_pow 2 (by omega)) hdvd) h.2
    refine ⟨?_, h2, hdl, guard_true_of hm hkd hdd (by omega), h5, ?_⟩
    · have e1 : (msg_of x.source (proc_at c x.source)).source = x.source := rfl
      have e2 : (msg_of x.source (proc_at c x.source)).dest
          = x.source - (proc_at c x.source).proc_diff := rfl
      have e3 : (msg_of x.source (proc_at c x.source)).data
          = (proc_at c x.source).all_primes.take (proc_at c x.source).my_count := rfl
      cases x with
      | mk xs xd xdata =>
        simp only at h3 h4 e1 e2 e3 ⊢
        simp only [msg_of, Msg.mk.injEq, true_and]
        refine ⟨by omega, ?_⟩
        rw [hks.take_eq]; exact h4
    · rw [hks.divisor_eq]
      exact Nat.mod_eq_zero_of_dvd hdvd
  · intro hended
    apply pending_nil_of_ended hm hpm hI
    intro t ht
    obtain ⟨s, hs1, hs2⟩ := hended t ht
    obtain ⟨_, rfl⟩ := getElem?_eq_some_proc_at c t s hs1
    exact hs2

theorem sends_match_receives_witness :
    (sample_locals.length = 3 ∧
      (∀ l, l ∈ sample_locals → l.local_count = l.local_primes.length) ∧
      reachable 3 sample_locals sample_config) ∧
    ∃ x, x ∈ sample_config.net.pending ∧ x.source = 0 + (proc_at sample_config 0).proc_diff ∧
      x.dest = 0 ∧
      x.data = (proc_at sample_config (0 + (proc_at sample_config 0).proc_diff)).all_primes.take
        (proc_at sample_config (0 + (proc_at sample_config 0).proc_diff)).my_count :=
  ⟨⟨by decide, by decide, sample_reachable⟩,
    ((sends_match_receives 3 sample_locals (by decide) (by decide) sample_config
      sample_reachable).2.1 0 (by decide) (by decide) (by decide) (by decide)).2.2.2.2
      (by decide) |>.2⟩

/-- C19 (the claim as stated fails): the state line 93-96 sets up has `divisor = 2` and
`proc_diff = 1`, so the divisor is neither 1 nor equal to the step distance. -/
theorem initial_divisor_not_one :
    ∃ s, init_proc ⟨9, [3, 5, 7], 3⟩ = some s ∧ s.divisor = 2 ∧ s.proc_diff = 1 ∧
      ¬ (s.divisor = 1 ∧ s.proc_diff = 1) ∧ s.divisor ≠ s.proc_diff :=
  ⟨⟨[3, 5, 7], [], [], 3, 2, 1, 0⟩, by decide, rfl, rfl, by decide, by decide⟩

/-- C19 (amended): the reduction state starts with `divisor = 2` and `proc_diff = 1`; a
pass in which the rank receives (`my_rank % divisor = 0`) doubles both, a pass in which
it sends changes neither; so in every reachable configuration the divisor of the sender
test is twice the step distance that locates the partner. -/
theorem divisor_twice_proc_diff (p : Nat) (ls : List LocalState) (c : Config)
    (hc : reachable p ls c) (r : Nat) (hr : r < c.procs.length) :
    (proc_at c r).divisor = 2 * (proc_at c r).proc_diff ∧
    (∀ l s, init_proc l = some s → s.divisor = 2 ∧ s.proc_diff = 1) ∧
    (∀ q my_rank all_counts s net s2 net2,
      loop_body q my_rank all_counts s net = some (s2, net2) →
        (my_rank % s.divisor = 0 →
          s2.divisor = s.divisor * 2 ∧ s2.proc_diff = s.proc_diff * 2) ∧
        (my_rank % s.divisor ≠ 0 →
          s2.divisor = s.divisor ∧ s2.proc_diff = s.proc_diff ∧ s2.done = 1)) := by
  refine ⟨reachable_twice p ls c hc r hr, ?_, ?_⟩
  · intro l s h
    obtain ⟨h1, h2, _⟩ := init_proc_values l s h
    exact ⟨h1, h2⟩
  · intro q my_rank all_counts s net s2 net2 h
    obtain ⟨h1, h2⟩ := loop_body_doubles q my_rank all_counts s s2 net net2 h
    exact ⟨fun h0 => ⟨(h1 h0).1, (h1 h0).2.1⟩, h2⟩

theorem divisor_twice_proc_diff_witness :
    (reachable 3 sample_locals sample_config ∧ 0 < sample_config.procs.length) ∧
    ((proc_at sample_config 0).divisor = 2 * (proc_at sample_config 0).proc_diff ∧
    (∀ l s, init_proc l = some s → s.divisor = 2 ∧ s.proc_diff = 1) ∧
    (∀ q my_rank all_counts s net s2 net2,
      loop_body q my_rank all_counts s net = some (s2, net2) →
        (my_rank % s.divisor = 0 →
          s2.divisor = s.divisor * 2 ∧ s2.proc_diff = s.proc_diff * 2) ∧
        (my_rank % s.divisor ≠ 0 →
          s2.divisor = s.divisor ∧ s2.proc_diff = s.proc_diff ∧ s2.done = 1))) :=
  ⟨⟨sample_reachable, by decide⟩,
    divisor_twice_proc_diff 3 sample_locals sample_config sample_reachable 0 (by decide)⟩

/-- C20 (evaluation at the failing input): with `n = 12` on one rank, the block
allocated for `local_primes` has `12 / 2 + 2 * 4 = 14` bytes, room for 3 `int`s, and the
partition loop of rank 0 stores 4 primes: given room it ends with `[3, 5, 7, 11]` and
`local_count = 4`, which the block of the program does not hold, so that the fourth
store is outside the block. -/
theorem local_primes_overflow :
    local_primes_bytes 12 1 = 14 ∧ local_primes_bytes 12 1 / sizeof_int = 3 ∧
    (∃ st, local_loop 12 1 12 13 ⟨3, [], 0⟩ = some st ∧ st.local_primes = [3, 5, 7, 11] ∧
      st.local_count = 4 ∧ ¬ st.local_count ≤ local_primes_bytes 12 1 / sizeof_int) ∧
    local_phase 12 1 0 = none := by
  have hcs : candidates 12 1 0 = some [3, 5, 7, 9, 11] := by decide
  obtain ⟨hl, hc⟩ := local_of_candidates 12 1 0 (le_refl 1) _ hcs
  have hf : ([3, 5, 7, 9, 11] : List Nat).filter (fun i => decide (Nat.Prime i))
      = [3, 5, 7, 11] := by
    have p3 : Nat.Prime 3 := by norm_num
    have p5 : Nat.Prime 5 := by norm_num
    have p7 : Nat.Prime 7 := by norm_num
    have p9 : ¬ Nat.Prime 9 := by norm_num
    have p11 : Nat.Prime 11 := by norm_num
    simp [List.filter, p3, p5, p7, p9, p11]
  rw [hf] at hl hc
  have hnf : ¬ (local_of 12 1 0).local_count ≤ local_primes_bytes 12 1 / sizeof_int := by
    rw [hc]; decide
  exact ⟨by decide, by decide,
    ⟨_, local_loop_of_room 12 1 0 (le_refl 1), hl, hc, hnf⟩,
    local_phase_none 12 1 0 (le_refl 1) hnf⟩

end MPIPrime
